import Mathlib

/-!
# StereoKit render queue radix sort (`StereoKitC/systems/render_sort.cpp`)

A shallow embedding of the LSD radix sort used for the render queue, and
theorems about it.

Conventions of the embedding:

* `uint64_t` keys are natural numbers; a record is well formed when its key is
  below `2 ^ 64`.  Keys are only shifted right and masked, so no operation on
  them can overflow.
* `size_t` counters are natural numbers.  Every counter is bounded by `count`,
  which itself is a `size_t`, so no counter can overflow.
* Memory blocks are lists.  A read or write through a pointer outside its block,
  or through the null pointer, is a fault: the operation returns `none`.
  A failing `assert` is a fault as well.
* A pointer into one of the two record buffers is the pair of the buffer's name
  (`BufferRole`) and an offset; `queue_ptrs` holds offsets into the destination.
-/

namespace RenderSort

/-! ## Constants -/

def RADIX_BITS : Nat := 8
def RADIX_SIZE : Nat := 1 <<< RADIX_BITS
def RADIX_LEVELS : Nat := (63 / RADIX_BITS) + 1
def RADIX_MASK : Nat := RADIX_SIZE - 1

/-! ## Data model -/

/-- Modelled from the spec: `render_item_t` is declared in `render_sort.h`, which is
not part of the sources at hand.  The spec describes a record as a 64-bit unsigned sort
key together with payload bytes the algorithm never inspects; the payload is kept as
one opaque number. -/
structure render_item_t where
  sort_id : Nat
  payload : Nat
deriving DecidableEq, Repr

/-- The two globals `radix_queue_area` (`none` is `nullptr`) and `radix_queue_size`. -/
structure Scratch where
  radix_queue_area : Option (List render_item_t)
  radix_queue_size : Nat
deriving DecidableEq, Repr

/-- The state of the globals at program start. -/
def Scratch.initial : Scratch := ⟨none, 0⟩

/-- The tracked capacity describes the block held: no block and capacity 0, or a block of
exactly `radix_queue_size` records.  Every state reachable from `Scratch.initial` is of
this form. -/
def Scratch.Valid (s : Scratch) : Prop :=
  match s.radix_queue_area with
  | none => s.radix_queue_size = 0
  | some buf => buf.length = s.radix_queue_size

instance : (s : Scratch) → Decidable s.Valid
  | ⟨none, n⟩ => inferInstanceAs (Decidable (n = 0))
  | ⟨some buf, n⟩ => inferInstanceAs (Decidable (buf.length = n))

/-- Keys fit in 64 bits. -/
def Keys64 (a : List render_item_t) : Prop := ∀ r ∈ a, r.sort_id < 2 ^ 64

instance (a : List render_item_t) : Decidable (Keys64 a) :=
  inferInstanceAs (Decidable (∀ r ∈ a, r.sort_id < 2 ^ 64))

/-- Modelled from the spec: `sk_malloc_t(render_item_t, n)` is a macro of the
repository that is not part of the sources at hand.  Per the spec, allocation failure
is fatal, so a returned block is never null; it has room for exactly `n` records and
its contents are unspecified, given here by the arbitrary function `junk`. -/
def sk_malloc_t (junk : Nat → render_item_t) (n : Nat) : List render_item_t :=
  (List.range n).map junk

/-! ## `radix_sort_clean` -/

def radix_sort_clean (_s : Scratch) : Scratch :=
  { radix_queue_area := none, radix_queue_size := 0 }

/-! ## `count_frequency` -/

/-- The type `freq_array_type`: `RADIX_LEVELS` rows of `RADIX_SIZE` counters. -/
abbrev freq_array_type := List (List Nat)

/-- The initialiser `freq_array_type freqs = {}`. -/
def freqs_zero : freq_array_type :=
  List.replicate RADIX_LEVELS (List.replicate RADIX_SIZE 0)

/-- The statement `freqs[pass][digit]++`. -/
def freqs_incr (freqs : freq_array_type) (pass digit : Nat) : freq_array_type :=
  freqs.set pass ((freqs.getD pass []).set digit (((freqs.getD pass []).getD digit 0) + 1))

/-- The inner loop of `count_frequency`; the first argument is the number of
iterations left, `pass` the loop variable. -/
def count_frequency_passes : Nat → Nat → Nat → freq_array_type → freq_array_type
  | 0, _, _, freqs => freqs
  | n + 1, pass, value, freqs =>
    count_frequency_passes n (pass + 1) (value >>> RADIX_BITS)
      (freqs_incr freqs pass (value &&& RADIX_MASK))

/-- The outer loop of `count_frequency`; the first argument is the number of
iterations left, `i` the loop variable. -/
def count_frequency_loop :
    Nat → Nat → List render_item_t → freq_array_type → Option freq_array_type
  | 0, _, _, freqs => some freqs
  | n + 1, i, a, freqs =>
    match a[i]? with
    | none => none
    | some r =>
      count_frequency_loop n (i + 1) a
        (count_frequency_passes RADIX_LEVELS 0 r.sort_id freqs)

def count_frequency (a : List render_item_t) (count : Nat) (freqs : freq_array_type) :
    Option freq_array_type :=
  count_frequency_loop count 0 a freqs

/-! ## `is_trivial` -/

/-- The scan of `is_trivial`; the first argument is the number of iterations left.
Falling out of the loop reaches `assert(count == 0)`. -/
def is_trivial_loop : Nat → Nat → List Nat → Nat → Option Bool
  | 0, _, _, count => if count = 0 then some true else none
  | n + 1, i, freqs, count =>
    let freq := freqs.getD i 0
    if freq ≠ 0 then some (freq == count)
    else is_trivial_loop n (i + 1) freqs count

def is_trivial (freqs : List Nat) (count : Nat) : Option Bool :=
  is_trivial_loop RADIX_SIZE 0 freqs count

/-! ## `radix_sort7` -/

/-- The two record buffers a pointer of `radix_sort7` can point into. -/
inductive BufferRole where
  | caller
  | scratch
deriving DecidableEq, Repr

/-- The memory `radix_sort7` works on: the caller's block `a` and the scratch block. -/
structure Memory where
  a : List render_item_t
  area : Option (List render_item_t)
deriving DecidableEq, Repr

/-- Read `p[i]`. -/
def Memory.read (m : Memory) (p : BufferRole) (i : Nat) : Option render_item_t :=
  match p with
  | .caller => m.a[i]?
  | .scratch => match m.area with
    | none => none
    | some buf => buf[i]?

/-- Write `p[i] = value`. -/
def Memory.write (m : Memory) (p : BufferRole) (i : Nat) (value : render_item_t) :
    Option Memory :=
  match p with
  | .caller => if i < m.a.length then some { m with a := m.a.set i value } else none
  | .scratch => match m.area with
    | none => none
    | some buf =>
      if i < buf.length then some { m with area := some (buf.set i value) } else none

/-- The loop filling `queue_ptrs` (as offsets from `to`); `next` is the running sum. -/
def queue_ptrs_loop : Nat → Nat → List Nat → Nat → List Nat → List Nat
  | 0, _, _, _, queue_ptrs => queue_ptrs
  | n + 1, i, freqs, next, queue_ptrs =>
    queue_ptrs_loop n (i + 1) freqs (next + freqs.getD i 0) (queue_ptrs.set i next)

def queue_ptrs_init (freqs : List Nat) : List Nat :=
  queue_ptrs_loop RADIX_SIZE 0 freqs 0 (List.replicate RADIX_SIZE 0)

/-- The copy loop of one pass: `value = from[i]`, `*queue_ptrs[index]++ = value`.
The prefetch is a hint without effect. -/
def partition_loop :
    Nat → Nat → Nat → BufferRole → BufferRole → List Nat → Memory → Option Memory
  | 0, _, _, _, _, _, m => some m
  | n + 1, i, shift, src, dst, queue_ptrs, m =>
    match m.read src i with
    | none => none
    | some value =>
      let index := (value.sort_id >>> shift) &&& RADIX_MASK
      match m.write dst (queue_ptrs.getD index 0) value with
      | none => none
      | some m1 =>
        partition_loop n (i + 1) shift src dst
          (queue_ptrs.set index (queue_ptrs.getD index 0 + 1)) m1

/-- The level loop; the first argument is the number of levels left.  Returns the
memory and the final `from` pointer. -/
def radix_pass_loop :
    Nat → Nat → freq_array_type → Nat → BufferRole → BufferRole → Memory →
      Option (Memory × BufferRole)
  | 0, _, _, _, src, _, m => some (m, src)
  | n + 1, pass, freqs, count, src, dst, m =>
    match is_trivial (freqs.getD pass []) count with
    | none => none
    | some true => radix_pass_loop n (pass + 1) freqs count src dst m
    | some false =>
      let shift := pass * RADIX_BITS
      let queue_ptrs := queue_ptrs_init (freqs.getD pass [])
      match partition_loop count 0 shift src dst queue_ptrs m with
      | none => none
      | some m1 => radix_pass_loop n (pass + 1) freqs count dst src m1

/-- The statement `memcpy(a, from, count*sizeof(render_item_t))` with `from` the
scratch block. -/
def final_copy (m : Memory) (count : Nat) : Option Memory :=
  match m.area with
  | none => none
  | some buf =>
    if count ≤ buf.length ∧ count ≤ m.a.length then
      some { m with a := buf.take count ++ m.a.drop count }
    else none

/-- The resize at the head of `radix_sort7`. -/
def radix_resize (junk : Nat → render_item_t) (count : Nat) (s : Scratch) : Scratch :=
  if s.radix_queue_size < count then
    { radix_queue_area := some (sk_malloc_t junk count), radix_queue_size := count }
  else s

/-- The function `radix_sort7(a, count)`: returns the caller's block and the globals
after the call, or `none` on a fault.  `junk` is what the allocator's fresh block
happens to hold. -/
def radix_sort7 (junk : Nat → render_item_t) (a : List render_item_t) (count : Nat)
    (s : Scratch) : Option (List render_item_t × Scratch) :=
  let s1 := radix_resize junk count s
  match count_frequency a count freqs_zero with
  | none => none
  | some freqs =>
    match radix_pass_loop RADIX_LEVELS 0 freqs count .caller .scratch
        ⟨a, s1.radix_queue_area⟩ with
    | none => none
    | some (m, src) =>
      if src ≠ .caller then
        match final_copy m count with
        | none => none
        | some m1 => some (m1.a, { s1 with radix_queue_area := m1.area })
      else some (m.a, { s1 with radix_queue_area := m.area })

/-! ## Reference notions used by the theorems -/

/-- The digit of a record at level `pass`, the expression
`(value.sort_id >> shift) & RADIX_MASK` with `shift = pass * RADIX_BITS`. -/
def digit (pass : Nat) (r : render_item_t) : Nat :=
  (r.sort_id >>> (pass * RADIX_BITS)) &&& RADIX_MASK

/-- The records of `xs` with digit below `n`, grouped by ascending digit, each group in
the order of `xs`. -/
def bucketsUpTo (d : render_item_t → Nat) (xs : List render_item_t) :
    Nat → List render_item_t
  | 0 => []
  | n + 1 => bucketsUpTo d xs n ++ xs.filter (fun x => d x = n)

/-- One stable distribution of `xs` by the digit of level `pass`. -/
def stable_pass (pass : Nat) (xs : List render_item_t) : List render_item_t :=
  bucketsUpTo (digit pass) xs RADIX_SIZE

/-- The stable distribution applied on `n` successive levels starting at `pass`. -/
def lsd_passes : Nat → Nat → List render_item_t → List render_item_t
  | 0, _, xs => xs
  | n + 1, pass, xs => lsd_passes n (pass + 1) (stable_pass pass xs)

/-- Start offset of the run of digit `v`: the sum of the counts of all smaller digits. -/
def offset (c : Nat → Nat) : Nat → Nat
  | 0 => 0
  | v + 1 => offset c v + c v

/-- Number of records of `xs` whose digit is `v`. -/
def digit_count (d : render_item_t → Nat) (xs : List render_item_t) (v : Nat) : Nat :=
  (xs.filter (fun x => d x = v)).length

/-- The block a pointer points into, `none` for the null pointer. -/
def Memory.buf (m : Memory) (p : BufferRole) : Option (List render_item_t) :=
  match p with
  | .caller => some m.a
  | .scratch => m.area

/-- The copy loop on lists: each record of `xs` in turn is stored at its digit's slot and
the slot advances; a store outside the destination is dropped. -/
def scatter (d : render_item_t → Nat) :
    List render_item_t → List Nat → List render_item_t → List render_item_t
  | [], _, dst => dst
  | x :: xs, ptrs, dst =>
    scatter d xs (ptrs.set (d x) (ptrs.getD (d x) 0 + 1)) (dst.set (ptrs.getD (d x) 0) x)

/-- One call `radix_sort7(a, count)`; `junk` is what a fresh block would hold should the
call allocate. -/
structure SortCall where
  junk : Nat → render_item_t
  a : List render_item_t
  count : Nat

/-- A sequence of calls sharing the globals: the blocks the calls hand back, in order,
and the globals after the last call. -/
def radix_sort7_calls :
    List SortCall → Scratch → Option (List (List render_item_t) × Scratch)
  | [], s => some ([], s)
  | c :: cs, s =>
    match radix_sort7 c.junk c.a c.count s with
    | none => none
    | some (a1, s1) =>
      match radix_sort7_calls cs s1 with
      | none => none
      | some (outs, s2) => some (a1 :: outs, s2)

/-- The largest count among the calls, 0 when there is none. -/
def max_count : List SortCall → Nat
  | [] => 0
  | c :: cs => max c.count (max_count cs)

/-- The counter table has `RADIX_LEVELS` rows of `RADIX_SIZE` counters. -/
def FreqShape (freqs : freq_array_type) : Prop :=
  freqs.length = RADIX_LEVELS ∧ ∀ l, l < RADIX_LEVELS → (freqs.getD l []).length = RADIX_SIZE

/-! ## Further reference notions -/

/-- The level loop of the variant of `radix_sort7` that never consults `is_trivial` and runs
the partition pass on every level. -/
def radix_pass_loop_noskip :
    Nat → Nat → freq_array_type → Nat → BufferRole → BufferRole → Memory →
      Option (Memory × BufferRole)
  | 0, _, _, _, src, _, m => some (m, src)
  | n + 1, pass, freqs, count, src, dst, m =>
    let shift := pass * RADIX_BITS
    let queue_ptrs := queue_ptrs_init (freqs.getD pass [])
    match partition_loop count 0 shift src dst queue_ptrs m with
    | none => none
    | some m1 => radix_pass_loop_noskip n (pass + 1) freqs count dst src m1

/-- The variant of `radix_sort7` that never skips a level: `radix_sort7` with its level
loop replaced by `radix_pass_loop_noskip`. -/
def radix_sort7_noskip (junk : Nat → render_item_t) (a : List render_item_t) (count : Nat)
    (s : Scratch) : Option (List render_item_t × Scratch) :=
  let s1 := radix_resize junk count s
  match count_frequency a count freqs_zero with
  | none => none
  | some freqs =>
    match radix_pass_loop_noskip RADIX_LEVELS 0 freqs count .caller .scratch
        ⟨a, s1.radix_queue_area⟩ with
    | none => none
    | some (m, src) =>
      if src ≠ .caller then
        match final_copy m count with
        | none => none
        | some m1 => some (m1.a, { s1 with radix_queue_area := m1.area })
      else some (m.a, { s1 with radix_queue_area := m.area })

/-- The keys of the first `count` records of `a`, each paired with its position as
payload. -/
def tag_positions (a : List render_item_t) (count : Nat) : List render_item_t :=
  (List.range count).map (fun i => ⟨(a.getD i ⟨0, 0⟩).sort_id, i⟩)

/-- The other of the two record buffers. -/
def BufferRole.other : BufferRole → BufferRole
  | .caller => .scratch
  | .scratch => .caller

/-- The copy loop `partition_loop` with a log: besides the memory it returns the
destination offsets written, in order, and the slot table after the last record. -/
def partition_loop_writes :
    Nat → Nat → Nat → BufferRole → BufferRole → List Nat → Memory →
      Option (Memory × List Nat × List Nat)
  | 0, _, _, _, _, queue_ptrs, m => some (m, [], queue_ptrs)
  | n + 1, i, shift, src, dst, queue_ptrs, m =>
    match m.read src i with
    | none => none
    | some value =>
      let index := (value.sort_id >>> shift) &&& RADIX_MASK
      match m.write dst (queue_ptrs.getD index 0) value with
      | none => none
      | some m1 =>
        match partition_loop_writes n (i + 1) shift src dst
            (queue_ptrs.set index (queue_ptrs.getD index 0 + 1)) m1 with
        | none => none
        | some (m2, writes, ptrs) => some (m2, queue_ptrs.getD index 0 :: writes, ptrs)

/-- The offsets written by the copy loop on the records `xs`, in order. -/
def scatter_writes (d : render_item_t → Nat) : List render_item_t → List Nat → List Nat
  | [], _ => []
  | x :: xs, ptrs =>
    ptrs.getD (d x) 0 :: scatter_writes d xs (ptrs.set (d x) (ptrs.getD (d x) 0 + 1))

/-- The slot table after the copy loop has gone through the records `xs`. -/
def scatter_ptrs (d : render_item_t → Nat) : List render_item_t → List Nat → List Nat
  | [], ptrs => ptrs
  | x :: xs, ptrs => scatter_ptrs d xs (ptrs.set (d x) (ptrs.getD (d x) 0 + 1))

/-! ## Stable distribution on lists -/

theorem bucketsUpTo_mem_lt (d : render_item_t → Nat) (xs : List render_item_t) (n : Nat) :
    ∀ x ∈ bucketsUpTo d xs n, d x < n ∧ x ∈ xs := by
  induction n with
  | zero => intro x hx; simp [bucketsUpTo] at hx
  | succ n ih =>
    intro x hx
    simp only [bucketsUpTo, List.mem_append, List.mem_filter, decide_eq_true_eq] at hx
    rcases hx with hx | ⟨hx, hd⟩
    · exact ⟨Nat.lt_succ_of_lt (ih x hx).1, (ih x hx).2⟩
    · exact ⟨by omega, hx⟩

theorem bucketsUpTo_perm (d : render_item_t → Nat) (xs : List render_item_t) (n : Nat) :
    (bucketsUpTo d xs n).Perm (xs.filter (fun x => d x < n)) := by
  induction n with
  | zero => simp [bucketsUpTo]
  | succ n ih =>
    have h := List.filter_append_perm (fun x => decide (d x < n))
      (xs.filter (fun x => d x < n + 1))
    rw [List.filter_filter, List.filter_filter] at h
    have e1 : xs.filter (fun a => decide (d a < n) && decide (d a < n + 1))
        = xs.filter (fun x => d x < n) := by
      apply List.filter_congr
      intro x _
      by_cases hx : d x < n <;> simp [hx]
      omega
    have e2 : xs.filter (fun a => (!decide (d a < n)) && decide (d a < n + 1))
        = xs.filter (fun x => d x = n) := by
      apply List.filter_congr
      intro x _
      by_cases hx : d x = n
      · simp [hx]
      · by_cases hx2 : d x < n <;> simp [hx, hx2]
        omega
    rw [e1, e2] at h
    simp only [bucketsUpTo]
    exact (List.Perm.append_right _ ih).trans h

theorem bucketsUpTo_perm_self (d : render_item_t → Nat) (xs : List render_item_t) (n : Nat)
    (h : ∀ x ∈ xs, d x < n) : (bucketsUpTo d xs n).Perm xs := by
  have := bucketsUpTo_perm d xs n
  rwa [List.filter_eq_self.mpr (by simpa using h)] at this

theorem bucketsUpTo_pairwise (d : render_item_t → Nat) (S : render_item_t → render_item_t → Prop)
    (xs : List render_item_t) (hS : xs.Pairwise S) (n : Nat) :
    (bucketsUpTo d xs n).Pairwise (fun a b => d a < d b ∨ (d a = d b ∧ S a b)) := by
  induction n with
  | zero => simp [bucketsUpTo]
  | succ n ih =>
    simp only [bucketsUpTo]
    rw [List.pairwise_append]
    refine ⟨ih, ?_, ?_⟩
    · have h1 : (xs.filter (fun x => d x = n)).Pairwise S :=
        List.Pairwise.sublist (List.filter_sublist xs) hS
      have h2 : ∀ x ∈ xs.filter (fun x => d x = n), d x = n := by
        intro x hx; simpa using (List.mem_filter.mp hx).2
      refine List.Pairwise.imp_of_mem ?_ h1
      intro a b ha hb hab
      right
      exact ⟨by rw [h2 a ha, h2 b hb], hab⟩
    · intro a ha b hb
      left
      have h1 := (bucketsUpTo_mem_lt d xs n a ha).1
      have h2 : d b = n := by simpa using (List.mem_filter.mp hb).2
      omega

/-- Restricting the distribution to a property that fixes the digit gives back the
restriction of the input: the distribution is stable. -/
theorem bucketsUpTo_filter (d : render_item_t → Nat) (q : render_item_t → Bool) (v : Nat)
    (hq : ∀ x, q x = true → d x = v) (xs : List render_item_t) (n : Nat) :
    (bucketsUpTo d xs n).filter q = if v < n then xs.filter q else [] := by
  induction n with
  | zero => simp [bucketsUpTo]
  | succ n ih =>
    simp only [bucketsUpTo, List.filter_append, ih, List.filter_filter]
    by_cases h1 : v < n
    · have : xs.filter (fun a => q a && decide (d a = n)) = [] := by
        rw [List.filter_eq_nil_iff]
        intro a _ ha
        simp only [Bool.and_eq_true, decide_eq_true_eq] at ha
        have := hq a ha.1
        omega
      simp [h1, this, Nat.lt_succ_of_lt h1]
    · by_cases h2 : v = n
      · subst h2
        have : xs.filter (fun a => q a && decide (d a = v)) = xs.filter q := by
          apply List.filter_congr
          intro x _
          by_cases hx : q x = true
          · simp [hx, hq x hx]
          · simp [hx]
        simp [this]
      · have h3 : ¬ v < n + 1 := by omega
        have : xs.filter (fun a => q a && decide (d a = n)) = [] := by
          rw [List.filter_eq_nil_iff]
          intro a _ ha
          simp only [Bool.and_eq_true, decide_eq_true_eq] at ha
          have := hq a ha.1
          omega
        simp [h1, h3, this]

/-- When every record has the same digit, the distribution is the identity. -/
theorem bucketsUpTo_const (d : render_item_t → Nat) (v : Nat) (xs : List render_item_t)
    (h : ∀ x ∈ xs, d x = v) (n : Nat) :
    bucketsUpTo d xs n = if v < n then xs else [] := by
  induction n with
  | zero => simp [bucketsUpTo]
  | succ n ih =>
    simp only [bucketsUpTo, ih]
    by_cases h1 : v < n
    · have : xs.filter (fun a => decide (d a = n)) = [] := by
        rw [List.filter_eq_nil_iff]
        intro a ha
        have := h a ha
        simp; omega
      simp [h1, this, Nat.lt_succ_of_lt h1]
    · by_cases h2 : v = n
      · subst h2
        have : xs.filter (fun a => decide (d a = v)) = xs := by
          rw [List.filter_eq_self]
          intro a ha
          simp [h a ha]
        simp [this]
      · have h3 : ¬ v < n + 1 := by omega
        have : xs.filter (fun a => decide (d a = n)) = [] := by
          rw [List.filter_eq_nil_iff]
          intro a ha
          have := h a ha
          simp; omega
        simp [h1, h3, this]

theorem bucketsUpTo_length (d : render_item_t → Nat) (xs : List render_item_t) (n : Nat) :
    (bucketsUpTo d xs n).length = offset (digit_count d xs) n := by
  induction n with
  | zero => rfl
  | succ n ih => simp [bucketsUpTo, offset, digit_count, ih]

/-! ## The copy loop on lists -/

theorem getD_set_nat (l : List Nat) (i j v : Nat) (h : i < l.length) :
    (l.set i v).getD j 0 = if j = i then v else l.getD j 0 := by
  simp only [List.getD_eq_getElem?_getD, List.getElem?_set]
  by_cases hji : j = i
  · subst hji; simp [h]
  · have : ¬ i = j := fun e => hji e.symm
    simp [hji, this]

theorem digit_count_cons (d : render_item_t → Nat) (x : render_item_t)
    (xs : List render_item_t) (v : Nat) :
    digit_count d (x :: xs) v = digit_count d xs v + if d x = v then 1 else 0 := by
  unfold digit_count
  by_cases h : d x = v <;> simp [List.filter_cons, h]

theorem scatter_length (d : render_item_t → Nat) (xs : List render_item_t) :
    ∀ (ptrs : List Nat) (dst : List render_item_t),
      (scatter d xs ptrs dst).length = dst.length := by
  induction xs with
  | nil => intro ptrs dst; rfl
  | cons x xs ih => intro ptrs dst; simp [scatter, ih]

/-- A cell outside every run still to be filled keeps its content. -/
theorem scatter_outside (d : render_item_t → Nat) (xs : List render_item_t) :
    ∀ (ptrs : List Nat) (dst : List render_item_t) (p : Nat),
      (∀ x ∈ xs, d x < ptrs.length) →
      (∀ v, p < ptrs.getD v 0 ∨ ptrs.getD v 0 + digit_count d xs v ≤ p) →
      (scatter d xs ptrs dst)[p]? = dst[p]? := by
  induction xs with
  | nil => intro ptrs dst p _ _; rfl
  | cons x xs ih =>
    intro ptrs dst p hlen hout
    have hx : d x < ptrs.length := hlen x (List.mem_cons_self _ _)
    have hp : ∀ v, (ptrs.set (d x) (ptrs.getD (d x) 0 + 1)).getD v 0
        = if v = d x then ptrs.getD (d x) 0 + 1 else ptrs.getD v 0 :=
      fun v => getD_set_nat ptrs (d x) v _ hx
    have h0 := hout (d x)
    rw [digit_count_cons] at h0
    simp only [if_true] at h0
    simp only [scatter]
    rw [ih _ _ p (by intro y hy; simpa using hlen y (List.mem_cons_of_mem _ hy))]
    · rw [List.getElem?_set_ne (by omega)]
    · intro v
      rw [hp v]
      have hv := hout v
      rw [digit_count_cons] at hv
      by_cases hvx : v = d x
      · subst hvx; simp only [if_true] at hv ⊢; omega
      · have : ¬ d x = v := fun e => hvx e.symm
        simp only [hvx, this, if_false] at hv ⊢; omega

/-- The run of digit `v` receives the records of digit `v`, in their order in `xs`. -/
theorem scatter_inside (d : render_item_t → Nat) (xs : List render_item_t) :
    ∀ (ptrs : List Nat) (dst : List render_item_t),
      (∀ x ∈ xs, d x < ptrs.length) →
      (∀ v w, v ≠ w → 0 < digit_count d xs v → 0 < digit_count d xs w →
        ptrs.getD v 0 + digit_count d xs v ≤ ptrs.getD w 0 ∨
        ptrs.getD w 0 + digit_count d xs w ≤ ptrs.getD v 0) →
      (∀ v, 0 < digit_count d xs v → ptrs.getD v 0 + digit_count d xs v ≤ dst.length) →
      ∀ v j, j < digit_count d xs v →
        (scatter d xs ptrs dst)[ptrs.getD v 0 + j]? = (xs.filter (fun x => d x = v))[j]? := by
  induction xs with
  | nil => intro ptrs dst _ _ _ v j hj; simp [digit_count] at hj
  | cons x xs ih =>
    intro ptrs dst hlen hdisj hbound v j hj
    have hx : d x < ptrs.length := hlen x (List.mem_cons_self _ _)
    have hp : ∀ v, (ptrs.set (d x) (ptrs.getD (d x) 0 + 1)).getD v 0
        = if v = d x then ptrs.getD (d x) 0 + 1 else ptrs.getD v 0 :=
      fun v => getD_set_nat ptrs (d x) v _ hx
    have hlen' : ∀ y ∈ xs, d y < (ptrs.set (d x) (ptrs.getD (d x) 0 + 1)).length := by
      intro y hy; simpa using hlen y (List.mem_cons_of_mem _ hy)
    have hcx : digit_count d (x :: xs) (d x) = digit_count d xs (d x) + 1 := by
      rw [digit_count_cons]; simp
    have hcne : ∀ w, w ≠ d x → digit_count d (x :: xs) w = digit_count d xs w := by
      intro w hw
      have : ¬ d x = w := fun e => hw e.symm
      rw [digit_count_cons]; simp [this]
    have hbx := hbound (d x) (by omega)
    simp only [scatter]
    by_cases hv : v = d x
    · subst hv
      have hfil : (x :: xs).filter (fun y => decide (d y = d x))
          = x :: xs.filter (fun y => decide (d y = d x)) := by
        simp [List.filter_cons]
      rw [hfil]
      cases j with
      | zero =>
        rw [scatter_outside d xs _ _ _ hlen']
        · simp only [Nat.add_zero]
          rw [List.getElem?_set_self (by omega)]; simp
        · intro w
          rw [hp w]
          by_cases hw : w = d x
          · subst hw; simp
          · simp only [hw, if_false]
            by_cases hcw : 0 < digit_count d xs w
            · have := hdisj (d x) w (fun e => hw e.symm) (by omega) (by rw [hcne w hw]; exact hcw)
              rw [hcne w hw] at this
              omega
            · omega
      | succ j =>
        have hj' : j < digit_count d xs (d x) := by omega
        have := ih _ (dst.set (ptrs.getD (d x) 0) x) hlen' ?_ ?_ (d x) j hj'
        · rw [hp (d x)] at this
          simp only [if_true] at this
          rw [show ptrs.getD (d x) 0 + (j + 1) = ptrs.getD (d x) 0 + 1 + j by omega, this]
          simp
        · intro a b hab ha hb
          rw [hp a, hp b]
          by_cases hax : a = d x
          · subst hax
            have hbx' : b ≠ d x := fun e => hab e.symm
            have := hdisj (d x) b hab (by omega) (by rw [hcne b hbx']; exact hb)
            rw [hcne b hbx', hcx] at this
            simp only [if_true, hbx', if_false]
            omega
          · by_cases hbx' : b = d x
            · subst hbx'
              have := hdisj a (d x) hab (by rw [hcne a hax]; exact ha) (by omega)
              rw [hcne a hax, hcx] at this
              simp only [if_true, hax, if_false]
              omega
            · have := hdisj a b hab (by rw [hcne a hax]; exact ha) (by rw [hcne b hbx']; exact hb)
              rw [hcne a hax, hcne b hbx'] at this
              simp only [hax, hbx', if_false]
              exact this
        · intro a ha
          rw [hp a, List.length_set]
          by_cases hax : a = d x
          · subst hax; simp only [if_true]; omega
          · have := hbound a (by rw [hcne a hax]; exact ha)
            rw [hcne a hax] at this
            simp only [hax, if_false]; exact this
    · have hfil : (x :: xs).filter (fun y => decide (d y = v))
          = xs.filter (fun y => decide (d y = v)) := by
        have : ¬ d x = v := fun e => hv e.symm
        simp [List.filter_cons, this]
      rw [hfil]
      rw [hcne v hv] at hj
      have := ih _ (dst.set (ptrs.getD (d x) 0) x) hlen' ?_ ?_ v j hj
      · rw [hp v] at this
        simp only [hv, if_false] at this
        exact this
      · intro a b hab ha hb
        rw [hp a, hp b]
        by_cases hax : a = d x
        · subst hax
          have hbx' : b ≠ d x := fun e => hab e.symm
          have := hdisj (d x) b hab (by omega) (by rw [hcne b hbx']; exact hb)
          rw [hcne b hbx', hcx] at this
          simp only [if_true, hbx', if_false]
          omega
        · by_cases hbx' : b = d x
          · subst hbx'
            have := hdisj a (d x) hab (by rw [hcne a hax]; exact ha) (by omega)
            rw [hcne a hax, hcx] at this
            simp only [if_true, hax, if_false]
            omega
          · have := hdisj a b hab (by rw [hcne a hax]; exact ha) (by rw [hcne b hbx']; exact hb)
            rw [hcne a hax, hcne b hbx'] at this
            simp only [hax, hbx', if_false]
            exact this
      · intro a ha
        rw [hp a, List.length_set]
        by_cases hax : a = d x
        · subst hax; simp only [if_true]; omega
        · have := hbound a (by rw [hcne a hax]; exact ha)
          rw [hcne a hax] at this
          simp only [hax, if_false]; exact this

/-! ## Offsets of the runs -/

theorem offset_succ_le (c : Nat → Nat) (v w : Nat) (h : v < w) :
    offset c v + c v ≤ offset c w := by
  induction w with
  | zero => omega
  | succ w ih =>
    simp only [offset]
    by_cases hvw : v = w
    · subst hvw; exact Nat.le_refl _
    · have := ih (by omega); omega

theorem offset_decomp (c : Nat → Nat) (N p : Nat) (h : p < offset c N) :
    ∃ v, v < N ∧ ∃ j, j < c v ∧ p = offset c v + j := by
  induction N with
  | zero => simp [offset] at h
  | succ N ih =>
    simp only [offset] at h
    by_cases hp : p < offset c N
    · obtain ⟨v, hv, j, hj, e⟩ := ih hp
      exact ⟨v, by omega, j, hj, e⟩
    · exact ⟨N, by omega, p - offset c N, by omega, by omega⟩

theorem offset_congr (c c' : Nat → Nat) (N : Nat) (h : ∀ v, v < N → c v = c' v) :
    offset c N = offset c' N := by
  induction N with
  | zero => rfl
  | succ N ih =>
    simp only [offset]
    rw [ih (fun v hv => h v (by omega)), h N (by omega)]

theorem digit_count_pos (d : render_item_t → Nat) (xs : List render_item_t) (N v : Nat)
    (hd : ∀ x ∈ xs, d x < N) (h : 0 < digit_count d xs v) : v < N := by
  unfold digit_count at h
  obtain ⟨x, hx⟩ := List.exists_mem_of_length_pos h
  have := List.mem_filter.mp hx
  have e : d x = v := by simpa using this.2
  rw [← e]; exact hd x this.1

theorem offset_digit_count (d : render_item_t → Nat) (xs : List render_item_t) (N : Nat)
    (hd : ∀ x ∈ xs, d x < N) : offset (digit_count d xs) N = xs.length := by
  rw [← bucketsUpTo_length]
  exact (bucketsUpTo_perm_self d xs N hd).length_eq

theorem bucketsUpTo_get (d : render_item_t → Nat) (xs : List render_item_t) (N v j : Nat)
    (hv : v < N) (hj : j < digit_count d xs v) :
    (bucketsUpTo d xs N)[offset (digit_count d xs) v + j]?
      = (xs.filter (fun x => d x = v))[j]? := by
  induction N with
  | zero => omega
  | succ N ih =>
    simp only [bucketsUpTo]
    by_cases hvN : v = N
    · subst hvN
      rw [List.getElem?_append_right (by rw [bucketsUpTo_length]; omega), bucketsUpTo_length]
      congr 1; omega
    · have hlt : v < N := by omega
      have := offset_succ_le (digit_count d xs) v N hlt
      rw [List.getElem?_append_left (by rw [bucketsUpTo_length]; omega)]
      exact ih hlt

/-- With every slot at the start of its run, the copy loop writes the stable
distribution into the first `xs.length` cells and leaves the rest alone. -/
theorem scatter_eq_buckets (d : render_item_t → Nat) (xs : List render_item_t) (N : Nat)
    (ptrs : List Nat) (dst : List render_item_t)
    (hd : ∀ x ∈ xs, d x < N) (hN : ptrs.length = N)
    (hptr : ∀ v, v < N → ptrs.getD v 0 = offset (digit_count d xs) v)
    (hdst : xs.length ≤ dst.length) :
    scatter d xs ptrs dst = bucketsUpTo d xs N ++ dst.drop xs.length := by
  have htot := offset_digit_count d xs N hd
  have hlenb : (bucketsUpTo d xs N).length = xs.length := by
    rw [bucketsUpTo_length, htot]
  apply List.ext_getElem?
  intro p
  by_cases hp : p < xs.length
  · obtain ⟨v, hv, j, hj, e⟩ := offset_decomp (digit_count d xs) N p (by omega)
    rw [List.getElem?_append_left (by omega), e, bucketsUpTo_get d xs N v j hv hj,
      ← hptr v hv]
    apply scatter_inside d xs ptrs dst (by rw [hN]; exact hd)
    · intro a b hab ha hb
      have haN := digit_count_pos d xs N a hd ha
      have hbN := digit_count_pos d xs N b hd hb
      rw [hptr a haN, hptr b hbN]
      rcases Nat.lt_or_gt_of_ne hab with h | h
      · left; exact offset_succ_le _ a b h
      · right; exact offset_succ_le _ b a h
    · intro a ha
      have haN := digit_count_pos d xs N a hd ha
      rw [hptr a haN]
      have := offset_succ_le (digit_count d xs) a N haN
      omega
    · exact hj
  · rw [List.getElem?_append_right (by omega), hlenb, List.getElem?_drop,
      show xs.length + (p - xs.length) = p by omega]
    apply scatter_outside d xs ptrs dst p (by rw [hN]; exact hd)
    intro v
    by_cases hv : v < N
    · right
      rw [hptr v hv]
      have := offset_succ_le (digit_count d xs) v N hv
      omega
    · have : digit_count d xs v = 0 := by
        by_contra hne
        exact hv (digit_count_pos d xs N v hd (by omega))
      omega

/-! ## The slot table -/

theorem queue_ptrs_loop_length (freqs : List Nat) :
    ∀ (n i next : Nat) (ptrs : List Nat),
      (queue_ptrs_loop n i freqs next ptrs).length = ptrs.length := by
  intro n
  induction n with
  | zero => intro i next ptrs; rfl
  | succ n ih => intro i next ptrs; simp [queue_ptrs_loop, ih]

theorem queue_ptrs_loop_getD (freqs : List Nat) :
    ∀ (n i : Nat) (ptrs : List Nat), i + n ≤ ptrs.length → ∀ v,
      (queue_ptrs_loop n i freqs (offset (fun u => freqs.getD u 0) i) ptrs).getD v 0
        = if i ≤ v ∧ v < i + n then offset (fun u => freqs.getD u 0) v else ptrs.getD v 0 := by
  intro n
  induction n with
  | zero =>
    intro i ptrs _ v
    have : ¬ (i ≤ v ∧ v < i + 0) := by omega
    simp only [queue_ptrs_loop, this, if_false]
  | succ n ih =>
    intro i ptrs hlen v
    simp only [queue_ptrs_loop]
    have := ih (i + 1) (ptrs.set i (offset (fun u => freqs.getD u 0) i))
      (by rw [List.length_set]; omega) v
    simp only [offset] at this
    rw [this, getD_set_nat ptrs i v _ (by omega)]
    by_cases h1 : v = i
    · subst h1
      have : ¬ (v + 1 ≤ v ∧ v < v + 1 + n) := by omega
      simp [this]
    · by_cases h2 : i + 1 ≤ v ∧ v < i + 1 + n
      · have : i ≤ v ∧ v < i + (n + 1) := by omega
        simp [h2, this]
      · have : ¬ (i ≤ v ∧ v < i + (n + 1)) := by omega
        simp [h1, h2, this]

theorem queue_ptrs_init_length (freqs : List Nat) :
    (queue_ptrs_init freqs).length = RADIX_SIZE := by
  simp [queue_ptrs_init, queue_ptrs_loop_length]

theorem queue_ptrs_init_getD (freqs : List Nat) (v : Nat) (hv : v < RADIX_SIZE) :
    (queue_ptrs_init freqs).getD v 0 = offset (fun u => freqs.getD u 0) v := by
  have := queue_ptrs_loop_getD freqs RADIX_SIZE 0 (List.replicate RADIX_SIZE 0)
    (by simp) v
  simp only [offset] at this
  unfold queue_ptrs_init
  rw [this]
  simp [hv]

/-! ## Digits -/

theorem RADIX_SIZE_eq : RADIX_SIZE = 256 := by decide
theorem RADIX_LEVELS_eq : RADIX_LEVELS = 8 := by decide
theorem RADIX_BITS_eq : RADIX_BITS = 8 := rfl
theorem RADIX_MASK_eq : RADIX_MASK = 2 ^ 8 - 1 := by decide

theorem mask_lt (x : Nat) : x &&& RADIX_MASK < RADIX_SIZE := by
  rw [RADIX_MASK_eq, Nat.and_pow_two_sub_one_eq_mod, RADIX_SIZE_eq]
  exact Nat.mod_lt _ (by norm_num)

theorem digit_lt (pass : Nat) (r : render_item_t) : digit pass r < RADIX_SIZE :=
  mask_lt _

theorem digit_eq (pass : Nat) (r : render_item_t) :
    digit pass r = r.sort_id / 256 ^ pass % 256 := by
  unfold digit
  rw [RADIX_MASK_eq, Nat.and_pow_two_sub_one_eq_mod, Nat.shiftRight_eq_div_pow, RADIX_BITS_eq,
    Nat.mul_comm, pow_mul]
  norm_num

/-! ## The frequency counter -/

theorem getD_set_gen {α : Type} (l : List α) (i j : Nat) (v dflt : α) (h : i < l.length) :
    (l.set i v).getD j dflt = if j = i then v else l.getD j dflt := by
  simp only [List.getD_eq_getElem?_getD, List.getElem?_set]
  by_cases hji : j = i
  · subst hji; simp [h]
  · have : ¬ i = j := fun e => hji e.symm
    simp [hji, this]

theorem freqs_incr_shape (f : freq_array_type) (l d : Nat) (hf : FreqShape f)
    (hl : l < RADIX_LEVELS) : FreqShape (freqs_incr f l d) := by
  obtain ⟨h1, h2⟩ := hf
  refine ⟨by simp [freqs_incr, h1], ?_⟩
  intro l' hl'
  unfold freqs_incr
  rw [getD_set_gen f l l' _ [] (by omega)]
  by_cases e : l' = l
  · subst e
    simp only [if_true, List.length_set]
    exact h2 l' hl'
  · simp only [e, if_false]
    exact h2 l' hl'

theorem freqs_incr_get (f : freq_array_type) (l d : Nat) (hf : FreqShape f)
    (hl : l < RADIX_LEVELS) (hd : d < RADIX_SIZE) (l' d' : Nat) :
    ((freqs_incr f l d).getD l' []).getD d' 0
      = (f.getD l' []).getD d' 0 + if l' = l ∧ d' = d then 1 else 0 := by
  obtain ⟨h1, h2⟩ := hf
  unfold freqs_incr
  rw [getD_set_gen f l l' _ [] (by omega)]
  by_cases e : l' = l
  · subst e
    simp only [if_true, true_and]
    rw [getD_set_gen _ d d' _ 0 (by rw [h2 l' hl]; exact hd)]
    by_cases e2 : d' = d
    · subst e2; simp
    · simp [e2]
  · simp [e]

theorem count_frequency_passes_spec (k : Nat) :
    ∀ (n pass : Nat) (f : freq_array_type), FreqShape f → pass + n ≤ RADIX_LEVELS →
      FreqShape (count_frequency_passes n pass (k >>> (pass * RADIX_BITS)) f) ∧
      ∀ l d, ((count_frequency_passes n pass (k >>> (pass * RADIX_BITS)) f).getD l []).getD d 0
        = (f.getD l []).getD d 0 +
          if (pass ≤ l ∧ l < pass + n) ∧ d = (k >>> (l * RADIX_BITS)) &&& RADIX_MASK
          then 1 else 0 := by
  intro n
  induction n with
  | zero =>
    intro pass f hf _
    refine ⟨hf, ?_⟩
    intro l d
    have : ¬ (pass ≤ l ∧ l < pass + 0) := by omega
    simp [count_frequency_passes, this]
  | succ n ih =>
    intro pass f hf hle
    simp only [count_frequency_passes]
    have hsh : k >>> (pass * RADIX_BITS) >>> RADIX_BITS = k >>> ((pass + 1) * RADIX_BITS) := by
      rw [← Nat.shiftRight_add, Nat.add_mul, Nat.one_mul]
    rw [hsh]
    have hf' := freqs_incr_shape f pass (k >>> (pass * RADIX_BITS) &&& RADIX_MASK) hf (by omega)
    obtain ⟨hs, hg⟩ := ih (pass + 1) _ hf' (by omega)
    refine ⟨hs, ?_⟩
    intro l d
    rw [hg l d, freqs_incr_get f pass _ hf (by omega) (mask_lt _) l d]
    by_cases e : l = pass
    · subst e
      have h1 : ¬ (l + 1 ≤ l ∧ l < l + 1 + n) := by omega
      have h2 : (l ≤ l ∧ l < l + (n + 1)) := by omega
      simp only [h1, h2, false_and, true_and, if_false]
      omega
    · by_cases h1 : pass + 1 ≤ l ∧ l < pass + 1 + n
      · have h2 : pass ≤ l ∧ l < pass + (n + 1) := by omega
        simp only [h1, h2, e, false_and, true_and, if_false]
        omega
      · have h2 : ¬ (pass ≤ l ∧ l < pass + (n + 1)) := by omega
        simp only [h1, h2, e, false_and, if_false]

theorem count_frequency_record (r : render_item_t) (f : freq_array_type) (hf : FreqShape f) :
    FreqShape (count_frequency_passes RADIX_LEVELS 0 r.sort_id f) ∧
    ∀ l, l < RADIX_LEVELS → ∀ d,
      ((count_frequency_passes RADIX_LEVELS 0 r.sort_id f).getD l []).getD d 0
        = (f.getD l []).getD d 0 + if digit l r = d then 1 else 0 := by
  have h := count_frequency_passes_spec r.sort_id RADIX_LEVELS 0 f hf (by omega)
  simp only [Nat.zero_mul, Nat.shiftRight_zero] at h
  refine ⟨h.1, ?_⟩
  intro l hl d
  rw [h.2 l d]
  have : (0 ≤ l ∧ l < 0 + RADIX_LEVELS) := by omega
  simp only [this, true_and, digit]
  by_cases e : d = r.sort_id >>> (l * RADIX_BITS) &&& RADIX_MASK
  · simp [e]
  · have : ¬ (r.sort_id >>> (l * RADIX_BITS) &&& RADIX_MASK = d) := fun h => e h.symm
    simp [e, this]

theorem count_frequency_loop_spec (a : List render_item_t) :
    ∀ (n i : Nat) (f : freq_array_type), FreqShape f → i + n ≤ a.length →
      ∃ f', count_frequency_loop n i a f = some f' ∧ FreqShape f' ∧
        ∀ l, l < RADIX_LEVELS → ∀ d,
          (f'.getD l []).getD d 0
            = (f.getD l []).getD d 0 + digit_count (digit l) ((a.drop i).take n) d := by
  intro n
  induction n with
  | zero =>
    intro i f hf _
    exact ⟨f, rfl, hf, by intro l _ d; simp [digit_count]⟩
  | succ n ih =>
    intro i f hf hle
    have hi : i < a.length := by omega
    simp only [count_frequency_loop, List.getElem?_eq_getElem hi]
    obtain ⟨hs, hg⟩ := count_frequency_record a[i] f hf
    obtain ⟨f', e, hs', hg'⟩ := ih (i + 1) _ hs (by omega)
    refine ⟨f', e, hs', ?_⟩
    intro l hl d
    rw [hg' l hl d, hg l hl d, List.drop_eq_getElem_cons hi, List.take_succ_cons,
      digit_count_cons]
    omega

theorem freqs_zero_shape : FreqShape freqs_zero := by
  refine ⟨by simp [freqs_zero], ?_⟩
  intro l hl
  simp [freqs_zero, List.getD_eq_getElem?_getD, List.getElem?_replicate, hl]

theorem freqs_zero_get (l d : Nat) : (freqs_zero.getD l []).getD d 0 = 0 := by
  simp only [freqs_zero, List.getD_eq_getElem?_getD, List.getElem?_replicate]
  by_cases hl : l < RADIX_LEVELS
  · by_cases hd : d < RADIX_SIZE <;> simp [hl, hd, List.getElem?_replicate]
  · simp [hl]

/-- The counter fills every row with the digit counts of the first `count` records. -/
theorem count_frequency_spec (a : List render_item_t) (count : Nat) (h : count ≤ a.length) :
    ∃ f, count_frequency a count freqs_zero = some f ∧ FreqShape f ∧
      ∀ l, l < RADIX_LEVELS → ∀ d,
        (f.getD l []).getD d 0 = digit_count (digit l) (a.take count) d := by
  obtain ⟨f, e, hs, hg⟩ := count_frequency_loop_spec a count 0 freqs_zero freqs_zero_shape
    (by omega)
  refine ⟨f, e, hs, ?_⟩
  intro l hl d
  rw [hg l hl d, freqs_zero_get]
  simp

/-! ## The triviality scan -/

theorem is_trivial_loop_zero (f : List Nat) (count : Nat) :
    ∀ (n i : Nat), (∀ v, i ≤ v → v < i + n → f.getD v 0 = 0) →
      is_trivial_loop n i f count = if count = 0 then some true else none := by
  intro n
  induction n with
  | zero => intro i _; rfl
  | succ n ih =>
    intro i h
    simp only [is_trivial_loop]
    rw [if_neg (not_not.mpr (h i (Nat.le_refl _) (by omega)))]
    exact ih (i + 1) (fun v h1 h2 => h v (by omega) (by omega))

theorem is_trivial_loop_first (f : List Nat) (count : Nat) :
    ∀ (n i v : Nat), i ≤ v → v < i + n → (∀ u, i ≤ u → u < v → f.getD u 0 = 0) →
      f.getD v 0 ≠ 0 → is_trivial_loop n i f count = some (f.getD v 0 == count) := by
  intro n
  induction n with
  | zero => intro i v h1 h2; omega
  | succ n ih =>
    intro i v h1 h2 hz hv
    simp only [is_trivial_loop]
    by_cases e : v = i
    · subst e
      rw [if_pos hv]
    · rw [if_neg (not_not.mpr (hz i (Nat.le_refl _) (by omega)))]
      exact ih (i + 1) v (by omega) (by omega) (fun u h3 h4 => hz u (by omega) h4) hv

/-- On the histogram of a list the scan never reaches a failing assertion, and it
answers `true` exactly when all records share one digit. -/
theorem is_trivial_of_counts (d : render_item_t → Nat) (xs : List render_item_t)
    (f : List Nat) (hd : ∀ x ∈ xs, d x < RADIX_SIZE)
    (hf : ∀ v, v < RADIX_SIZE → f.getD v 0 = digit_count d xs v) :
    ∃ b, is_trivial f xs.length = some b ∧ (b = true ↔ ∃ v, ∀ x ∈ xs, d x = v) := by
  by_cases hex : ∃ v, v < RADIX_SIZE ∧ f.getD v 0 ≠ 0
  · classical
    have hmin := fun u (hu : u < Nat.find hex) => Nat.find_min hex hu
    obtain ⟨hv1, hv2⟩ := Nat.find_spec hex
    refine ⟨f.getD (Nat.find hex) 0 == xs.length, ?_, ?_, ?_⟩
    · unfold is_trivial
      apply is_trivial_loop_first f xs.length RADIX_SIZE 0 (Nat.find hex) (Nat.zero_le _)
        (by omega) _ hv2
      intro u _ hu
      by_contra hne
      exact hmin u hu ⟨by omega, hne⟩
    · intro hb
      refine ⟨Nat.find hex, ?_⟩
      have e : digit_count d xs (Nat.find hex) = xs.length := by
        rw [← hf _ hv1]; simpa using hb
      unfold digit_count at e
      have := List.filter_length_eq_length.mp e
      intro x hx
      simpa using this x hx
    · rintro ⟨v, hv⟩
      rw [hf _ hv1] at hv2 ⊢
      have hpos : 0 < digit_count d xs (Nat.find hex) := Nat.pos_of_ne_zero hv2
      obtain ⟨x, hx⟩ := List.exists_mem_of_length_pos hpos
      have hx' := List.mem_filter.mp hx
      have e1 : d x = Nat.find hex := by simpa using hx'.2
      have e2 : v = Nat.find hex := by rw [← hv x hx'.1, e1]
      have : digit_count d xs (Nat.find hex) = xs.length := by
        unfold digit_count
        rw [List.filter_length_eq_length]
        intro a ha
        simp [hv a ha, e2]
      exact beq_iff_eq.mpr this
  · have hz : ∀ v, v < RADIX_SIZE → f.getD v 0 = 0 := by
      intro v hv
      by_contra hne
      exact hex ⟨v, hv, hne⟩
    have hnil : xs = [] := by
      cases xs with
      | nil => rfl
      | cons x xs =>
        exfalso
        have h1 := hd x (List.mem_cons_self _ _)
        have h2 := hz (d x) h1
        rw [hf _ h1, digit_count_cons] at h2
        simp at h2
    subst hnil
    refine ⟨true, ?_, fun _ => ⟨0, by simp⟩, fun _ => rfl⟩
    unfold is_trivial
    rw [is_trivial_loop_zero f _ RADIX_SIZE 0 (fun v _ hv => hz v (by omega))]
    rfl

/-! ## Reads and writes -/

theorem read_buf (m : Memory) (p : BufferRole) (S : List render_item_t) (i : Nat)
    (h : m.buf p = some S) : m.read p i = S[i]? := by
  cases p with
  | caller =>
    simp only [Memory.buf, Option.some.injEq] at h
    simp [Memory.read, h]
  | scratch =>
    simp only [Memory.buf] at h
    simp [Memory.read, h]

theorem write_buf (m : Memory) (src dst : BufferRole) (D : List render_item_t) (p : Nat)
    (value : render_item_t) (hne : src ≠ dst) (hD : m.buf dst = some D) (hp : p < D.length) :
    ∃ m1, m.write dst p value = some m1 ∧ m1.buf dst = some (D.set p value) ∧
      m1.buf src = m.buf src := by
  cases dst with
  | caller =>
    cases src with
    | caller => exact absurd rfl hne
    | scratch =>
      simp only [Memory.buf, Option.some.injEq] at hD
      subst hD
      exact ⟨{ m with a := m.a.set p value }, by simp [Memory.write, hp], rfl, rfl⟩
  | scratch =>
    cases src with
    | scratch => exact absurd rfl hne
    | caller =>
      simp only [Memory.buf] at hD
      exact ⟨{ m with area := some (D.set p value) },
        by simp only [Memory.write, hD, hp, if_true], rfl, rfl⟩

/-! ## One partition pass -/

theorem partition_loop_scatter (pass : Nat) (src dst : BufferRole) (hne : src ≠ dst)
    (S : List render_item_t) :
    ∀ (n i : Nat) (ptrs : List Nat) (m : Memory) (D : List render_item_t),
      m.buf src = some S → m.buf dst = some D → i + n ≤ S.length →
      ptrs.length = RADIX_SIZE →
      (∀ v, 0 < digit_count (digit pass) ((S.drop i).take n) v →
        ptrs.getD v 0 + digit_count (digit pass) ((S.drop i).take n) v ≤ D.length) →
      ∃ m1, partition_loop n i (pass * RADIX_BITS) src dst ptrs m = some m1 ∧
        m1.buf src = some S ∧
        m1.buf dst = some (scatter (digit pass) ((S.drop i).take n) ptrs D) := by
  intro n
  induction n with
  | zero =>
    intro i ptrs m D hS hD _ _ _
    exact ⟨m, rfl, hS, by simpa [scatter] using hD⟩
  | succ n ih =>
    intro i ptrs m D hS hD hle hlen hb
    have hi : i < S.length := by omega
    have hdrop : (S.drop i).take (n + 1) = S[i] :: (S.drop (i + 1)).take n := by
      rw [List.drop_eq_getElem_cons hi, List.take_succ_cons]
    rw [hdrop] at hb ⊢
    have hdx : digit pass S[i] < ptrs.length := by rw [hlen]; exact digit_lt _ _
    have hcx := hb (digit pass S[i]) (by rw [digit_count_cons]; simp)
    rw [digit_count_cons] at hcx
    simp only [if_true] at hcx
    obtain ⟨m1, hw, hm1d, hm1s⟩ := write_buf m src dst D (ptrs.getD (digit pass S[i]) 0) S[i]
      hne hD (by omega)
    simp only [partition_loop, read_buf m src S i hS, List.getElem?_eq_getElem hi]
    have hw' : m.write dst (ptrs.getD (S[i].sort_id >>> (pass * RADIX_BITS) &&& RADIX_MASK) 0)
        S[i] = some m1 := hw
    simp only [hw']
    obtain ⟨m2, e, h2s, h2d⟩ := ih (i + 1)
      (ptrs.set (digit pass S[i]) (ptrs.getD (digit pass S[i]) 0 + 1)) m1
      (D.set (ptrs.getD (digit pass S[i]) 0) S[i]) (by rw [hm1s, hS]) hm1d (by omega)
      (by rw [List.length_set]; exact hlen) (by
        intro v hv
        rw [getD_set_nat ptrs _ v _ hdx, List.length_set]
        have := hb v
        rw [digit_count_cons] at this
        by_cases e : v = digit pass S[i]
        · subst e; simp only [if_true] at this ⊢; omega
        · have e' : ¬ digit pass S[i] = v := fun h => e h.symm
          simp only [e, e', if_false] at this ⊢
          exact this hv)
    exact ⟨m2, e, h2s, by simpa [scatter] using h2d⟩

theorem digit_count_perm (d : render_item_t → Nat) (xs ys : List render_item_t)
    (h : xs.Perm ys) (v : Nat) : digit_count d xs v = digit_count d ys v :=
  (List.Perm.filter _ h).length_eq

theorem stable_pass_perm (pass : Nat) (xs : List render_item_t) :
    (stable_pass pass xs).Perm xs :=
  bucketsUpTo_perm_self _ xs RADIX_SIZE (fun x _ => digit_lt pass x)

theorem stable_pass_length (pass : Nat) (xs : List render_item_t) :
    (stable_pass pass xs).length = xs.length :=
  (stable_pass_perm pass xs).length_eq

theorem stable_pass_const (pass v : Nat) (xs : List render_item_t)
    (h : ∀ x ∈ xs, digit pass x = v) : stable_pass pass xs = xs := by
  cases xs with
  | nil => simp [stable_pass, bucketsUpTo_const (digit pass) v [] (by simp)]
  | cons x xs =>
    have hv : v < RADIX_SIZE := by
      rw [← h x (List.mem_cons_self _ _)]; exact digit_lt _ _
    simp [stable_pass, bucketsUpTo_const (digit pass) v (x :: xs) h, hv]

/-- One pass of the copy loop from the slot table of the level's histogram. -/
theorem partition_pass (pass count : Nat) (src dst : BufferRole) (hne : src ≠ dst)
    (S D : List render_item_t) (m : Memory) (row : List Nat)
    (hS : m.buf src = some S) (hD : m.buf dst = some D)
    (hcS : count ≤ S.length) (hcD : count ≤ D.length)
    (hrow : ∀ v, v < RADIX_SIZE → row.getD v 0 = digit_count (digit pass) (S.take count) v) :
    ∃ m1, partition_loop count 0 (pass * RADIX_BITS) src dst (queue_ptrs_init row) m = some m1 ∧
      m1.buf src = some S ∧
      m1.buf dst = some (stable_pass pass (S.take count) ++ D.drop count) := by
  have hdig : ∀ x ∈ S.take count, digit pass x < RADIX_SIZE := fun x _ => digit_lt pass x
  have hlen : (S.take count).length = count := by rw [List.length_take]; omega
  have hptr : ∀ v, v < RADIX_SIZE →
      (queue_ptrs_init row).getD v 0 = offset (digit_count (digit pass) (S.take count)) v := by
    intro v hv
    rw [queue_ptrs_init_getD row v hv]
    exact offset_congr _ _ v (fun u hu => hrow u (by omega))
  have htot := offset_digit_count (digit pass) (S.take count) RADIX_SIZE hdig
  obtain ⟨m1, e, h1, h2⟩ := partition_loop_scatter pass src dst hne S count 0
    (queue_ptrs_init row) m D hS hD (by omega) (queue_ptrs_init_length row) (by
      intro v hv
      rw [List.drop_zero] at hv ⊢
      have hvN := digit_count_pos _ _ RADIX_SIZE v hdig hv
      rw [hptr v hvN]
      have := offset_succ_le (digit_count (digit pass) (S.take count)) v RADIX_SIZE hvN
      omega)
  refine ⟨m1, e, h1, ?_⟩
  rw [h2, List.drop_zero,
    scatter_eq_buckets (digit pass) (S.take count) RADIX_SIZE (queue_ptrs_init row) D hdig
      (queue_ptrs_init_length row) hptr (by omega), hlen]
  rfl

/-- When every remaining level is trivial the level loop changes nothing. -/
theorem radix_pass_loop_trivial (F : freq_array_type) (count : Nat) (src dst : BufferRole)
    (m : Memory) :
    ∀ (n pass : Nat),
      (∀ l, pass ≤ l → l < pass + n → is_trivial (F.getD l []) count = some true) →
      radix_pass_loop n pass F count src dst m = some (m, src) := by
  intro n
  induction n with
  | zero => intro pass _; rfl
  | succ n ih =>
    intro pass h
    simp only [radix_pass_loop, h pass (Nat.le_refl _) (by omega)]
    exact ih (pass + 1) (fun l h1 h2 => h l (by omega) (by omega))

/-- The level loop: the final `from` block starts with the stable distribution applied
on every level in turn; both blocks keep their length and their cells from `count` on. -/
theorem radix_pass_loop_spec (F : freq_array_type) (count : Nat) :
    ∀ (n pass : Nat) (src dst : BufferRole) (m : Memory) (S D : List render_item_t),
      src ≠ dst → m.buf src = some S → m.buf dst = some D →
      count ≤ S.length → count ≤ D.length → pass + n ≤ RADIX_LEVELS →
      (∀ l, l < RADIX_LEVELS → ∀ v,
        (F.getD l []).getD v 0 = digit_count (digit l) (S.take count) v) →
      ∃ m1 src1 S1, radix_pass_loop n pass F count src dst m = some (m1, src1) ∧
        m1.buf src1 = some S1 ∧
        S1.take count = lsd_passes n pass (S.take count) ∧
        ∀ r B, m.buf r = some B →
          ∃ B1, m1.buf r = some B1 ∧ B1.length = B.length ∧ B1.drop count = B.drop count := by
  intro n
  induction n with
  | zero =>
    intro pass src dst m S D _ hS _ _ _ _ _
    exact ⟨m, src, S, rfl, hS, rfl, fun r B hB => ⟨B, hB, rfl, rfl⟩⟩
  | succ n ih =>
    intro pass src dst m S D hne hS hD hcS hcD hle hF
    have hlen : (S.take count).length = count := by rw [List.length_take]; omega
    obtain ⟨b, hb, hiff⟩ := is_trivial_of_counts (digit pass) (S.take count)
      (F.getD pass []) (fun x _ => digit_lt pass x) (fun v _ => hF pass (by omega) v)
    rw [hlen] at hb
    simp only [radix_pass_loop, hb, lsd_passes]
    cases b with
    | true =>
      obtain ⟨v, hv⟩ := hiff.mp rfl
      rw [stable_pass_const pass v _ hv]
      exact ih (pass + 1) src dst m S D hne hS hD hcS hcD (by omega) hF
    | false =>
      obtain ⟨m1, e, h1, h2⟩ := partition_pass pass count src dst hne S D m (F.getD pass [])
        hS hD hcS hcD (fun v _ => hF pass (by omega) v)
      simp only [e]
      have hD1len : (stable_pass pass (S.take count) ++ D.drop count).length = D.length := by
        rw [List.length_append, stable_pass_length, hlen, List.length_drop]; omega
      have hD1take : (stable_pass pass (S.take count) ++ D.drop count).take count
          = stable_pass pass (S.take count) :=
        List.take_left' (by rw [stable_pass_length, hlen])
      have hD1drop : (stable_pass pass (S.take count) ++ D.drop count).drop count
          = D.drop count :=
        List.drop_left' (by rw [stable_pass_length, hlen])
      obtain ⟨m2, src2, S2, e2, hS2, ht2, hfr⟩ := ih (pass + 1) dst src m1 _ S
        (fun h => hne h.symm) h2 h1 (by rw [hD1len]; exact hcD) hcS (by omega) (by
          intro l hl v
          rw [hD1take, hF l hl v]
          exact (digit_count_perm _ _ _ (stable_pass_perm pass _) v).symm)
      rw [hD1take] at ht2
      refine ⟨m2, src2, S2, e2, hS2, ht2, ?_⟩
      intro r B hB
      by_cases hr : r = src
      · subst hr
        rw [hS] at hB
        cases hB
        exact hfr r S h1
      · have hrd : r = dst := by
          cases r <;> cases src <;> cases dst <;>
            first | rfl | exact absurd rfl hr | exact absurd rfl hne
        subst hrd
        rw [hD] at hB
        cases hB
        obtain ⟨B1, hb1, hb2, hb3⟩ := hfr r _ h2
        exact ⟨B1, hb1, by rw [hb2, hD1len], by rw [hb3, hD1drop]⟩

theorem lsd_passes_nil : ∀ (n pass : Nat), lsd_passes n pass [] = [] := by
  intro n
  induction n with
  | zero => intro pass; rfl
  | succ n ih =>
    intro pass
    simp only [lsd_passes]
    rw [stable_pass_const pass 0 [] (by simp)]
    exact ih (pass + 1)

theorem lsd_passes_length : ∀ (n pass : Nat) (xs : List render_item_t),
    (lsd_passes n pass xs).length = xs.length := by
  intro n
  induction n with
  | zero => intro pass xs; rfl
  | succ n ih =>
    intro pass xs
    simp only [lsd_passes]
    rw [ih, stable_pass_length]

/-! ## The whole call -/

theorem radix_resize_spec (junk : Nat → render_item_t) (count : Nat) (s : Scratch)
    (hs : s.Valid) :
    (radix_resize junk count s).Valid ∧
    (radix_resize junk count s).radix_queue_size = max s.radix_queue_size count ∧
    (0 < count → ∃ buf, (radix_resize junk count s).radix_queue_area = some buf ∧
      buf.length = (radix_resize junk count s).radix_queue_size ∧ count ≤ buf.length) := by
  unfold radix_resize
  by_cases h : s.radix_queue_size < count
  · simp only [h, if_true]
    refine ⟨by simp [Scratch.Valid, sk_malloc_t], by omega, fun _ => ?_⟩
    exact ⟨sk_malloc_t junk count, rfl, by simp [sk_malloc_t], by simp [sk_malloc_t]⟩
  · simp only [h, if_false]
    refine ⟨hs, by omega, fun hc => ?_⟩
    unfold Scratch.Valid at hs
    cases harea : s.radix_queue_area with
    | none => rw [harea] at hs; simp only at hs; omega
    | some buf =>
      rw [harea] at hs
      simp only at hs
      exact ⟨buf, rfl, hs, by omega⟩

/-- What a call computes: the caller's first `count` records are replaced by the stable
distribution applied on all levels in turn, the rest of the block is untouched, and the
globals stay consistent with capacity `max radix_queue_size count`. -/
theorem radix_sort7_spec (junk : Nat → render_item_t) (a : List render_item_t) (count : Nat)
    (s : Scratch) (h : count ≤ a.length) (hs : s.Valid) :
    ∃ s1, radix_sort7 junk a count s
        = some (lsd_passes RADIX_LEVELS 0 (a.take count) ++ a.drop count, s1) ∧
      s1.Valid ∧ s1.radix_queue_size = max s.radix_queue_size count := by
  obtain ⟨F, hF, _, hget⟩ := count_frequency_spec a count h
  obtain ⟨hv1, hsz, hbuf⟩ := radix_resize_spec junk count s hs
  unfold radix_sort7
  simp only [hF]
  by_cases hc : count = 0
  · subst hc
    have htriv := radix_pass_loop_trivial F 0 .caller .scratch
      ⟨a, (radix_resize junk 0 s).radix_queue_area⟩ RADIX_LEVELS 0 (by
        intro l _ hl
        obtain ⟨b, hb, hiff⟩ := is_trivial_of_counts (digit l) (a.take 0) (F.getD l [])
          (fun x _ => digit_lt l x) (fun v _ => hget l (by omega) v)
        have : b = true := hiff.mpr ⟨0, by simp⟩
        subst this
        simpa using hb)
    simp only [htriv]
    refine ⟨radix_resize junk 0 s, ?_, hv1, hsz⟩
    simp [lsd_passes_nil]
  · obtain ⟨buf, hb1, hb2, hb3⟩ := hbuf (by omega)
    obtain ⟨m1, src1, S1, e, hS1, ht, hfr⟩ := radix_pass_loop_spec F count RADIX_LEVELS 0
      .caller .scratch ⟨a, some buf⟩ a buf (by decide) rfl rfl h hb3 (by omega) hget
    rw [hb1]
    simp only [e]
    obtain ⟨A1, hA1, hA1len, hA1drop⟩ := hfr .caller a rfl
    obtain ⟨B1, hB1, hB1len, hB1drop⟩ := hfr .scratch buf rfl
    simp only [Memory.buf, Option.some.injEq] at hA1 hB1
    have hvalid : Scratch.Valid
        { radix_queue_area := some B1,
          radix_queue_size := (radix_resize junk count s).radix_queue_size } := by
      simp only [Scratch.Valid]
      rw [hB1len, hb2]
    cases src1 with
    | caller =>
      simp only [Memory.buf, Option.some.injEq] at hS1
      refine ⟨⟨some B1, (radix_resize junk count s).radix_queue_size⟩, ?_, hvalid, hsz⟩
      simp only [ne_eq, not_true_eq_false, if_false, hB1]
      rw [← ht, ← hA1drop, ← hS1, hA1, List.take_append_drop]
    | scratch =>
      simp only [Memory.buf] at hS1
      rw [hB1] at hS1
      have hBS : B1 = S1 := Option.some.inj hS1
      rw [← hBS] at ht
      refine ⟨⟨some B1, (radix_resize junk count s).radix_queue_size⟩, ?_, hvalid, hsz⟩
      have hfc : final_copy m1 count
          = some { m1 with a := B1.take count ++ m1.a.drop count } := by
        simp only [final_copy, hB1]
        rw [if_pos ⟨by omega, by rw [hA1]; omega⟩]
      simp only [ne_eq, reduceCtorEq, not_false_eq_true, if_true, hfc, hB1]
      rw [ht, hA1, hA1drop]

/-! ## Properties of the stable distribution applied level by level -/

theorem lsd_passes_perm : ∀ (n pass : Nat) (xs : List render_item_t),
    (lsd_passes n pass xs).Perm xs := by
  intro n
  induction n with
  | zero => intro pass xs; exact List.Perm.refl _
  | succ n ih =>
    intro pass xs
    simp only [lsd_passes]
    exact (ih (pass + 1) _).trans (stable_pass_perm pass xs)

theorem stable_pass_filter_key (pass k : Nat) (xs : List render_item_t) :
    (stable_pass pass xs).filter (fun r => r.sort_id = k)
      = xs.filter (fun r => r.sort_id = k) := by
  have hv : digit pass ⟨k, 0⟩ < RADIX_SIZE := digit_lt _ _
  have := bucketsUpTo_filter (digit pass) (fun r => decide (r.sort_id = k))
    (digit pass ⟨k, 0⟩) (by
      intro x hx
      have e : x.sort_id = k := by simpa using hx
      simp [digit, e]) xs RADIX_SIZE
  rw [if_pos hv] at this
  exact this

theorem lsd_passes_filter_key (k : Nat) : ∀ (n pass : Nat) (xs : List render_item_t),
    (lsd_passes n pass xs).filter (fun r => r.sort_id = k)
      = xs.filter (fun r => r.sort_id = k) := by
  intro n
  induction n with
  | zero => intro pass xs; rfl
  | succ n ih =>
    intro pass xs
    simp only [lsd_passes]
    rw [ih, stable_pass_filter_key]

theorem low_digits_le (P a b : Nat) (hP : 0 < P)
    (h : a / P % 256 < b / P % 256 ∨ (a / P % 256 = b / P % 256 ∧ a % P ≤ b % P)) :
    a % P + P * (a / P % 256) ≤ b % P + P * (b / P % 256) := by
  rcases h with h | ⟨h1, h2⟩
  · have h1 : a % P < P := Nat.mod_lt _ hP
    have h2 : P * (a / P % 256 + 1) ≤ P * (b / P % 256) := Nat.mul_le_mul_left P h
    rw [Nat.mul_add, Nat.mul_one] at h2
    omega
  · rw [h1]; omega

theorem stable_pass_sorted_step (pass : Nat) (xs : List render_item_t)
    (h : xs.Pairwise (fun a b => a.sort_id % 256 ^ pass ≤ b.sort_id % 256 ^ pass)) :
    (stable_pass pass xs).Pairwise
      (fun a b => a.sort_id % 256 ^ (pass + 1) ≤ b.sort_id % 256 ^ (pass + 1)) := by
  have := bucketsUpTo_pairwise (digit pass) _ xs h RADIX_SIZE
  refine List.Pairwise.imp ?_ this
  intro a b hab
  rw [Nat.mod_pow_succ, Nat.mod_pow_succ]
  apply low_digits_le _ _ _ (by positivity)
  rw [← digit_eq, ← digit_eq]
  exact hab

theorem lsd_passes_sorted : ∀ (n pass : Nat) (xs : List render_item_t),
    xs.Pairwise (fun a b => a.sort_id % 256 ^ pass ≤ b.sort_id % 256 ^ pass) →
    (lsd_passes n pass xs).Pairwise
      (fun a b => a.sort_id % 256 ^ (pass + n) ≤ b.sort_id % 256 ^ (pass + n)) := by
  intro n
  induction n with
  | zero => intro pass xs h; exact h
  | succ n ih =>
    intro pass xs h
    simp only [lsd_passes]
    have := ih (pass + 1) _ (stable_pass_sorted_step pass xs h)
    rw [show pass + 1 + n = pass + (n + 1) by omega] at this
    exact this

theorem lsd_sorted (xs : List render_item_t) (hk : ∀ r ∈ xs, r.sort_id < 2 ^ 64) :
    (lsd_passes RADIX_LEVELS 0 xs).Pairwise (fun a b => a.sort_id ≤ b.sort_id) := by
  have h0 : xs.Pairwise (fun a b => a.sort_id % 256 ^ 0 ≤ b.sort_id % 256 ^ 0) :=
    List.pairwise_of_forall (fun a b => by simp [Nat.mod_one])
  have h := lsd_passes_sorted RADIX_LEVELS 0 xs h0
  refine List.Pairwise.imp_of_mem ?_ h
  intro a b ha hb hab
  have ha' := hk a ((lsd_passes_perm _ _ xs).mem_iff.mp ha)
  have hb' := hk b ((lsd_passes_perm _ _ xs).mem_iff.mp hb)
  have e : 256 ^ (0 + RADIX_LEVELS) = 2 ^ 64 := by rw [RADIX_LEVELS_eq]; norm_num
  rw [e, Nat.mod_eq_of_lt ha', Nat.mod_eq_of_lt hb'] at hab
  exact hab

/-- Two key-sorted lists that agree on the sequence of records of every key are equal. -/
theorem sorted_stable_unique : ∀ (xs ys : List render_item_t),
    xs.Pairwise (fun a b => a.sort_id ≤ b.sort_id) →
    ys.Pairwise (fun a b => a.sort_id ≤ b.sort_id) →
    (∀ k, xs.filter (fun r => r.sort_id = k) = ys.filter (fun r => r.sort_id = k)) →
    xs = ys := by
  intro xs
  induction xs with
  | nil =>
    intro ys _ _ h
    cases ys with
    | nil => rfl
    | cons y ys =>
      have := h y.sort_id
      simp [List.filter_cons] at this
  | cons x xs ih =>
    intro ys hx hy h
    cases ys with
    | nil =>
      have := h x.sort_id
      simp [List.filter_cons] at this
    | cons y ys =>
      have hxy : x.sort_id = y.sort_id := by
        have h1 : x ∈ (y :: ys).filter (fun r => r.sort_id = x.sort_id) := by
          rw [← h x.sort_id]; simp [List.filter_cons]
        have h2 : y ∈ (x :: xs).filter (fun r => r.sort_id = y.sort_id) := by
          rw [h y.sort_id]; simp [List.filter_cons]
        have h1' := (List.mem_filter.mp h1).1
        have h2' := (List.mem_filter.mp h2).1
        have a1 : y.sort_id ≤ x.sort_id := by
          rcases List.mem_cons.mp h1' with e | e
          · rw [e]
          · exact (List.pairwise_cons.mp hy).1 x e
        have a2 : x.sort_id ≤ y.sort_id := by
          rcases List.mem_cons.mp h2' with e | e
          · rw [e]
          · exact (List.pairwise_cons.mp hx).1 y e
        omega
      have hhead := h x.sort_id
      simp only [List.filter_cons, decide_True, if_true, hxy] at hhead
      have hxe : x = y := by
        have := hhead
        simp only [decide_True, if_true] at this
        exact (List.cons.inj this).1
      subst hxe
      congr 1
      apply ih ys (List.pairwise_cons.mp hx).2 (List.pairwise_cons.mp hy).2
      intro k
      have := h k
      simp only [List.filter_cons] at this
      by_cases e : x.sort_id = k
      · simp only [e, decide_True, if_true] at this
        exact (List.cons.inj this).2
      · simp only [e, decide_False] at this
        exact this

/-! ## Consequences for a whole call -/

theorem lsd_take_length (a : List render_item_t) (count : Nat) (h : count ≤ a.length) :
    (lsd_passes RADIX_LEVELS 0 (a.take count)).length = count := by
  rw [lsd_passes_length, List.length_take]; omega

theorem result_take (a : List render_item_t) (count : Nat) (h : count ≤ a.length) :
    (lsd_passes RADIX_LEVELS 0 (a.take count) ++ a.drop count).take count
      = lsd_passes RADIX_LEVELS 0 (a.take count) :=
  List.take_left' (lsd_take_length a count h)

theorem result_length (a : List render_item_t) (count : Nat) (h : count ≤ a.length) :
    (lsd_passes RADIX_LEVELS 0 (a.take count) ++ a.drop count).length = a.length := by
  rw [List.length_append, lsd_take_length a count h, List.length_drop]; omega

theorem pair_sublist (l : List render_item_t) (i j : Nat) (x y : render_item_t)
    (hij : i < j) (hx : l[i]? = some x) (hy : l[j]? = some y) : [x, y].Sublist l := by
  have hi : i < l.length := by
    by_contra hn
    rw [List.getElem?_eq_none (by omega)] at hx
    cases hx
  have hxe : l[i] = x := by
    rw [List.getElem?_eq_getElem hi] at hx
    exact Option.some.inj hx
  have hmem : y ∈ l.drop (i + 1) := by
    apply List.getElem?_mem (n := j - (i + 1))
    rw [List.getElem?_drop, show i + 1 + (j - (i + 1)) = j by omega]
    exact hy
  have h1 : [x, y].Sublist (x :: l.drop (i + 1)) :=
    List.Sublist.cons₂ x (List.singleton_sublist.mpr hmem)
  have h2 : (x :: l.drop (i + 1)).Sublist l := by
    rw [← hxe, List.getElem_cons_drop]
    exact List.drop_sublist i l
  exact h1.trans h2

theorem lsd_sorted_id (xs : List render_item_t) (hk : ∀ r ∈ xs, r.sort_id < 2 ^ 64)
    (hx : xs.Pairwise (fun x y => x.sort_id ≤ y.sort_id)) :
    lsd_passes RADIX_LEVELS 0 xs = xs :=
  sorted_stable_unique _ _ (lsd_sorted xs hk) hx
    (fun k => lsd_passes_filter_key k RADIX_LEVELS 0 xs)

/-- Every call of a sequence returns the block that any other call on the same block and
count returns, and leaves the globals consistent with capacity the largest count so far. -/
theorem radix_sort7_calls_spec : ∀ (calls : List SortCall) (s : Scratch),
    (∀ c ∈ calls, c.count ≤ c.a.length) → s.Valid →
    ∃ s1, radix_sort7_calls calls s
        = some (calls.map (fun c =>
            lsd_passes RADIX_LEVELS 0 (c.a.take c.count) ++ c.a.drop c.count), s1) ∧
      s1.Valid ∧ s1.radix_queue_size = max s.radix_queue_size (max_count calls) := by
  intro calls
  induction calls with
  | nil => intro s _ hs; exact ⟨s, rfl, hs, by simp [max_count]⟩
  | cons c cs ih =>
    intro s hc hs
    obtain ⟨s1, e1, hv1, hz1⟩ := radix_sort7_spec c.junk c.a c.count s
      (hc c (List.mem_cons_self _ _)) hs
    obtain ⟨s2, e2, hv2, hz2⟩ := ih s1 (fun d hd => hc d (List.mem_cons_of_mem _ hd)) hv1
    refine ⟨s2, ?_, hv2, ?_⟩
    · simp only [radix_sort7_calls, e1, e2, List.map_cons]
    · rw [hz2, hz1]
      simp only [max_count]
      omega

theorem is_trivial_freqs_zero (l : Nat) : is_trivial (freqs_zero.getD l []) 0 = some true := by
  unfold is_trivial
  rw [is_trivial_loop_zero _ 0 RADIX_SIZE 0 (fun v _ _ => freqs_zero_get l v)]
  rfl

theorem is_trivial_replicate_zero : is_trivial (List.replicate RADIX_SIZE 0) 0 = some true := by
  unfold is_trivial
  rw [is_trivial_loop_zero _ 0 RADIX_SIZE 0 (fun v _ _ => by
    rw [List.getD_eq_getElem?_getD, List.getElem?_replicate]
    by_cases hv : v < RADIX_SIZE <;> simp [hv])]
  rfl

theorem getD_le_sum : ∀ (f : List Nat) (v : Nat), f.getD v 0 ≤ f.sum := by
  intro f
  induction f with
  | nil => intro v; simp
  | cons x f ih =>
    intro v
    cases v with
    | zero => simp
    | succ v =>
      have := ih v
      simp only [List.getD_cons_succ, List.sum_cons]
      omega

theorem sum_eq_zero_of_getD (f : List Nat) (h : ∀ v, f.getD v 0 = 0) : f.sum = 0 := by
  rw [List.sum_eq_zero_iff]
  intro x hx
  obtain ⟨n, hn⟩ := List.mem_iff_getElem?.mp hx
  have := h n
  rw [List.getD_eq_getElem?_getD, hn] at this
  exact this

theorem getD_eq_sum_iff : ∀ (f : List Nat) (v : Nat), v < f.length →
    (f.getD v 0 = f.sum ↔ ∀ j, j ≠ v → f.getD j 0 = 0) := by
  intro f
  induction f with
  | nil => intro v hv; simp at hv
  | cons x f ih =>
    intro v hv
    cases v with
    | zero =>
      simp only [List.getD_cons_zero, List.sum_cons]
      constructor
      · intro h j hj
        cases j with
        | zero => exact absurd rfl hj
        | succ j =>
          have h1 := getD_le_sum f j
          simp only [List.getD_cons_succ]
          omega
      · intro h
        have : f.sum = 0 := sum_eq_zero_of_getD f (fun j => by
          have := h (j + 1) (by omega)
          simpa using this)
        omega
    | succ v =>
      simp only [List.getD_cons_succ, List.sum_cons]
      have hv' : v < f.length := by simpa using hv
      have hle := getD_le_sum f v
      constructor
      · intro h j hj
        have hx0 : x = 0 := by omega
        cases j with
        | zero => simpa using hx0
        | succ j =>
          simp only [List.getD_cons_succ]
          exact (ih v hv').mp (by omega) j (by omega)
      · intro h
        have hx0 : x = 0 := by simpa using h 0 (by omega)
        have := (ih v hv').mpr (fun j hj => by
          have := h (j + 1) (by omega)
          simpa using this)
        omega

/-! ## Histogram rows -/

theorem sum_take_eq_offset (f : List Nat) :
    ∀ n, (f.take n).sum = offset (fun u => f.getD u 0) n := by
  intro n
  induction n with
  | zero => simp [offset]
  | succ n ih =>
    rw [List.take_succ, List.sum_append, ih]
    simp only [offset, List.getD_eq_getElem?_getD]
    cases f[n]? <;> simp

theorem row_sum_eq_length (d : render_item_t → Nat) (xs : List render_item_t)
    (row : List Nat) (hd : ∀ x ∈ xs, d x < RADIX_SIZE) (hlen : row.length = RADIX_SIZE)
    (hrow : ∀ v, v < RADIX_SIZE → row.getD v 0 = digit_count d xs v) :
    row.sum = xs.length := by
  have h1 := sum_take_eq_offset row RADIX_SIZE
  rw [List.take_of_length_le (by omega)] at h1
  rw [h1, offset_congr _ (digit_count d xs) RADIX_SIZE hrow]
  exact offset_digit_count d xs RADIX_SIZE hd

theorem take_eq_map_range (a : List render_item_t) (count : Nat) (h : count ≤ a.length)
    (dflt : render_item_t) :
    a.take count = (List.range count).map (fun i => a.getD i dflt) := by
  apply List.ext_getElem?
  intro n
  rw [List.getElem?_take, List.getElem?_map]
  by_cases hn : n < count
  · rw [if_pos hn, List.getElem?_range hn, Option.map_some', List.getD_eq_getElem?_getD,
      List.getElem?_eq_getElem (by omega)]
    rfl
  · rw [if_neg hn, List.getElem?_eq_none (by simpa using hn)]
    rfl

theorem iterate_shift (k : Nat) : ∀ l,
    Nat.iterate (fun v => v >>> RADIX_BITS) l k = k >>> (l * RADIX_BITS) := by
  intro l
  induction l with
  | zero => simp
  | succ l ih =>
    rw [Function.iterate_succ_apply', ih, ← Nat.shiftRight_add, Nat.add_mul, Nat.one_mul]

theorem key_digits_sum (k : Nat) (hk : k < 2 ^ 64) :
    k = ((List.range RADIX_LEVELS).map (fun j => (k / 256 ^ j % 256) * 256 ^ j)).sum := by
  rw [RADIX_LEVELS_eq]
  simp only [List.range_succ, List.range_zero, List.nil_append, List.cons_append,
    List.map_cons, List.map_nil, List.sum_cons, List.sum_nil]
  norm_num
  omega

/-! ## The variant that never skips -/

theorem radix_pass_loop_noskip_spec (F : freq_array_type) (count : Nat) :
    ∀ (n pass : Nat) (src dst : BufferRole) (m : Memory) (S D : List render_item_t),
      src ≠ dst → m.buf src = some S → m.buf dst = some D →
      count ≤ S.length → count ≤ D.length → pass + n ≤ RADIX_LEVELS →
      (∀ l, l < RADIX_LEVELS → ∀ v,
        (F.getD l []).getD v 0 = digit_count (digit l) (S.take count) v) →
      ∃ m1 src1 S1, radix_pass_loop_noskip n pass F count src dst m = some (m1, src1) ∧
        m1.buf src1 = some S1 ∧
        S1.take count = lsd_passes n pass (S.take count) ∧
        ∀ r B, m.buf r = some B →
          ∃ B1, m1.buf r = some B1 ∧ B1.length = B.length ∧ B1.drop count = B.drop count := by
  intro n
  induction n with
  | zero =>
    intro pass src dst m S D _ hS _ _ _ _ _
    exact ⟨m, src, S, rfl, hS, rfl, fun r B hB => ⟨B, hB, rfl, rfl⟩⟩
  | succ n ih =>
    intro pass src dst m S D hne hS hD hcS hcD hle hF
    have hlen : (S.take count).length = count := by rw [List.length_take]; omega
    simp only [radix_pass_loop_noskip, lsd_passes]
    obtain ⟨m1, e, h1, h2⟩ := partition_pass pass count src dst hne S D m (F.getD pass [])
      hS hD hcS hcD (fun v _ => hF pass (by omega) v)
    simp only [e]
    have hD1len : (stable_pass pass (S.take count) ++ D.drop count).length = D.length := by
      rw [List.length_append, stable_pass_length, hlen, List.length_drop]; omega
    have hD1take : (stable_pass pass (S.take count) ++ D.drop count).take count
        = stable_pass pass (S.take count) :=
      List.take_left' (by rw [stable_pass_length, hlen])
    have hD1drop : (stable_pass pass (S.take count) ++ D.drop count).drop count
        = D.drop count :=
      List.drop_left' (by rw [stable_pass_length, hlen])
    obtain ⟨m2, src2, S2, e2, hS2, ht2, hfr⟩ := ih (pass + 1) dst src m1 _ S
      (fun h => hne h.symm) h2 h1 (by rw [hD1len]; exact hcD) hcS (by omega) (by
        intro l hl v
        rw [hD1take, hF l hl v]
        exact (digit_count_perm _ _ _ (stable_pass_perm pass _) v).symm)
    rw [hD1take] at ht2
    refine ⟨m2, src2, S2, e2, hS2, ht2, ?_⟩
    intro r B hB
    by_cases hr : r = src
    · subst hr
      rw [hS] at hB
      cases hB
      exact hfr r S h1
    · have hrd : r = dst := by
        cases r <;> cases src <;> cases dst <;>
          first | rfl | exact absurd rfl hr | exact absurd rfl hne
      subst hrd
      rw [hD] at hB
      cases hB
      obtain ⟨B1, hb1, hb2, hb3⟩ := hfr r _ h2
      exact ⟨B1, hb1, by rw [hb2, hD1len], by rw [hb3, hD1drop]⟩

theorem radix_sort7_noskip_spec (junk : Nat → render_item_t) (a : List render_item_t)
    (count : Nat) (s : Scratch) (h : count ≤ a.length) (hs : s.Valid) :
    ∃ s1, radix_sort7_noskip junk a count s
        = some (lsd_passes RADIX_LEVELS 0 (a.take count) ++ a.drop count, s1) := by
  obtain ⟨F, hF, _, hget⟩ := count_frequency_spec a count h
  obtain ⟨hv1, hsz, hbuf⟩ := radix_resize_spec junk count s hs
  unfold radix_sort7_noskip
  simp only [hF]
  by_cases hc : count = 0
  · subst hc
    have hloop : radix_pass_loop_noskip RADIX_LEVELS 0 F 0 .caller .scratch
        ⟨a, (radix_resize junk 0 s).radix_queue_area⟩
        = some (⟨a, (radix_resize junk 0 s).radix_queue_area⟩, .caller) := rfl
    simp only [hloop]
    refine ⟨radix_resize junk 0 s, ?_⟩
    simp [lsd_passes_nil]
  · obtain ⟨buf, hb1, hb2, hb3⟩ := hbuf (by omega)
    obtain ⟨m1, src1, S1, e, hS1, ht, hfr⟩ := radix_pass_loop_noskip_spec F count
      RADIX_LEVELS 0 .caller .scratch ⟨a, some buf⟩ a buf (by decide) rfl rfl h hb3
      (by omega) hget
    rw [hb1]
    simp only [e]
    obtain ⟨A1, hA1, hA1len, hA1drop⟩ := hfr .caller a rfl
    obtain ⟨B1, hB1, hB1len, hB1drop⟩ := hfr .scratch buf rfl
    simp only [Memory.buf, Option.some.injEq] at hA1 hB1
    cases src1 with
    | caller =>
      simp only [Memory.buf, Option.some.injEq] at hS1
      refine ⟨⟨some B1, (radix_resize junk count s).radix_queue_size⟩, ?_⟩
      simp only [ne_eq, not_true_eq_false, if_false, hB1]
      rw [← ht, ← hA1drop, ← hS1, hA1, List.take_append_drop]
    | scratch =>
      simp only [Memory.buf] at hS1
      rw [hB1] at hS1
      have hBS : B1 = S1 := Option.some.inj hS1
      rw [← hBS] at ht
      refine ⟨⟨some B1, (radix_resize junk count s).radix_queue_size⟩, ?_⟩
      have hfc : final_copy m1 count
          = some { m1 with a := B1.take count ++ m1.a.drop count } := by
        simp only [final_copy, hB1]
        rw [if_pos ⟨by omega, by rw [hA1]; omega⟩]
      simp only [ne_eq, reduceCtorEq, not_false_eq_true, if_true, hfc, hB1]
      rw [ht, hA1, hA1drop]

/-! ## Levels on which all records agree -/

theorem lsd_passes_const : ∀ (n pass : Nat) (xs : List render_item_t),
    (∀ l, pass ≤ l → l < pass + n → ∃ v, ∀ x ∈ xs, digit l x = v) →
    lsd_passes n pass xs = xs := by
  intro n
  induction n with
  | zero => intro pass xs _; rfl
  | succ n ih =>
    intro pass xs h
    obtain ⟨v, hv⟩ := h pass (Nat.le_refl _) (by omega)
    simp only [lsd_passes]
    rw [stable_pass_const pass v xs hv]
    exact ih (pass + 1) xs (fun l h1 h2 => h l (by omega) (by omega))

theorem shared_digit (d : render_item_t → Nat) (xs : List render_item_t)
    (h : ∀ x ∈ xs, ∀ y ∈ xs, d x = d y) : ∃ v, ∀ x ∈ xs, d x = v := by
  cases xs with
  | nil => exact ⟨0, by simp⟩
  | cons x xs => exact ⟨d x, fun y hy => h y hy x (List.mem_cons_self _ _)⟩

theorem is_trivial_of_shared (a : List render_item_t) (count l : Nat) (F : freq_array_type)
    (h : count ≤ a.length) (hl : l < RADIX_LEVELS)
    (hget : ∀ l, l < RADIX_LEVELS → ∀ d,
      (F.getD l []).getD d 0 = digit_count (digit l) (a.take count) d)
    (hv : ∃ v, ∀ x ∈ a.take count, digit l x = v) :
    is_trivial (F.getD l []) count = some true := by
  obtain ⟨b, hb, hiff⟩ := is_trivial_of_counts (digit l) (a.take count) (F.getD l [])
    (fun x _ => digit_lt l x) (fun v _ => hget l hl v)
  have hlen : (a.take count).length = count := by rw [List.length_take]; omega
  have : b = true := hiff.mpr hv
  subst this
  rw [hlen] at hb
  exact hb

/-! ## Records that differ in payload only -/

theorem bucketsUpTo_map (d : render_item_t → Nat) (f : render_item_t → render_item_t)
    (xs : List render_item_t) (h : ∀ x ∈ xs, d (f x) = d x) (n : Nat) :
    bucketsUpTo d (xs.map f) n = (bucketsUpTo d xs n).map f := by
  induction n with
  | zero => rfl
  | succ n ih =>
    simp only [bucketsUpTo, ih, List.map_append, List.filter_map]
    congr 2
    apply List.filter_congr
    intro x hx
    simp [h x hx]

theorem lsd_passes_map (f : render_item_t → render_item_t) :
    ∀ (n pass : Nat) (xs : List render_item_t),
      (∀ x ∈ xs, (f x).sort_id = x.sort_id) →
      lsd_passes n pass (xs.map f) = (lsd_passes n pass xs).map f := by
  intro n
  induction n with
  | zero => intro pass xs _; rfl
  | succ n ih =>
    intro pass xs h
    simp only [lsd_passes, stable_pass]
    rw [bucketsUpTo_map (digit pass) f xs (fun x hx => by simp [digit, h x hx])]
    exact ih (pass + 1) _
      (fun x hx => h x ((stable_pass_perm pass xs).mem_iff.mp hx))

theorem tag_positions_payload (a : List render_item_t) (count : Nat) :
    (tag_positions a count).map (fun r => r.payload) = List.range count := by
  unfold tag_positions
  rw [List.map_map]
  exact List.map_id'' (fun _ => rfl) _

theorem tag_positions_mem (a : List render_item_t) (count : Nat) (r : render_item_t)
    (hr : r ∈ tag_positions a count) :
    r.payload < count ∧ r.sort_id = (a.getD r.payload ⟨0, 0⟩).sort_id := by
  unfold tag_positions at hr
  obtain ⟨i, hi, e⟩ := List.mem_map.mp hr
  subst e
  exact ⟨List.mem_range.mp hi, rfl⟩

theorem tag_positions_map (a : List render_item_t) (count : Nat) (h : count ≤ a.length) :
    (tag_positions a count).map (fun r => a.getD r.payload ⟨0, 0⟩) = a.take count := by
  unfold tag_positions
  rw [List.map_map, take_eq_map_range a count h ⟨0, 0⟩]
  rfl

theorem tag_positions_congr (a b : List render_item_t) (count : Nat)
    (ha : count ≤ a.length) (hb : count ≤ b.length)
    (hkeys : (a.take count).map (fun r => r.sort_id) = (b.take count).map (fun r => r.sort_id)) :
    tag_positions a count = tag_positions b count := by
  rw [take_eq_map_range a count ha ⟨0, 0⟩, take_eq_map_range b count hb ⟨0, 0⟩,
    List.map_map, List.map_map] at hkeys
  have := List.map_inj_left.mp hkeys
  unfold tag_positions
  apply List.map_congr_left
  intro i hi
  have e := this i hi
  simp only [Function.comp] at e
  rw [e]

/-- Every cell `p < count` of the result block holds the record found in the input at the
position recorded at place `p` of the sorted position tags. -/
theorem result_from_positions (a : List render_item_t) (count : Nat) (h : count ≤ a.length)
    (p : Nat) (hp : p < count) :
    ∃ r, (lsd_passes RADIX_LEVELS 0 (tag_positions a count))[p]? = some r ∧
      r.payload < count ∧
      (lsd_passes RADIX_LEVELS 0 (a.take count) ++ a.drop count)[p]? = a[r.payload]? := by
  have hlenc : (tag_positions a count).length = count := by simp [tag_positions]
  have hlen : (lsd_passes RADIX_LEVELS 0 (tag_positions a count)).length = count := by
    rw [lsd_passes_length, hlenc]
  have hp' : p < (lsd_passes RADIX_LEVELS 0 (tag_positions a count)).length := by omega
  have hmem : (lsd_passes RADIX_LEVELS 0 (tag_positions a count))[p] ∈ tag_positions a count :=
    (lsd_passes_perm _ _ _).mem_iff.mp (List.getElem_mem hp')
  obtain ⟨hlt, _⟩ := tag_positions_mem a count _ hmem
  refine ⟨_, List.getElem?_eq_getElem hp', hlt, ?_⟩
  have hmap := lsd_passes_map (fun r => a.getD r.payload ⟨0, 0⟩) RADIX_LEVELS 0
    (tag_positions a count) (fun x hx => ((tag_positions_mem a count x hx).2).symm)
  rw [tag_positions_map a count h] at hmap
  rw [List.getElem?_append_left (by rw [lsd_take_length a count h]; exact hp), hmap,
    List.getElem?_map, List.getElem?_eq_getElem hp', Option.map_some',
    List.getD_eq_getElem?_getD, List.getElem?_eq_getElem (by omega)]
  rfl

/-! ## Runs of one pass -/

theorem bucketsUpTo_eq_flatMap (d : render_item_t → Nat) (xs : List render_item_t) (n : Nat) :
    bucketsUpTo d xs n = (List.range n).flatMap (fun v => xs.filter (fun x => d x = v)) := by
  induction n with
  | zero => rfl
  | succ n ih =>
    rw [List.range_succ, List.flatMap_append, ← ih]
    simp [bucketsUpTo]

theorem offset_eq_sum (c : Nat → Nat) (n : Nat) :
    offset c n = ((List.range n).map c).sum := by
  induction n with
  | zero => rfl
  | succ n ih => rw [List.sum_range_succ, ← ih]; rfl

/-! ## The writes of one pass -/

theorem BufferRole.ne_other (r : BufferRole) : r ≠ r.other := by
  cases r <;> decide

theorem BufferRole.other_other (r : BufferRole) : r.other.other = r := by
  cases r <;> rfl

theorem BufferRole.eq_other_of_ne (r q : BufferRole) (h : r ≠ q) : q = r.other := by
  cases r <;> cases q <;> first | rfl | exact absurd rfl h

theorem write_keeps_other (m m1 : Memory) (src dst : BufferRole) (p : Nat)
    (value : render_item_t) (hne : src ≠ dst) (hw : m.write dst p value = some m1) :
    m1.buf src = m.buf src := by
  cases dst with
  | caller =>
    cases src with
    | caller => exact absurd rfl hne
    | scratch =>
      simp only [Memory.write] at hw
      by_cases hp : p < m.a.length
      · rw [if_pos hp] at hw; cases hw; rfl
      · rw [if_neg hp] at hw; cases hw
  | scratch =>
    cases src with
    | scratch => exact absurd rfl hne
    | caller =>
      simp only [Memory.write] at hw
      cases harea : m.area with
      | none => rw [harea] at hw; cases hw
      | some buf =>
        rw [harea] at hw
        simp only at hw
        by_cases hp : p < buf.length
        · rw [if_pos hp] at hw; cases hw; rfl
        · rw [if_neg hp] at hw; cases hw

/-- The logging loop does what `partition_loop` does; its log is determined by the source
records and the slot table. -/
theorem partition_loop_writes_eq (pass : Nat) (src dst : BufferRole) (hne : src ≠ dst)
    (S : List render_item_t) :
    ∀ (n i : Nat) (ptrs : List Nat) (m : Memory),
      m.buf src = some S → i + n ≤ S.length →
      partition_loop_writes n i (pass * RADIX_BITS) src dst ptrs m
        = (partition_loop n i (pass * RADIX_BITS) src dst ptrs m).map
            (fun m1 => (m1, scatter_writes (digit pass) ((S.drop i).take n) ptrs,
              scatter_ptrs (digit pass) ((S.drop i).take n) ptrs)) := by
  intro n
  induction n with
  | zero => intro i ptrs m _ _; rfl
  | succ n ih =>
    intro i ptrs m hS hle
    have hi : i < S.length := by omega
    have hdrop : (S.drop i).take (n + 1) = S[i] :: (S.drop (i + 1)).take n := by
      rw [List.drop_eq_getElem_cons hi, List.take_succ_cons]
    rw [hdrop]
    simp only [partition_loop_writes, partition_loop, read_buf m src S i hS,
      List.getElem?_eq_getElem hi]
    cases hw : m.write dst (ptrs.getD (S[i].sort_id >>> (pass * RADIX_BITS) &&& RADIX_MASK) 0)
        S[i] with
    | none => rfl
    | some m1 =>
      have hS1 : m1.buf src = some S := by
        rw [write_keeps_other m m1 src dst _ _ hne hw]; exact hS
      simp only []
      rw [ih (i + 1) _ m1 hS1 (by omega)]
      cases partition_loop n (i + 1) (pass * RADIX_BITS) src dst
          (ptrs.set (S[i].sort_id >>> (pass * RADIX_BITS) &&& RADIX_MASK)
            (ptrs.getD (S[i].sort_id >>> (pass * RADIX_BITS) &&& RADIX_MASK) 0 + 1)) m1 with
      | none => rfl
      | some m2 => rfl

theorem scatter_writes_length (d : render_item_t → Nat) (xs : List render_item_t) :
    ∀ ptrs, (scatter_writes d xs ptrs).length = xs.length := by
  induction xs with
  | nil => intro ptrs; rfl
  | cons x xs ih => intro ptrs; simp [scatter_writes, ih]

theorem scatter_ptrs_getD (d : render_item_t → Nat) (xs : List render_item_t) :
    ∀ (ptrs : List Nat), (∀ x ∈ xs, d x < ptrs.length) → ∀ v,
      (scatter_ptrs d xs ptrs).getD v 0 = ptrs.getD v 0 + digit_count d xs v := by
  induction xs with
  | nil => intro ptrs _ v; simp [scatter_ptrs, digit_count]
  | cons x xs ih =>
    intro ptrs hlen v
    have hx : d x < ptrs.length := hlen x (List.mem_cons_self _ _)
    simp only [scatter_ptrs]
    rw [ih _ (by intro y hy; simpa using hlen y (List.mem_cons_of_mem _ hy)) v,
      getD_set_nat ptrs (d x) v _ hx, digit_count_cons]
    by_cases e : v = d x
    · subst e; simp only [if_true]; omega
    · have e' : ¬ d x = v := fun h => e h.symm
      simp only [e, e', if_false]; omega

/-- Every offset written lies in the run of some digit. -/
theorem scatter_writes_region (d : render_item_t → Nat) (xs : List render_item_t) :
    ∀ (ptrs : List Nat), (∀ x ∈ xs, d x < ptrs.length) →
      ∀ w ∈ scatter_writes d xs ptrs,
        ∃ v, ptrs.getD v 0 ≤ w ∧ w < ptrs.getD v 0 + digit_count d xs v := by
  induction xs with
  | nil => intro ptrs _ w hw; simp [scatter_writes] at hw
  | cons x xs ih =>
    intro ptrs hlen w hw
    have hx : d x < ptrs.length := hlen x (List.mem_cons_self _ _)
    simp only [scatter_writes, List.mem_cons] at hw
    rcases hw with hw | hw
    · refine ⟨d x, by omega, ?_⟩
      rw [digit_count_cons]; simp only [if_true]; omega
    · obtain ⟨v, h1, h2⟩ := ih _
        (by intro y hy; simpa using hlen y (List.mem_cons_of_mem _ hy)) w hw
      rw [getD_set_nat ptrs (d x) v _ hx] at h1 h2
      refine ⟨v, ?_, ?_⟩
      · by_cases e : v = d x
        · subst e; simp only [if_true] at h1; omega
        · simp only [e, if_false] at h1; exact h1
      · rw [digit_count_cons]
        by_cases e : v = d x
        · subst e; simp only [if_true] at h2 ⊢; omega
        · have e' : ¬ d x = v := fun h => e h.symm
          simp only [e, e', if_false] at h2 ⊢; omega

/-- With disjoint runs no offset is written twice. -/
theorem scatter_writes_nodup (d : render_item_t → Nat) (xs : List render_item_t) :
    ∀ (ptrs : List Nat), (∀ x ∈ xs, d x < ptrs.length) →
      (∀ v w, v ≠ w → 0 < digit_count d xs v → 0 < digit_count d xs w →
        ptrs.getD v 0 + digit_count d xs v ≤ ptrs.getD w 0 ∨
        ptrs.getD w 0 + digit_count d xs w ≤ ptrs.getD v 0) →
      (scatter_writes d xs ptrs).Nodup := by
  induction xs with
  | nil => intro ptrs _ _; exact List.nodup_nil
  | cons x xs ih =>
    intro ptrs hlen hdisj
    have hx : d x < ptrs.length := hlen x (List.mem_cons_self _ _)
    have hp : ∀ v, (ptrs.set (d x) (ptrs.getD (d x) 0 + 1)).getD v 0
        = if v = d x then ptrs.getD (d x) 0 + 1 else ptrs.getD v 0 :=
      fun v => getD_set_nat ptrs (d x) v _ hx
    have hlen' : ∀ y ∈ xs, d y < (ptrs.set (d x) (ptrs.getD (d x) 0 + 1)).length := by
      intro y hy; simpa using hlen y (List.mem_cons_of_mem _ hy)
    have hcx : digit_count d (x :: xs) (d x) = digit_count d xs (d x) + 1 := by
      rw [digit_count_cons]; simp
    have hcne : ∀ w, w ≠ d x → digit_count d (x :: xs) w = digit_count d xs w := by
      intro w hw
      have : ¬ d x = w := fun e => hw e.symm
      rw [digit_count_cons]; simp [this]
    simp only [scatter_writes]
    rw [List.nodup_cons]
    constructor
    · intro hmem
      obtain ⟨v, h1, h2⟩ := scatter_writes_region d xs _ hlen' _ hmem
      rw [hp v] at h1 h2
      by_cases e : v = d x
      · subst e; simp only [if_true] at h1; omega
      · simp only [e, if_false] at h1 h2
        have := hdisj (d x) v (fun h => e h.symm) (by omega) (by rw [hcne v e]; omega)
        rw [hcne v e, hcx] at this
        omega
    · apply ih _ hlen'
      intro a b hab ha hb
      rw [hp a, hp b]
      by_cases hax : a = d x
      · subst hax
        have hbx : b ≠ d x := fun e => hab e.symm
        have := hdisj (d x) b hab (by omega) (by rw [hcne b hbx]; exact hb)
        rw [hcne b hbx, hcx] at this
        simp only [if_true, hbx, if_false]
        omega
      · by_cases hbx : b = d x
        · subst hbx
          have := hdisj a (d x) hab (by rw [hcne a hax]; exact ha) (by omega)
          rw [hcne a hax, hcx] at this
          simp only [if_true, hax, if_false]
          omega
        · have := hdisj a b hab (by rw [hcne a hax]; exact ha) (by rw [hcne b hbx]; exact hb)
          rw [hcne a hax, hcne b hbx] at this
          simp only [hax, hbx, if_false]
          exact this

/-- From the slot table of the histogram the copy loop writes every offset below
`xs.length` exactly once. -/
theorem scatter_writes_perm (d : render_item_t → Nat) (xs : List render_item_t) (N : Nat)
    (ptrs : List Nat) (hd : ∀ x ∈ xs, d x < N) (hN : ptrs.length = N)
    (hptr : ∀ v, v < N → ptrs.getD v 0 = offset (digit_count d xs) v) :
    (scatter_writes d xs ptrs).Perm (List.range xs.length) := by
  have htot := offset_digit_count d xs N hd
  have hnd : (scatter_writes d xs ptrs).Nodup := by
    apply scatter_writes_nodup d xs ptrs (by rw [hN]; exact hd)
    intro a b hab ha hb
    have haN := digit_count_pos d xs N a hd ha
    have hbN := digit_count_pos d xs N b hd hb
    rw [hptr a haN, hptr b hbN]
    rcases Nat.lt_or_gt_of_ne hab with h | h
    · left; exact offset_succ_le _ a b h
    · right; exact offset_succ_le _ b a h
  have hsub : scatter_writes d xs ptrs ⊆ List.range xs.length := by
    intro w hw
    obtain ⟨v, _, h2⟩ := scatter_writes_region d xs ptrs (by rw [hN]; exact hd) w hw
    have hv : v < N := digit_count_pos d xs N v hd (by omega)
    rw [hptr v hv] at h2
    have := offset_succ_le (digit_count d xs) v N hv
    exact List.mem_range.mpr (by omega)
  exact (List.subperm_of_subset hnd hsub).perm_of_length_le
    (by rw [List.length_range, scatter_writes_length])

/-! ## The level loop, level by level -/

theorem radix_pass_loop_split (F : freq_array_type) (count : Nat) :
    ∀ (k j pass : Nat) (src : BufferRole) (m : Memory),
      radix_pass_loop (k + j) pass F count src src.other m
        = (radix_pass_loop k pass F count src src.other m).bind
            (fun r => radix_pass_loop j (pass + k) F count r.2 r.2.other r.1) := by
  intro k
  induction k with
  | zero =>
    intro j pass src m
    simp [radix_pass_loop]
  | succ k ih =>
    intro j pass src m
    rw [show k + 1 + j = (k + j) + 1 by omega]
    simp only [radix_pass_loop]
    cases is_trivial (F.getD pass []) count with
    | none => rfl
    | some b =>
      cases b with
      | true =>
        simp only []
        rw [ih j (pass + 1) src m, show pass + 1 + k = pass + (k + 1) by omega]
      | false =>
        simp only []
        cases partition_loop count 0 (pass * RADIX_BITS) src src.other
            (queue_ptrs_init (F.getD pass [])) m with
        | none => rfl
        | some m1 =>
          simp only []
          have := ih j (pass + 1) src.other m1
          rw [BufferRole.other_other, show pass + 1 + k = pass + (k + 1) by omega] at this
          exact this

theorem digit_of_low (x pass K : Nat) (h : pass < K) :
    x / 256 ^ pass % 256 = (x % 256 ^ K) / 256 ^ pass % 256 := by
  have e : 256 ^ K = 256 ^ pass * 256 ^ (K - pass) := by
    rw [← pow_add]; congr 1; omega
  rw [e, Nat.mod_mul_right_div_self]
  have hdvd : 256 ∣ 256 ^ (K - pass) := dvd_pow_self 256 (by omega)
  rw [Nat.mod_mod_of_dvd _ hdvd]

theorem stable_pass_filter_low (pass K v : Nat) (h : pass < K) (xs : List render_item_t) :
    (stable_pass pass xs).filter (fun r => r.sort_id % 256 ^ K = v)
      = xs.filter (fun r => r.sort_id % 256 ^ K = v) := by
  have hv : v / 256 ^ pass % 256 < RADIX_SIZE := by
    rw [RADIX_SIZE_eq]; exact Nat.mod_lt _ (by norm_num)
  have := bucketsUpTo_filter (digit pass) (fun r => decide (r.sort_id % 256 ^ K = v))
    (v / 256 ^ pass % 256) (by
      intro x hx
      have e : x.sort_id % 256 ^ K = v := by simpa using hx
      rw [digit_eq, digit_of_low _ pass K h, e]) xs RADIX_SIZE
  rw [if_pos hv] at this
  exact this

theorem lsd_passes_filter_low (K v : Nat) : ∀ (n pass : Nat) (xs : List render_item_t),
    pass + n ≤ K →
    (lsd_passes n pass xs).filter (fun r => r.sort_id % 256 ^ K = v)
      = xs.filter (fun r => r.sort_id % 256 ^ K = v) := by
  intro n
  induction n with
  | zero => intro pass xs _; rfl
  | succ n ih =>
    intro pass xs hle
    simp only [lsd_passes]
    rw [ih (pass + 1) _ (by omega), stable_pass_filter_low pass K v (by omega)]

theorem lsd_passes_sorted_low (k : Nat) (xs : List render_item_t) :
    (lsd_passes k 0 xs).Pairwise
      (fun a b => a.sort_id % 256 ^ k ≤ b.sort_id % 256 ^ k) := by
  have h0 : xs.Pairwise (fun a b => a.sort_id % 256 ^ 0 ≤ b.sort_id % 256 ^ 0) :=
    List.pairwise_of_forall (fun a b => by simp [Nat.mod_one])
  have := lsd_passes_sorted k 0 xs h0
  rw [Nat.zero_add] at this
  exact this

/-- The state of the level loop of a call after its first `k` levels. -/
theorem radix_pass_loop_from_start (junk : Nat → render_item_t) (a : List render_item_t)
    (count : Nat) (s : Scratch) (F : freq_array_type) (k : Nat)
    (h : count ≤ a.length) (hs : s.Valid) (hk : k ≤ RADIX_LEVELS)
    (hget : ∀ l, l < RADIX_LEVELS → ∀ d,
      (F.getD l []).getD d 0 = digit_count (digit l) (a.take count) d) :
    ∃ mk srck Sk, radix_pass_loop k 0 F count .caller .scratch
        ⟨a, (radix_resize junk count s).radix_queue_area⟩ = some (mk, srck) ∧
      mk.buf srck = some Sk ∧ count ≤ Sk.length ∧
      Sk.take count = lsd_passes k 0 (a.take count) ∧
      mk.a.length = a.length ∧ mk.a.drop count = a.drop count ∧
      (0 < count → ∃ Dk, mk.buf srck.other = some Dk ∧ count ≤ Dk.length) := by
  by_cases hc : count = 0
  · subst hc
    have htriv := radix_pass_loop_trivial F 0 .caller .scratch
      ⟨a, (radix_resize junk 0 s).radix_queue_area⟩ k 0 (fun l _ hl =>
        is_trivial_of_shared a 0 l F h (by omega) hget ⟨0, by simp⟩)
    refine ⟨_, _, a, htriv, rfl, Nat.zero_le _, ?_, rfl, rfl, fun h0 => absurd h0 (by omega)⟩
    simp [lsd_passes_nil]
  · obtain ⟨_, _, hbuf⟩ := radix_resize_spec junk count s hs
    obtain ⟨buf, hb1, _, hb3⟩ := hbuf (by omega)
    obtain ⟨mk, srck, Sk, e, hSk, ht, hfr⟩ := radix_pass_loop_spec F count k 0
      .caller .scratch ⟨a, some buf⟩ a buf (by decide) rfl rfl h hb3 (by omega) hget
    rw [hb1]
    obtain ⟨A1, hA1, hA1len, hA1drop⟩ := hfr .caller a rfl
    obtain ⟨B1, hB1, hB1len, hB1drop⟩ := hfr .scratch buf rfl
    have hA1' : mk.a = A1 := by simpa [Memory.buf] using hA1
    refine ⟨mk, srck, Sk, e, hSk, ?_, ht, by rw [hA1', hA1len], by rw [hA1', hA1drop], ?_⟩
    · cases srck with
      | caller =>
        rw [hA1] at hSk
        have : A1 = Sk := Option.some.inj hSk
        rw [← this, hA1len]; exact h
      | scratch =>
        rw [hB1] at hSk
        have : B1 = Sk := Option.some.inj hSk
        rw [← this, hB1len]; exact hb3
    · intro _
      cases srck with
      | caller => exact ⟨B1, hB1, by rw [hB1len]; exact hb3⟩
      | scratch => exact ⟨A1, hA1, by rw [hA1len]; exact h⟩

/-- The partition pass on level `pass`, logged, from a state whose `from` block holds a
rearrangement of the input's first `count` records. -/
theorem partition_writes_safe (a : List render_item_t) (count pass : Nat)
    (F : freq_array_type) (src : BufferRole) (m : Memory) (S : List render_item_t)
    (hpass : pass < RADIX_LEVELS)
    (hget : ∀ l, l < RADIX_LEVELS → ∀ d,
      (F.getD l []).getD d 0 = digit_count (digit l) (a.take count) d)
    (hS : m.buf src = some S) (hcS : count ≤ S.length)
    (hperm : (S.take count).Perm (a.take count))
    (hD : 0 < count → ∃ D, m.buf src.other = some D ∧ count ≤ D.length) :
    ∃ m1 writes ptrs1,
      partition_loop_writes count 0 (pass * RADIX_BITS) src src.other
        (queue_ptrs_init (F.getD pass [])) m = some (m1, writes, ptrs1) ∧
      partition_loop count 0 (pass * RADIX_BITS) src src.other
        (queue_ptrs_init (F.getD pass [])) m = some m1 ∧
      writes.Perm (List.range count) ∧
      ∀ d, d < RADIX_SIZE →
        (queue_ptrs_init (F.getD pass [])).getD d 0
          = offset (fun e => (F.getD pass []).getD e 0) d ∧
        ptrs1.getD d 0
          = offset (fun e => (F.getD pass []).getD e 0) d + (F.getD pass []).getD d 0 ∧
        ptrs1.getD d 0 ≤ count := by
  have hlen : (S.take count).length = count := by rw [List.length_take]; omega
  have hrow : ∀ v, (F.getD pass []).getD v 0 = digit_count (digit pass) (S.take count) v :=
    fun v => by rw [hget pass hpass v]; exact (digit_count_perm _ _ _ hperm v).symm
  have hdig : ∀ x ∈ S.take count, digit pass x < RADIX_SIZE := fun x _ => digit_lt pass x
  have hptr : ∀ v, v < RADIX_SIZE → (queue_ptrs_init (F.getD pass [])).getD v 0
      = offset (digit_count (digit pass) (S.take count)) v := by
    intro v hv
    rw [queue_ptrs_init_getD _ v hv]
    exact offset_congr _ _ v (fun u _ => hrow u)
  have hsome : ∃ m1, partition_loop count 0 (pass * RADIX_BITS) src src.other
      (queue_ptrs_init (F.getD pass [])) m = some m1 := by
    by_cases hc : count = 0
    · subst hc; exact ⟨m, rfl⟩
    · obtain ⟨D, hD1, hD2⟩ := hD (by omega)
      obtain ⟨m1, e, _, _⟩ := partition_pass pass count src src.other src.ne_other S D m
        (F.getD pass []) hS hD1 hcS hD2 (fun v _ => hrow v)
      exact ⟨m1, e⟩
  obtain ⟨m1, e⟩ := hsome
  have hw := partition_loop_writes_eq pass src src.other src.ne_other S count 0
    (queue_ptrs_init (F.getD pass [])) m hS (by omega)
  rw [e, List.drop_zero] at hw
  refine ⟨m1, _, _, hw, e, ?_, ?_⟩
  · have := scatter_writes_perm (digit pass) (S.take count) RADIX_SIZE
      (queue_ptrs_init (F.getD pass [])) hdig (queue_ptrs_init_length _) hptr
    rw [hlen] at this
    exact this
  · intro d hd
    have h1 := queue_ptrs_init_getD (F.getD pass []) d hd
    refine ⟨h1, ?_, ?_⟩
    · rw [scatter_ptrs_getD (digit pass) (S.take count) _
        (by rw [queue_ptrs_init_length]; exact hdig) d, h1, hrow d]
    · rw [scatter_ptrs_getD (digit pass) (S.take count) _
        (by rw [queue_ptrs_init_length]; exact hdig) d, hptr d hd]
      have := offset_succ_le (digit_count (digit pass) (S.take count)) d RADIX_SIZE hd
      rw [offset_digit_count (digit pass) (S.take count) RADIX_SIZE hdig, hlen] at this
      exact this

/-! ## The specification's claims -/

/-- Claim C1. For a block of well-formed records, `count` within the block and consistent
globals, `radix_sort7` returns, the block keeps its length, and every adjacent pair of the
first `count` records is in non-decreasing key order (indeed every pair is). -/
theorem radix_sort7_sorted (junk : Nat → render_item_t) (a : List render_item_t)
    (count : Nat) (s : Scratch) (h : count ≤ a.length) (hs : s.Valid) (hk : Keys64 a) :
    ∃ a1 s1, radix_sort7 junk a count s = some (a1, s1) ∧ a1.length = a.length ∧
      (∀ i, i + 1 < count → ∃ x y, a1[i]? = some x ∧ a1[i + 1]? = some y ∧
        x.sort_id ≤ y.sort_id) ∧
      (a1.take count).Pairwise (fun x y => x.sort_id ≤ y.sort_id) := by
  obtain ⟨s1, e, _, _⟩ := radix_sort7_spec junk a count s h hs
  have hsorted := lsd_sorted (a.take count) (fun r hr => hk r (List.mem_of_mem_take hr))
  have hlen := lsd_take_length a count h
  refine ⟨_, s1, e, result_length a count h, ?_, ?_⟩
  · intro i hi
    have h1 : i < (lsd_passes RADIX_LEVELS 0 (a.take count)).length := by omega
    have h2 : i + 1 < (lsd_passes RADIX_LEVELS 0 (a.take count)).length := by omega
    refine ⟨(lsd_passes RADIX_LEVELS 0 (a.take count))[i],
      (lsd_passes RADIX_LEVELS 0 (a.take count))[i + 1], ?_, ?_, ?_⟩
    · rw [List.getElem?_append_left h1, List.getElem?_eq_getElem h1]
    · rw [List.getElem?_append_left h2, List.getElem?_eq_getElem h2]
    · exact List.pairwise_iff_getElem.mp hsorted i (i + 1) h1 h2 (by omega)
  · rw [result_take a count h]
    exact hsorted

theorem radix_sort7_sorted_witness :
    (3 ≤ [(⟨5, 50⟩ : render_item_t), ⟨1, 10⟩, ⟨3, 30⟩, ⟨0, 7⟩].length ∧
      Scratch.initial.Valid ∧ Keys64 [⟨5, 50⟩, ⟨1, 10⟩, ⟨3, 30⟩, ⟨0, 7⟩]) ∧
    ∃ a1 s1, radix_sort7 (fun _ => ⟨9, 9⟩) [⟨5, 50⟩, ⟨1, 10⟩, ⟨3, 30⟩, ⟨0, 7⟩] 3
        Scratch.initial = some (a1, s1) ∧
      a1.length = [(⟨5, 50⟩ : render_item_t), ⟨1, 10⟩, ⟨3, 30⟩, ⟨0, 7⟩].length ∧
      (∀ i, i + 1 < 3 → ∃ x y, a1[i]? = some x ∧ a1[i + 1]? = some y ∧
        x.sort_id ≤ y.sort_id) ∧
      (a1.take 3).Pairwise (fun x y => x.sort_id ≤ y.sort_id) :=
  ⟨⟨by decide, by decide, by decide⟩,
    radix_sort7_sorted (fun _ => ⟨9, 9⟩) [⟨5, 50⟩, ⟨1, 10⟩, ⟨3, 30⟩, ⟨0, 7⟩] 3
      Scratch.initial (by decide) (by decide) (by decide)⟩

/-- Claim C2. For `count` within the block and consistent globals, `radix_sort7` returns
and the multiset of the first `count` records (whole records, payload included) is the
same after the call as before it. -/
theorem radix_sort7_perm (junk : Nat → render_item_t) (a : List render_item_t)
    (count : Nat) (s : Scratch) (h : count ≤ a.length) (hs : s.Valid) :
    ∃ a1 s1, radix_sort7 junk a count s = some (a1, s1) ∧
      Multiset.ofList (a1.take count) = Multiset.ofList (a.take count) := by
  obtain ⟨s1, e, _, _⟩ := radix_sort7_spec junk a count s h hs
  refine ⟨_, s1, e, ?_⟩
  rw [result_take a count h]
  exact Multiset.coe_eq_coe.mpr (lsd_passes_perm _ _ _)

set_option maxRecDepth 100000 in
theorem radix_sort7_perm_witness :
    (3 ≤ [(⟨5, 50⟩ : render_item_t), ⟨1, 10⟩, ⟨3, 30⟩].length ∧ Scratch.initial.Valid) ∧
    radix_sort7 (fun _ => ⟨9, 9⟩) [⟨5, 50⟩, ⟨1, 10⟩, ⟨3, 30⟩] 3 Scratch.initial
      = some ([⟨1, 10⟩, ⟨3, 30⟩, ⟨5, 50⟩], ⟨some [⟨1, 10⟩, ⟨3, 30⟩, ⟨5, 50⟩], 3⟩) ∧
    ∃ a1 s1, radix_sort7 (fun _ => ⟨9, 9⟩) [⟨5, 50⟩, ⟨1, 10⟩, ⟨3, 30⟩] 3 Scratch.initial
        = some (a1, s1) ∧
      Multiset.ofList (a1.take 3)
        = Multiset.ofList ([(⟨5, 50⟩ : render_item_t), ⟨1, 10⟩, ⟨3, 30⟩].take 3) :=
  ⟨⟨by decide, by decide⟩, by decide,
    radix_sort7_perm (fun _ => ⟨9, 9⟩) [⟨5, 50⟩, ⟨1, 10⟩, ⟨3, 30⟩] 3 Scratch.initial
      (by decide) (by decide)⟩

/-- Claim C3. `radix_sort7` is stable: for every key, the first `count` records of the
result restricted to that key are the first `count` records of the input restricted to
that key; and two records of equal key at input positions `i < j < count` occur in this
order in the result. -/
theorem radix_sort7_stable (junk : Nat → render_item_t) (a : List render_item_t)
    (count : Nat) (s : Scratch) (h : count ≤ a.length) (hs : s.Valid) :
    ∃ a1 s1, radix_sort7 junk a count s = some (a1, s1) ∧
      (∀ k, (a1.take count).filter (fun r => r.sort_id = k)
        = (a.take count).filter (fun r => r.sort_id = k)) ∧
      (∀ i j x y, i < j → j < count → a[i]? = some x → a[j]? = some y →
        x.sort_id = y.sort_id → [x, y].Sublist (a1.take count)) := by
  obtain ⟨s1, e, _, _⟩ := radix_sort7_spec junk a count s h hs
  refine ⟨_, s1, e, ?_, ?_⟩
  · intro k
    rw [result_take a count h]
    exact lsd_passes_filter_key k _ _ _
  · intro i j x y hij hj hx hy hxy
    rw [result_take a count h]
    have hsub : [x, y].Sublist (a.take count) := by
      apply pair_sublist _ i j x y hij
      · rw [List.getElem?_take, if_pos (by omega)]; exact hx
      · rw [List.getElem?_take, if_pos hj]; exact hy
    have hf := List.Sublist.filter (fun r => decide (r.sort_id = y.sort_id)) hsub
    rw [← lsd_passes_filter_key y.sort_id RADIX_LEVELS 0 (a.take count)] at hf
    have hxy2 : [x, y].filter (fun r => decide (r.sort_id = y.sort_id)) = [x, y] := by
      simp [List.filter_cons, hxy]
    rw [hxy2] at hf
    exact hf.trans (List.filter_sublist _)

theorem radix_sort7_stable_witness :
    (3 ≤ [(⟨5, 50⟩ : render_item_t), ⟨1, 10⟩, ⟨5, 30⟩].length ∧ Scratch.initial.Valid) ∧
    ∃ a1 s1, radix_sort7 (fun _ => ⟨9, 9⟩) [⟨5, 50⟩, ⟨1, 10⟩, ⟨5, 30⟩] 3 Scratch.initial
        = some (a1, s1) ∧
      (∀ k, (a1.take 3).filter (fun r => r.sort_id = k)
        = ([(⟨5, 50⟩ : render_item_t), ⟨1, 10⟩, ⟨5, 30⟩].take 3).filter
            (fun r => r.sort_id = k)) ∧
      (∀ i j x y, i < j → j < 3 →
        [(⟨5, 50⟩ : render_item_t), ⟨1, 10⟩, ⟨5, 30⟩][i]? = some x →
        [(⟨5, 50⟩ : render_item_t), ⟨1, 10⟩, ⟨5, 30⟩][j]? = some y →
        x.sort_id = y.sort_id → [x, y].Sublist (a1.take 3)) :=
  ⟨⟨by decide, by decide⟩,
    radix_sort7_stable (fun _ => ⟨9, 9⟩) [⟨5, 50⟩, ⟨1, 10⟩, ⟨5, 30⟩] 3 Scratch.initial
      (by decide) (by decide)⟩

/-- Claim C4. On a block of well-formed records whose first `count` keys are already in
non-decreasing order `radix_sort7` hands back the very same block; and for any block,
sorting the result of `radix_sort7` once more (with whatever globals the first call left)
hands back that result again. -/
theorem radix_sort7_idempotent (junk junk2 : Nat → render_item_t) (a : List render_item_t)
    (count : Nat) (s : Scratch) (h : count ≤ a.length) (hs : s.Valid) (hk : Keys64 a) :
    ((a.take count).Pairwise (fun x y => x.sort_id ≤ y.sort_id) →
      ∃ s1, radix_sort7 junk a count s = some (a, s1)) ∧
    ∃ a1 s1 s2, radix_sort7 junk a count s = some (a1, s1) ∧
      radix_sort7 junk2 a1 count s1 = some (a1, s2) := by
  have hkt : ∀ r ∈ a.take count, r.sort_id < 2 ^ 64 :=
    fun r hr => hk r (List.mem_of_mem_take hr)
  obtain ⟨s1, e, hv1, _⟩ := radix_sort7_spec junk a count s h hs
  constructor
  · intro hsorted
    refine ⟨s1, ?_⟩
    rw [e, lsd_sorted_id _ hkt hsorted, List.take_append_drop]
  · have hlen := result_length a count h
    obtain ⟨s2, e2, _, _⟩ := radix_sort7_spec junk2
      (lsd_passes RADIX_LEVELS 0 (a.take count) ++ a.drop count) count s1 (by omega) hv1
    refine ⟨_, s1, s2, e, ?_⟩
    rw [e2, result_take a count h, List.drop_left' (lsd_take_length a count h),
      lsd_sorted_id _ (fun r hr => hkt r ((lsd_passes_perm _ _ _).mem_iff.mp hr))
        (lsd_sorted _ hkt)]

theorem radix_sort7_idempotent_witness :
    (3 ≤ [(⟨1, 50⟩ : render_item_t), ⟨1, 10⟩, ⟨3, 30⟩, ⟨0, 7⟩].length ∧
      Scratch.initial.Valid ∧ Keys64 [⟨1, 50⟩, ⟨1, 10⟩, ⟨3, 30⟩, ⟨0, 7⟩] ∧
      ([(⟨1, 50⟩ : render_item_t), ⟨1, 10⟩, ⟨3, 30⟩, ⟨0, 7⟩].take 3).Pairwise
        (fun x y => x.sort_id ≤ y.sort_id)) ∧
    (∃ s1, radix_sort7 (fun _ => ⟨9, 9⟩) [⟨1, 50⟩, ⟨1, 10⟩, ⟨3, 30⟩, ⟨0, 7⟩] 3
      Scratch.initial = some ([⟨1, 50⟩, ⟨1, 10⟩, ⟨3, 30⟩, ⟨0, 7⟩], s1)) ∧
    ∃ a1 s1 s2, radix_sort7 (fun _ => ⟨9, 9⟩) [⟨1, 50⟩, ⟨1, 10⟩, ⟨3, 30⟩, ⟨0, 7⟩] 3
        Scratch.initial = some (a1, s1) ∧
      radix_sort7 (fun _ => ⟨8, 8⟩) a1 3 s1 = some (a1, s2) :=
  ⟨⟨by decide, by decide, by decide, by decide⟩,
    (radix_sort7_idempotent (fun _ => ⟨9, 9⟩) (fun _ => ⟨8, 8⟩)
      [⟨1, 50⟩, ⟨1, 10⟩, ⟨3, 30⟩, ⟨0, 7⟩] 3 Scratch.initial
      (by decide) (by decide) (by decide)).1 (by decide),
    (radix_sort7_idempotent (fun _ => ⟨9, 9⟩) (fun _ => ⟨8, 8⟩)
      [⟨1, 50⟩, ⟨1, 10⟩, ⟨3, 30⟩, ⟨0, 7⟩] 3 Scratch.initial
      (by decide) (by decide) (by decide)).2⟩

/-- Claim C5. The scratch block is not observable: from any two consistent states of the
globals (no block or a block of any capacity and contents) and whatever a fresh block
holds, `radix_sort7` on the same block and count hands back the same block; hence in a
sequence of calls sharing the globals every call hands back what it would hand back
starting from the initial globals. -/
theorem radix_sort7_scratch_independent (junk junk2 : Nat → render_item_t)
    (a : List render_item_t) (count : Nat) (s s2 : Scratch) (calls : List SortCall)
    (s0 : Scratch) (h : count ≤ a.length) (hs : s.Valid) (hs2 : s2.Valid)
    (hcalls : ∀ c ∈ calls, c.count ≤ c.a.length) (hs0 : s0.Valid) :
    (∃ a1 t1 t2, radix_sort7 junk a count s = some (a1, t1) ∧
      radix_sort7 junk2 a count s2 = some (a1, t2)) ∧
    ∃ outs t, radix_sort7_calls calls s0 = some (outs, t) ∧
      List.Forall₂ (fun c out =>
        ∃ t0, radix_sort7 c.junk c.a c.count Scratch.initial = some (out, t0)) calls outs := by
  constructor
  · obtain ⟨t1, e1, _, _⟩ := radix_sort7_spec junk a count s h hs
    obtain ⟨t2, e2, _, _⟩ := radix_sort7_spec junk2 a count s2 h hs2
    exact ⟨_, t1, t2, e1, e2⟩
  · obtain ⟨t, e, _, _⟩ := radix_sort7_calls_spec calls s0 hcalls hs0
    refine ⟨_, t, e, ?_⟩
    rw [List.forall₂_map_right_iff]
    apply List.forall₂_same.mpr
    intro c hc
    obtain ⟨t0, e0, _, _⟩ := radix_sort7_spec c.junk c.a c.count Scratch.initial
      (hcalls c hc) (by decide)
    exact ⟨t0, e0⟩

theorem radix_sort7_scratch_independent_witness :
    (3 ≤ [(⟨5, 50⟩ : render_item_t), ⟨1, 10⟩, ⟨3, 30⟩].length ∧
      Scratch.initial.Valid ∧
      Scratch.Valid ⟨some [⟨7, 7⟩, ⟨7, 7⟩, ⟨7, 7⟩, ⟨7, 7⟩], 4⟩ ∧
      (∀ c ∈ [(⟨fun _ => ⟨9, 9⟩, [⟨4, 0⟩, ⟨2, 1⟩, ⟨3, 2⟩], 3⟩ : SortCall),
          ⟨fun _ => ⟨8, 8⟩, [⟨6, 0⟩], 1⟩,
          ⟨fun _ => ⟨7, 7⟩, [⟨9, 0⟩, ⟨2, 1⟩, ⟨8, 2⟩, ⟨300, 3⟩, ⟨1, 4⟩], 5⟩],
        c.count ≤ c.a.length)) ∧
    (∃ a1 t1 t2,
      radix_sort7 (fun _ => ⟨9, 9⟩) [⟨5, 50⟩, ⟨1, 10⟩, ⟨3, 30⟩] 3 Scratch.initial
        = some (a1, t1) ∧
      radix_sort7 (fun _ => ⟨8, 8⟩) [⟨5, 50⟩, ⟨1, 10⟩, ⟨3, 30⟩] 3
        ⟨some [⟨7, 7⟩, ⟨7, 7⟩, ⟨7, 7⟩, ⟨7, 7⟩], 4⟩ = some (a1, t2)) ∧
    ∃ outs t, radix_sort7_calls
        [(⟨fun _ => ⟨9, 9⟩, [⟨4, 0⟩, ⟨2, 1⟩, ⟨3, 2⟩], 3⟩ : SortCall),
          ⟨fun _ => ⟨8, 8⟩, [⟨6, 0⟩], 1⟩,
          ⟨fun _ => ⟨7, 7⟩, [⟨9, 0⟩, ⟨2, 1⟩, ⟨8, 2⟩, ⟨300, 3⟩, ⟨1, 4⟩], 5⟩]
        Scratch.initial = some (outs, t) ∧
      List.Forall₂ (fun c out =>
        ∃ t0, radix_sort7 c.junk c.a c.count Scratch.initial = some (out, t0))
        [(⟨fun _ => ⟨9, 9⟩, [⟨4, 0⟩, ⟨2, 1⟩, ⟨3, 2⟩], 3⟩ : SortCall),
          ⟨fun _ => ⟨8, 8⟩, [⟨6, 0⟩], 1⟩,
          ⟨fun _ => ⟨7, 7⟩, [⟨9, 0⟩, ⟨2, 1⟩, ⟨8, 2⟩, ⟨300, 3⟩, ⟨1, 4⟩], 5⟩] outs :=
  ⟨⟨by decide, by decide, by decide, by decide⟩,
    radix_sort7_scratch_independent (fun _ => ⟨9, 9⟩) (fun _ => ⟨8, 8⟩)
      [⟨5, 50⟩, ⟨1, 10⟩, ⟨3, 30⟩] 3 Scratch.initial
      ⟨some [⟨7, 7⟩, ⟨7, 7⟩, ⟨7, 7⟩, ⟨7, 7⟩], 4⟩
      [(⟨fun _ => ⟨9, 9⟩, [⟨4, 0⟩, ⟨2, 1⟩, ⟨3, 2⟩], 3⟩ : SortCall),
        ⟨fun _ => ⟨8, 8⟩, [⟨6, 0⟩], 1⟩,
        ⟨fun _ => ⟨7, 7⟩, [⟨9, 0⟩, ⟨2, 1⟩, ⟨8, 2⟩, ⟨300, 3⟩, ⟨1, 4⟩], 5⟩]
      Scratch.initial (by decide) (by decide) (by decide) (by decide) (by decide)⟩

/-- Claim C6. With `count = 0`, from every state of the globals (the state without a
scratch block included) `radix_sort7` returns the caller's block and the globals exactly as
they were: nothing is allocated, every level is skipped so no partition pass runs, and the
final `from` pointer is the caller's block so no copy is made. -/
theorem radix_sort7_count_zero (junk : Nat → render_item_t) (a : List render_item_t)
    (s : Scratch) :
    radix_sort7 junk a 0 s = some (a, s) ∧
    radix_resize junk 0 s = s ∧
    count_frequency a 0 freqs_zero = some freqs_zero ∧
    radix_pass_loop RADIX_LEVELS 0 freqs_zero 0 .caller .scratch ⟨a, s.radix_queue_area⟩
      = some (⟨a, s.radix_queue_area⟩, .caller) := by
  have hre : radix_resize junk 0 s = s := by simp [radix_resize]
  have hloop := radix_pass_loop_trivial freqs_zero 0 .caller .scratch
    ⟨a, s.radix_queue_area⟩ RADIX_LEVELS 0 (fun l _ _ => is_trivial_freqs_zero l)
  refine ⟨?_, hre, rfl, hloop⟩
  unfold radix_sort7
  rw [hre]
  simp only [count_frequency, count_frequency_loop, hloop]
  rfl

/-- Claim C7. With `count = 1`, for every record: the histogram built by `count_frequency`
makes `is_trivial` answer `true` on each of the 8 levels, so the level loop leaves memory as
it is and ends with `from` the caller's block (no partition pass, no final copy), and
`radix_sort7` hands the block back unchanged. -/
theorem radix_sort7_count_one (junk : Nat → render_item_t) (r : render_item_t)
    (rest : List render_item_t) (s : Scratch) :
    ∃ F, count_frequency (r :: rest) 1 freqs_zero = some F ∧
      (∀ l, l < RADIX_LEVELS → is_trivial (F.getD l []) 1 = some true) ∧
      (∀ m, radix_pass_loop RADIX_LEVELS 0 F 1 .caller .scratch m = some (m, .caller)) ∧
      radix_sort7 junk (r :: rest) 1 s = some (r :: rest, radix_resize junk 1 s) := by
  obtain ⟨F, hF, _, hget⟩ := count_frequency_spec (r :: rest) 1 (by simp)
  have htriv : ∀ l, l < RADIX_LEVELS → is_trivial (F.getD l []) 1 = some true := by
    intro l hl
    obtain ⟨b, hb, hiff⟩ := is_trivial_of_counts (digit l) [r] (F.getD l [])
      (fun x _ => digit_lt l x) (fun v _ => by simpa using hget l hl v)
    have : b = true := hiff.mpr ⟨digit l r, by simp⟩
    subst this
    simpa using hb
  have hloop : ∀ m, radix_pass_loop RADIX_LEVELS 0 F 1 .caller .scratch m
      = some (m, .caller) :=
    fun m => radix_pass_loop_trivial F 1 .caller .scratch m RADIX_LEVELS 0
      (fun l _ hl => htriv l (by omega))
  refine ⟨F, hF, htriv, hloop, ?_⟩
  unfold radix_sort7
  simp only [hF, hloop]
  rfl

/-- Claim C8. A call with tracked capacity `c` and count `N` leaves the capacity at `N`
when `c < N` and at `c` otherwise, that is at `max c N`; over a sequence of calls the
capacity does not decrease, and after a sequence started from released or initial globals
it is the largest count passed. -/
theorem radix_sort7_capacity (junk : Nat → render_item_t) (a : List render_item_t)
    (count : Nat) (s : Scratch) (calls : List SortCall) (s0 : Scratch)
    (h : count ≤ a.length) (hs : s.Valid)
    (hcalls : ∀ c ∈ calls, c.count ≤ c.a.length) (hs0 : s0.Valid) :
    (∃ a1 s1, radix_sort7 junk a count s = some (a1, s1) ∧
      s1.radix_queue_size = (if s.radix_queue_size < count then count
        else s.radix_queue_size) ∧
      s1.radix_queue_size = max s.radix_queue_size count) ∧
    (∃ outs t, radix_sort7_calls calls s0 = some (outs, t) ∧
      s0.radix_queue_size ≤ t.radix_queue_size ∧
      t.radix_queue_size = max s0.radix_queue_size (max_count calls)) ∧
    (∃ outs t, radix_sort7_calls calls (radix_sort_clean s0) = some (outs, t) ∧
      t.radix_queue_size = max_count calls) ∧
    (∃ outs t, radix_sort7_calls calls Scratch.initial = some (outs, t) ∧
      t.radix_queue_size = max_count calls) := by
  refine ⟨?_, ?_, ?_, ?_⟩
  · obtain ⟨s1, e, _, hz⟩ := radix_sort7_spec junk a count s h hs
    refine ⟨_, s1, e, ?_, hz⟩
    rw [hz]
    by_cases hc : s.radix_queue_size < count
    · rw [if_pos hc]; omega
    · rw [if_neg hc]; omega
  · obtain ⟨t, e, _, hz⟩ := radix_sort7_calls_spec calls s0 hcalls hs0
    exact ⟨_, t, e, by omega, hz⟩
  · obtain ⟨t, e, _, hz⟩ := radix_sort7_calls_spec calls (radix_sort_clean s0) hcalls rfl
    refine ⟨_, t, e, ?_⟩
    rw [hz]
    simp [radix_sort_clean]
  · obtain ⟨t, e, _, hz⟩ := radix_sort7_calls_spec calls Scratch.initial hcalls rfl
    refine ⟨_, t, e, ?_⟩
    rw [hz]
    simp [Scratch.initial]

theorem radix_sort7_capacity_witness :
    (3 ≤ [(⟨5, 50⟩ : render_item_t), ⟨1, 10⟩, ⟨3, 30⟩].length ∧
      Scratch.Valid ⟨some [⟨7, 7⟩, ⟨7, 7⟩], 2⟩ ∧
      (∀ c ∈ [(⟨fun _ => ⟨9, 9⟩, [⟨4, 0⟩, ⟨2, 1⟩, ⟨3, 2⟩], 3⟩ : SortCall),
          ⟨fun _ => ⟨8, 8⟩, [⟨6, 0⟩], 1⟩,
          ⟨fun _ => ⟨7, 7⟩, [⟨9, 0⟩, ⟨2, 1⟩, ⟨8, 2⟩, ⟨300, 3⟩, ⟨1, 4⟩], 5⟩],
        c.count ≤ c.a.length) ∧
      Scratch.Valid ⟨some [⟨7, 7⟩, ⟨7, 7⟩, ⟨7, 7⟩, ⟨7, 7⟩], 4⟩) ∧
    (∃ a1 s1, radix_sort7 (fun _ => ⟨9, 9⟩) [⟨5, 50⟩, ⟨1, 10⟩, ⟨3, 30⟩] 3
        ⟨some [⟨7, 7⟩, ⟨7, 7⟩], 2⟩ = some (a1, s1) ∧
      s1.radix_queue_size = (if (2 : Nat) < 3 then 3 else 2) ∧
      s1.radix_queue_size = max 2 3) ∧
    (∃ outs t, radix_sort7_calls
        [(⟨fun _ => ⟨9, 9⟩, [⟨4, 0⟩, ⟨2, 1⟩, ⟨3, 2⟩], 3⟩ : SortCall),
          ⟨fun _ => ⟨8, 8⟩, [⟨6, 0⟩], 1⟩,
          ⟨fun _ => ⟨7, 7⟩, [⟨9, 0⟩, ⟨2, 1⟩, ⟨8, 2⟩, ⟨300, 3⟩, ⟨1, 4⟩], 5⟩]
        ⟨some [⟨7, 7⟩, ⟨7, 7⟩, ⟨7, 7⟩, ⟨7, 7⟩], 4⟩ = some (outs, t) ∧
      4 ≤ t.radix_queue_size ∧
      t.radix_queue_size = max 4 (max_count
        [(⟨fun _ => ⟨9, 9⟩, [⟨4, 0⟩, ⟨2, 1⟩, ⟨3, 2⟩], 3⟩ : SortCall),
          ⟨fun _ => ⟨8, 8⟩, [⟨6, 0⟩], 1⟩,
          ⟨fun _ => ⟨7, 7⟩, [⟨9, 0⟩, ⟨2, 1⟩, ⟨8, 2⟩, ⟨300, 3⟩, ⟨1, 4⟩], 5⟩])) ∧
    (∃ outs t, radix_sort7_calls
        [(⟨fun _ => ⟨9, 9⟩, [⟨4, 0⟩, ⟨2, 1⟩, ⟨3, 2⟩], 3⟩ : SortCall),
          ⟨fun _ => ⟨8, 8⟩, [⟨6, 0⟩], 1⟩,
          ⟨fun _ => ⟨7, 7⟩, [⟨9, 0⟩, ⟨2, 1⟩, ⟨8, 2⟩, ⟨300, 3⟩, ⟨1, 4⟩], 5⟩]
        (radix_sort_clean ⟨some [⟨7, 7⟩, ⟨7, 7⟩, ⟨7, 7⟩, ⟨7, 7⟩], 4⟩) = some (outs, t) ∧
      t.radix_queue_size = max_count
        [(⟨fun _ => ⟨9, 9⟩, [⟨4, 0⟩, ⟨2, 1⟩, ⟨3, 2⟩], 3⟩ : SortCall),
          ⟨fun _ => ⟨8, 8⟩, [⟨6, 0⟩], 1⟩,
          ⟨fun _ => ⟨7, 7⟩, [⟨9, 0⟩, ⟨2, 1⟩, ⟨8, 2⟩, ⟨300, 3⟩, ⟨1, 4⟩], 5⟩]) ∧
    (∃ outs t, radix_sort7_calls
        [(⟨fun _ => ⟨9, 9⟩, [⟨4, 0⟩, ⟨2, 1⟩, ⟨3, 2⟩], 3⟩ : SortCall),
          ⟨fun _ => ⟨8, 8⟩, [⟨6, 0⟩], 1⟩,
          ⟨fun _ => ⟨7, 7⟩, [⟨9, 0⟩, ⟨2, 1⟩, ⟨8, 2⟩, ⟨300, 3⟩, ⟨1, 4⟩], 5⟩]
        Scratch.initial = some (outs, t) ∧
      t.radix_queue_size = max_count
        [(⟨fun _ => ⟨9, 9⟩, [⟨4, 0⟩, ⟨2, 1⟩, ⟨3, 2⟩], 3⟩ : SortCall),
          ⟨fun _ => ⟨8, 8⟩, [⟨6, 0⟩], 1⟩,
          ⟨fun _ => ⟨7, 7⟩, [⟨9, 0⟩, ⟨2, 1⟩, ⟨8, 2⟩, ⟨300, 3⟩, ⟨1, 4⟩], 5⟩]) :=
  ⟨⟨by decide, by decide, by decide, by decide⟩,
    radix_sort7_capacity (fun _ => ⟨9, 9⟩) [⟨5, 50⟩, ⟨1, 10⟩, ⟨3, 30⟩] 3
      ⟨some [⟨7, 7⟩, ⟨7, 7⟩], 2⟩
      [(⟨fun _ => ⟨9, 9⟩, [⟨4, 0⟩, ⟨2, 1⟩, ⟨3, 2⟩], 3⟩ : SortCall),
        ⟨fun _ => ⟨8, 8⟩, [⟨6, 0⟩], 1⟩,
        ⟨fun _ => ⟨7, 7⟩, [⟨9, 0⟩, ⟨2, 1⟩, ⟨8, 2⟩, ⟨300, 3⟩, ⟨1, 4⟩], 5⟩]
      ⟨some [⟨7, 7⟩, ⟨7, 7⟩, ⟨7, 7⟩, ⟨7, 7⟩], 4⟩
      (by decide) (by decide) (by decide) (by decide)⟩

/-- Claim C9. From every state of the globals `radix_sort_clean` yields the state without a
block and with capacity 0; it is total, so calling it on a state without a block succeeds;
and calling it twice gives the same state as calling it once. -/
theorem radix_sort_clean_idempotent (s : Scratch) :
    radix_sort_clean s = ⟨none, 0⟩ ∧
    radix_sort_clean ⟨none, 0⟩ = ⟨none, 0⟩ ∧
    radix_sort_clean (radix_sort_clean s) = radix_sort_clean s ∧
    (radix_sort_clean s).Valid :=
  ⟨rfl, rfl, rfl, rfl⟩

/-- Claim C10. For a histogram of 256 counters that sum to `count`, `is_trivial` returns
(its assertion holds) and answers `true` exactly when at most one digit value has a
non-zero counter; on the all-zero histogram with `count = 0` it answers `true`. -/
theorem is_trivial_iff (freqs : List Nat) (count : Nat) (hlen : freqs.length = RADIX_SIZE)
    (hsum : freqs.sum = count) :
    (∃ b, is_trivial freqs count = some b ∧
      (b = true ↔ ∀ i j, freqs.getD i 0 ≠ 0 → freqs.getD j 0 ≠ 0 → i = j)) ∧
    is_trivial (List.replicate RADIX_SIZE 0) 0 = some true := by
  constructor
  · by_cases hex : ∃ v, v < RADIX_SIZE ∧ freqs.getD v 0 ≠ 0
    · classical
      have hmin := fun u (hu : u < Nat.find hex) => Nat.find_min hex hu
      obtain ⟨hv1, hv2⟩ := Nat.find_spec hex
      have hkey := getD_eq_sum_iff freqs (Nat.find hex) (by omega)
      rw [hsum] at hkey
      refine ⟨freqs.getD (Nat.find hex) 0 == count, ?_, ?_, ?_⟩
      · unfold is_trivial
        apply is_trivial_loop_first freqs count RADIX_SIZE 0 (Nat.find hex) (Nat.zero_le _)
          (by omega) _ hv2
        intro u _ hu
        by_contra hne
        exact hmin u hu ⟨by omega, hne⟩
      · intro hb i j hi hj
        have hz := hkey.mp (beq_iff_eq.mp hb)
        have e1 : i = Nat.find hex := by
          by_contra hne
          exact hi (hz i hne)
        have e2 : j = Nat.find hex := by
          by_contra hne
          exact hj (hz j hne)
        rw [e1, e2]
      · intro hone
        apply beq_iff_eq.mpr
        apply hkey.mpr
        intro j hj
        by_contra hne
        exact hj (hone j (Nat.find hex) hne hv2)
    · have hz : ∀ v, freqs.getD v 0 = 0 := by
        intro v
        by_cases hv : v < RADIX_SIZE
        · by_contra hne
          exact hex ⟨v, hv, hne⟩
        · rw [List.getD_eq_getElem?_getD, List.getElem?_eq_none (by omega)]
          rfl
      have hc : count = 0 := by rw [← hsum]; exact sum_eq_zero_of_getD freqs hz
      refine ⟨true, ?_, fun _ => ?_, fun _ => rfl⟩
      · unfold is_trivial
        rw [is_trivial_loop_zero freqs count RADIX_SIZE 0 (fun v _ _ => hz v), if_pos hc]
      · intro i j hi _
        exact absurd (hz i) hi
  · exact is_trivial_replicate_zero

set_option maxRecDepth 100000 in
theorem is_trivial_iff_witness :
    ((List.replicate 7 0 ++ [3] ++ List.replicate 248 0).length = RADIX_SIZE ∧
      (List.replicate 7 0 ++ [3] ++ List.replicate 248 0).sum = 3) ∧
    is_trivial (List.replicate 7 0 ++ [3] ++ List.replicate 248 0) 3 = some true ∧
    is_trivial (List.replicate 7 0 ++ [2, 1] ++ List.replicate 247 0) 3 = some false ∧
    ((∃ b, is_trivial (List.replicate 7 0 ++ [3] ++ List.replicate 248 0) 3 = some b ∧
      (b = true ↔ ∀ i j,
        (List.replicate 7 0 ++ [3] ++ List.replicate 248 0).getD i 0 ≠ 0 →
        (List.replicate 7 0 ++ [3] ++ List.replicate 248 0).getD j 0 ≠ 0 → i = j)) ∧
    is_trivial (List.replicate RADIX_SIZE 0) 0 = some true) :=
  ⟨⟨by decide, by decide⟩, by decide, by decide,
    is_trivial_iff (List.replicate 7 0 ++ [3] ++ List.replicate 248 0) 3
      (by decide) (by decide)⟩

/-- Claim C11. Starting from 8 all-zero histograms, for `count` within the block
`count_frequency` returns a table of 8 rows of 256 counters in which entry `[l][d]` is the
number of indices `i < count` whose key has value `d` in bits `8l .. 8l+7` (equally, the
number of such records among the first `count`); every row sums to `count`. -/
theorem count_frequency_counts (a : List render_item_t) (count : Nat)
    (h : count ≤ a.length) :
    ∃ F, count_frequency a count freqs_zero = some F ∧ F.length = RADIX_LEVELS ∧
      ∀ l, l < RADIX_LEVELS →
        (F.getD l []).length = RADIX_SIZE ∧
        (∀ d, d < RADIX_SIZE → (F.getD l []).getD d 0
          = ((List.range count).filter
              (fun i => (a.getD i ⟨0, 0⟩).sort_id / 2 ^ (8 * l) % 2 ^ 8 = d)).length) ∧
        (∀ d, d < RADIX_SIZE → (F.getD l []).getD d 0
          = (a.take count).countP (fun r => r.sort_id / 2 ^ (8 * l) % 2 ^ 8 = d)) ∧
        (F.getD l []).sum = count := by
  obtain ⟨F, hF, hshape, hget⟩ := count_frequency_spec a count h
  refine ⟨F, hF, hshape.1, ?_⟩
  intro l hl
  have hdig : ∀ r : render_item_t, digit l r = r.sort_id / 2 ^ (8 * l) % 2 ^ 8 := by
    intro r
    rw [digit_eq, pow_mul]
    norm_num
  have hcount : ∀ d, (F.getD l []).getD d 0
      = (a.take count).countP (fun r => r.sort_id / 2 ^ (8 * l) % 2 ^ 8 = d) := by
    intro d
    rw [hget l hl d, List.countP_eq_length_filter]
    unfold digit_count
    congr 1
    apply List.filter_congr
    intro r _
    rw [hdig r]
  refine ⟨hshape.2 l hl, ?_, fun d _ => hcount d, ?_⟩
  · intro d _
    rw [hcount d, List.countP_eq_length_filter, take_eq_map_range a count h ⟨0, 0⟩,
      List.filter_map, List.length_map]
    rfl
  · have := row_sum_eq_length (digit l) (a.take count) (F.getD l [])
      (fun x _ => digit_lt l x) (hshape.2 l hl) (fun v _ => hget l hl v)
    rw [this, List.length_take]
    omega

set_option maxRecDepth 100000 in
theorem count_frequency_counts_witness :
    3 ≤ [(⟨0x0105, 50⟩ : render_item_t), ⟨0x0205, 10⟩, ⟨0x0103, 30⟩, ⟨7, 7⟩].length ∧
    (∃ F, count_frequency [⟨0x0105, 50⟩, ⟨0x0205, 10⟩, ⟨0x0103, 30⟩, ⟨7, 7⟩] 3 freqs_zero
        = some F ∧
      (F.getD 0 []).getD 5 0 = 2 ∧ (F.getD 0 []).getD 3 0 = 1 ∧
      (F.getD 1 []).getD 1 0 = 2 ∧ (F.getD 1 []).getD 2 0 = 1 ∧
      (F.getD 2 []).getD 0 0 = 3) ∧
    ∃ F, count_frequency [⟨0x0105, 50⟩, ⟨0x0205, 10⟩, ⟨0x0103, 30⟩, ⟨7, 7⟩] 3 freqs_zero
        = some F ∧ F.length = RADIX_LEVELS ∧
      ∀ l, l < RADIX_LEVELS →
        (F.getD l []).length = RADIX_SIZE ∧
        (∀ d, d < RADIX_SIZE → (F.getD l []).getD d 0
          = ((List.range 3).filter
              (fun i => (([(⟨0x0105, 50⟩ : render_item_t), ⟨0x0205, 10⟩, ⟨0x0103, 30⟩,
                ⟨7, 7⟩]).getD i ⟨0, 0⟩).sort_id / 2 ^ (8 * l) % 2 ^ 8 = d)).length) ∧
        (∀ d, d < RADIX_SIZE → (F.getD l []).getD d 0
          = (([(⟨0x0105, 50⟩ : render_item_t), ⟨0x0205, 10⟩, ⟨0x0103, 30⟩,
                ⟨7, 7⟩]).take 3).countP (fun r => r.sort_id / 2 ^ (8 * l) % 2 ^ 8 = d)) ∧
        (F.getD l []).sum = 3 :=
  ⟨by decide, ⟨_, rfl, by decide, by decide, by decide, by decide, by decide⟩,
    count_frequency_counts [⟨0x0105, 50⟩, ⟨0x0205, 10⟩, ⟨0x0103, 30⟩, ⟨7, 7⟩] 3
      (by decide)⟩

/-- Claim C12. Skipping trivial levels is a pure optimisation: `radix_sort7` and the variant
that partitions on all 8 levels hand back the same block; and a partition pass on a level
where the first `count` source records share one digit writes them, in their order, to the
first `count` cells of the destination and leaves source and the rest of the destination as
they were. -/
theorem radix_sort7_skip_is_optimisation (junk : Nat → render_item_t)
    (a : List render_item_t) (count : Nat) (s : Scratch)
    (h : count ≤ a.length) (hs : s.Valid) :
    (∃ a1 s1 s2, radix_sort7 junk a count s = some (a1, s1) ∧
      radix_sort7_noskip junk a count s = some (a1, s2)) ∧
    ∀ (pass v : Nat) (src dst : BufferRole) (m : Memory) (S D : List render_item_t)
      (row : List Nat), src ≠ dst → m.buf src = some S → m.buf dst = some D →
      count ≤ S.length → count ≤ D.length →
      (∀ d, d < RADIX_SIZE → row.getD d 0 = digit_count (digit pass) (S.take count) d) →
      (∀ x ∈ S.take count, digit pass x = v) →
      ∃ m1, partition_loop count 0 (pass * RADIX_BITS) src dst (queue_ptrs_init row) m
          = some m1 ∧
        m1.buf src = some S ∧ m1.buf dst = some (S.take count ++ D.drop count) := by
  constructor
  · obtain ⟨s1, e1, _, _⟩ := radix_sort7_spec junk a count s h hs
    obtain ⟨s2, e2⟩ := radix_sort7_noskip_spec junk a count s h hs
    exact ⟨_, s1, s2, e1, e2⟩
  · intro pass v src dst m S D row hne hS hD hcS hcD hrow hconst
    obtain ⟨m1, e, h1, h2⟩ := partition_pass pass count src dst hne S D m row hS hD hcS hcD
      hrow
    rw [stable_pass_const pass v _ hconst] at h2
    exact ⟨m1, e, h1, h2⟩

set_option maxRecDepth 100000 in
theorem radix_sort7_skip_is_optimisation_witness :
    (3 ≤ [(⟨0x0105, 50⟩ : render_item_t), ⟨0x0201, 10⟩, ⟨0x0103, 30⟩, ⟨7, 7⟩].length ∧
      Scratch.initial.Valid) ∧
    radix_sort7_noskip (fun _ => ⟨9, 9⟩)
        [⟨0x0105, 50⟩, ⟨0x0201, 10⟩, ⟨0x0103, 30⟩, ⟨7, 7⟩] 3 Scratch.initial
      = some ([⟨0x0103, 30⟩, ⟨0x0105, 50⟩, ⟨0x0201, 10⟩, ⟨7, 7⟩],
          ⟨some [⟨0x0103, 30⟩, ⟨0x0105, 50⟩, ⟨0x0201, 10⟩], 3⟩) ∧
    (∃ a1 s1 s2, radix_sort7 (fun _ => ⟨9, 9⟩)
        [⟨0x0105, 50⟩, ⟨0x0201, 10⟩, ⟨0x0103, 30⟩, ⟨7, 7⟩] 3 Scratch.initial = some (a1, s1) ∧
      radix_sort7_noskip (fun _ => ⟨9, 9⟩)
        [⟨0x0105, 50⟩, ⟨0x0201, 10⟩, ⟨0x0103, 30⟩, ⟨7, 7⟩] 3 Scratch.initial
          = some (a1, s2)) ∧
    ∃ m1, partition_loop 3 0 (2 * RADIX_BITS) .caller .scratch
        (queue_ptrs_init ([3] ++ List.replicate 255 0))
        ⟨[⟨0x0105, 50⟩, ⟨0x0201, 10⟩, ⟨0x0103, 30⟩, ⟨7, 7⟩], some [⟨9, 9⟩, ⟨9, 9⟩, ⟨9, 9⟩]⟩
          = some m1 ∧
      m1.buf .caller = some [⟨0x0105, 50⟩, ⟨0x0201, 10⟩, ⟨0x0103, 30⟩, ⟨7, 7⟩] ∧
      m1.buf .scratch
        = some ([(⟨0x0105, 50⟩ : render_item_t), ⟨0x0201, 10⟩, ⟨0x0103, 30⟩, ⟨7, 7⟩].take 3
            ++ [(⟨9, 9⟩ : render_item_t), ⟨9, 9⟩, ⟨9, 9⟩].drop 3) :=
  ⟨⟨by decide, by decide⟩, by decide,
    (radix_sort7_skip_is_optimisation (fun _ => ⟨9, 9⟩)
      [⟨0x0105, 50⟩, ⟨0x0201, 10⟩, ⟨0x0103, 30⟩, ⟨7, 7⟩] 3 Scratch.initial
      (by decide) (by decide)).1,
    (radix_sort7_skip_is_optimisation (fun _ => ⟨9, 9⟩)
      [⟨0x0105, 50⟩, ⟨0x0201, 10⟩, ⟨0x0103, 30⟩, ⟨7, 7⟩] 3 Scratch.initial
      (by decide) (by decide)).2 2 0 .caller .scratch
      ⟨[⟨0x0105, 50⟩, ⟨0x0201, 10⟩, ⟨0x0103, 30⟩, ⟨7, 7⟩], some [⟨9, 9⟩, ⟨9, 9⟩, ⟨9, 9⟩]⟩
      [⟨0x0105, 50⟩, ⟨0x0201, 10⟩, ⟨0x0103, 30⟩, ⟨7, 7⟩] [⟨9, 9⟩, ⟨9, 9⟩, ⟨9, 9⟩]
      ([3] ++ List.replicate 255 0) (by decide) rfl rfl (by decide) (by decide)
      (by decide) (by decide)⟩

/-- Claim C13. When the first `count` records agree on the digit of each of the levels
1..7, `is_trivial` answers `true` on each of these levels, so the level loop from level 1
on changes nothing and only the level-0 partition can run; the block handed back starts
with the level-0 distribution of the input, and for well-formed records this is sorted by
the whole key. -/
theorem radix_sort7_shared_high_digits (junk : Nat → render_item_t)
    (a : List render_item_t) (count : Nat) (s : Scratch)
    (h : count ≤ a.length) (hs : s.Valid) (hk : Keys64 a)
    (hshare : ∀ l, l < RADIX_LEVELS → 1 ≤ l →
      ∀ x ∈ a.take count, ∀ y ∈ a.take count, digit l x = digit l y) :
    ∃ F, count_frequency a count freqs_zero = some F ∧
      (∀ l, l < RADIX_LEVELS → 1 ≤ l → is_trivial (F.getD l []) count = some true) ∧
      (∀ m src dst, radix_pass_loop (RADIX_LEVELS - 1) 1 F count src dst m = some (m, src)) ∧
      ∃ a1 s1, radix_sort7 junk a count s = some (a1, s1) ∧
        a1.take count = stable_pass 0 (a.take count) ∧
        (a1.take count).Pairwise (fun x y => x.sort_id ≤ y.sort_id) := by
  obtain ⟨F, hF, _, hget⟩ := count_frequency_spec a count h
  have htriv : ∀ l, l < RADIX_LEVELS → 1 ≤ l → is_trivial (F.getD l []) count = some true :=
    fun l hl h1 => is_trivial_of_shared a count l F h hl hget
      (shared_digit (digit l) _ (hshare l hl h1))
  obtain ⟨s1, e, _, _⟩ := radix_sort7_spec junk a count s h hs
  have hsorted := lsd_sorted (a.take count) (fun r hr => hk r (List.mem_of_mem_take hr))
  have hone : lsd_passes RADIX_LEVELS 0 (a.take count) = stable_pass 0 (a.take count) := by
    show lsd_passes (RADIX_LEVELS - 1) 1 (stable_pass 0 (a.take count)) = _
    apply lsd_passes_const
    intro l h1 h2
    obtain ⟨v, hv⟩ := shared_digit (digit l) _ (hshare l (by omega) h1)
    exact ⟨v, fun x hx => hv x ((stable_pass_perm 0 _).mem_iff.mp hx)⟩
  refine ⟨F, hF, htriv, ?_, _, s1, e, ?_, ?_⟩
  · intro m src dst
    exact radix_pass_loop_trivial F count src dst m (RADIX_LEVELS - 1) 1
      (fun l h1 h2 => htriv l (by omega) h1)
  · rw [result_take a count h, hone]
  · rw [result_take a count h]
    exact hsorted

set_option maxRecDepth 100000 in
theorem radix_sort7_shared_high_digits_witness :
    (2 ≤ [(⟨0xFF00000000000001, 1⟩ : render_item_t), ⟨0xFF00000000000000, 2⟩].length ∧
      Scratch.initial.Valid ∧
      Keys64 [⟨0xFF00000000000001, 1⟩, ⟨0xFF00000000000000, 2⟩] ∧
      (∀ l, l < RADIX_LEVELS → 1 ≤ l →
        ∀ x ∈ [(⟨0xFF00000000000001, 1⟩ : render_item_t), ⟨0xFF00000000000000, 2⟩].take 2,
        ∀ y ∈ [(⟨0xFF00000000000001, 1⟩ : render_item_t), ⟨0xFF00000000000000, 2⟩].take 2,
          digit l x = digit l y)) ∧
    radix_sort7 (fun _ => ⟨9, 9⟩) [⟨0xFF00000000000001, 1⟩, ⟨0xFF00000000000000, 2⟩] 2
        Scratch.initial
      = some ([⟨0xFF00000000000000, 2⟩, ⟨0xFF00000000000001, 1⟩],
          ⟨some [⟨0xFF00000000000000, 2⟩, ⟨0xFF00000000000001, 1⟩], 2⟩) ∧
    ∃ F, count_frequency [⟨0xFF00000000000001, 1⟩, ⟨0xFF00000000000000, 2⟩] 2 freqs_zero
        = some F ∧
      (∀ l, l < RADIX_LEVELS → 1 ≤ l → is_trivial (F.getD l []) 2 = some true) ∧
      (∀ m src dst, radix_pass_loop (RADIX_LEVELS - 1) 1 F 2 src dst m = some (m, src)) ∧
      ∃ a1 s1, radix_sort7 (fun _ => ⟨9, 9⟩)
          [⟨0xFF00000000000001, 1⟩, ⟨0xFF00000000000000, 2⟩] 2 Scratch.initial
            = some (a1, s1) ∧
        a1.take 2 = stable_pass 0
          ([(⟨0xFF00000000000001, 1⟩ : render_item_t), ⟨0xFF00000000000000, 2⟩].take 2) ∧
        (a1.take 2).Pairwise (fun x y => x.sort_id ≤ y.sort_id) :=
  ⟨⟨by decide, by decide, by decide, by decide⟩, by decide,
    radix_sort7_shared_high_digits (fun _ => ⟨9, 9⟩)
      [⟨0xFF00000000000001, 1⟩, ⟨0xFF00000000000000, 2⟩] 2 Scratch.initial
      (by decide) (by decide) (by decide) (by decide)⟩

/-- Claim C14. The permutation applied by `radix_sort7` depends on the keys only: for two
blocks whose first `count` keys agree position by position, whatever their payloads, there
is one permutation `σ` of the positions `0 .. count-1` such that in both runs the record at
result position `p` is the input record of position `σ[p]`. -/
theorem radix_sort7_payload_agnostic (junk junk2 : Nat → render_item_t)
    (a b : List render_item_t) (count : Nat) (s s2 : Scratch)
    (ha : count ≤ a.length) (hb : count ≤ b.length) (hs : s.Valid) (hs2 : s2.Valid)
    (hkeys : (a.take count).map (fun r => r.sort_id)
      = (b.take count).map (fun r => r.sort_id)) :
    ∃ σ : List Nat, σ.Perm (List.range count) ∧
      ∃ a1 s1 b1 t1, radix_sort7 junk a count s = some (a1, s1) ∧
        radix_sort7 junk2 b count s2 = some (b1, t1) ∧
        ∀ p, p < count →
          ∃ i, σ[p]? = some i ∧ i < count ∧ a1[p]? = a[i]? ∧ b1[p]? = b[i]? := by
  obtain ⟨s1, e1, _, _⟩ := radix_sort7_spec junk a count s ha hs
  obtain ⟨t1, e2, _, _⟩ := radix_sort7_spec junk2 b count s2 hb hs2
  refine ⟨(lsd_passes RADIX_LEVELS 0 (tag_positions a count)).map (fun r => r.payload),
    ?_, _, s1, _, t1, e1, e2, ?_⟩
  · rw [← tag_positions_payload a count]
    exact (lsd_passes_perm _ _ _).map _
  · intro p hp
    obtain ⟨r, hr, hlt, hra⟩ := result_from_positions a count ha p hp
    obtain ⟨r2, hr2, _, hrb⟩ := result_from_positions b count hb p hp
    rw [← tag_positions_congr a b count ha hb hkeys, hr] at hr2
    cases hr2
    exact ⟨r.payload, by rw [List.getElem?_map, hr]; rfl, hlt, hra, hrb⟩

theorem radix_sort7_payload_agnostic_witness :
    (3 ≤ [(⟨5, 50⟩ : render_item_t), ⟨1, 10⟩, ⟨5, 30⟩, ⟨2, 0⟩].length ∧
      3 ≤ [(⟨5, 0⟩ : render_item_t), ⟨1, 77⟩, ⟨5, 0⟩].length ∧
      Scratch.initial.Valid ∧ Scratch.Valid ⟨some [⟨7, 7⟩, ⟨7, 7⟩, ⟨7, 7⟩, ⟨7, 7⟩], 4⟩ ∧
      ([(⟨5, 50⟩ : render_item_t), ⟨1, 10⟩, ⟨5, 30⟩, ⟨2, 0⟩].take 3).map (fun r => r.sort_id)
        = ([(⟨5, 0⟩ : render_item_t), ⟨1, 77⟩, ⟨5, 0⟩].take 3).map (fun r => r.sort_id)) ∧
    ∃ σ : List Nat, σ.Perm (List.range 3) ∧
      ∃ a1 s1 b1 t1,
        radix_sort7 (fun _ => ⟨9, 9⟩) [⟨5, 50⟩, ⟨1, 10⟩, ⟨5, 30⟩, ⟨2, 0⟩] 3 Scratch.initial
          = some (a1, s1) ∧
        radix_sort7 (fun _ => ⟨8, 8⟩) [⟨5, 0⟩, ⟨1, 77⟩, ⟨5, 0⟩] 3
          ⟨some [⟨7, 7⟩, ⟨7, 7⟩, ⟨7, 7⟩, ⟨7, 7⟩], 4⟩ = some (b1, t1) ∧
        ∀ p, p < 3 →
          ∃ i, σ[p]? = some i ∧ i < 3 ∧
            a1[p]? = [(⟨5, 50⟩ : render_item_t), ⟨1, 10⟩, ⟨5, 30⟩, ⟨2, 0⟩][i]? ∧
            b1[p]? = [(⟨5, 0⟩ : render_item_t), ⟨1, 77⟩, ⟨5, 0⟩][i]? :=
  ⟨⟨by decide, by decide, by decide, by decide, by decide⟩,
    radix_sort7_payload_agnostic (fun _ => ⟨9, 9⟩) (fun _ => ⟨8, 8⟩)
      [⟨5, 50⟩, ⟨1, 10⟩, ⟨5, 30⟩, ⟨2, 0⟩] [⟨5, 0⟩, ⟨1, 77⟩, ⟨5, 0⟩] 3 Scratch.initial
      ⟨some [⟨7, 7⟩, ⟨7, 7⟩, ⟨7, 7⟩, ⟨7, 7⟩], 4⟩
      (by decide) (by decide) (by decide) (by decide) (by decide)⟩

/-- Claim C15. One partition pass is a stable bucket distribution: when `row` is the
level-`pass` histogram of the first `count` source records, the pass returns, the source is
untouched, and the destination's first `count` cells hold, for each digit `d` in ascending
order, the source records of digit `d` in source order; the records of digit `d` fill the
run starting at `offset[d]`, the sum of `row[e]` over `e < d`, of length `row[d]`. The
destination keeps its length and its cells from `count` on. -/
theorem partition_pass_stable_distribution (pass count : Nat) (src dst : BufferRole)
    (m : Memory) (S D : List render_item_t) (row : List Nat)
    (hne : src ≠ dst) (hS : m.buf src = some S) (hD : m.buf dst = some D)
    (hcS : count ≤ S.length) (hcD : count ≤ D.length)
    (hrow : ∀ d, d < RADIX_SIZE → row.getD d 0 = digit_count (digit pass) (S.take count) d) :
    ∃ m1 D1, partition_loop count 0 (pass * RADIX_BITS) src dst (queue_ptrs_init row) m
        = some m1 ∧
      m1.buf src = some S ∧ m1.buf dst = some D1 ∧
      D1.length = D.length ∧ D1.drop count = D.drop count ∧
      D1.take count = (List.range RADIX_SIZE).flatMap
        (fun d => (S.take count).filter (fun x => digit pass x = d)) ∧
      (∀ d, d < RADIX_SIZE →
        (queue_ptrs_init row).getD d 0 = ((List.range d).map (fun e => row.getD e 0)).sum) ∧
      ∀ d j, d < RADIX_SIZE → j < row.getD d 0 →
        D1[((List.range d).map (fun e => row.getD e 0)).sum + j]?
          = ((S.take count).filter (fun x => digit pass x = d))[j]? := by
  obtain ⟨m1, e, h1, h2⟩ := partition_pass pass count src dst hne S D m row hS hD hcS hcD hrow
  have hlen : (S.take count).length = count := by rw [List.length_take]; omega
  have hslen : (stable_pass pass (S.take count)).length = count := by
    rw [stable_pass_length, hlen]
  have hdig : ∀ x ∈ S.take count, digit pass x < RADIX_SIZE := fun x _ => digit_lt pass x
  have htot := offset_digit_count (digit pass) (S.take count) RADIX_SIZE hdig
  refine ⟨m1, _, e, h1, h2, ?_, List.drop_left' hslen, ?_, ?_, ?_⟩
  · rw [List.length_append, hslen, List.length_drop]; omega
  · rw [List.take_left' hslen]
    exact bucketsUpTo_eq_flatMap _ _ _
  · intro d hd
    rw [queue_ptrs_init_getD row d hd, offset_eq_sum]
  · intro d j hd hj
    rw [← offset_eq_sum, offset_congr _ (digit_count (digit pass) (S.take count)) d
      (fun u hu => hrow u (by omega))]
    rw [hrow d hd] at hj
    have hle := offset_succ_le (digit_count (digit pass) (S.take count)) d RADIX_SIZE hd
    rw [List.getElem?_append_left (by rw [hslen]; omega)]
    exact bucketsUpTo_get (digit pass) (S.take count) RADIX_SIZE d j hd hj

set_option maxRecDepth 100000 in
theorem partition_pass_stable_distribution_witness :
    (BufferRole.caller ≠ BufferRole.scratch ∧
      3 ≤ [(⟨2, 50⟩ : render_item_t), ⟨1, 10⟩, ⟨2, 30⟩, ⟨0, 7⟩].length ∧
      3 ≤ [(⟨9, 9⟩ : render_item_t), ⟨9, 9⟩, ⟨9, 9⟩, ⟨8, 8⟩].length ∧
      (∀ d, d < RADIX_SIZE → ([0, 1, 2] ++ List.replicate 253 0).getD d 0
        = digit_count (digit 0)
            ([(⟨2, 50⟩ : render_item_t), ⟨1, 10⟩, ⟨2, 30⟩, ⟨0, 7⟩].take 3) d)) ∧
    partition_loop 3 0 (0 * RADIX_BITS) .caller .scratch
        (queue_ptrs_init ([0, 1, 2] ++ List.replicate 253 0))
        ⟨[⟨2, 50⟩, ⟨1, 10⟩, ⟨2, 30⟩, ⟨0, 7⟩], some [⟨9, 9⟩, ⟨9, 9⟩, ⟨9, 9⟩, ⟨8, 8⟩]⟩
      = some ⟨[⟨2, 50⟩, ⟨1, 10⟩, ⟨2, 30⟩, ⟨0, 7⟩],
          some [⟨1, 10⟩, ⟨2, 50⟩, ⟨2, 30⟩, ⟨8, 8⟩]⟩ ∧
    ∃ m1 D1, partition_loop 3 0 (0 * RADIX_BITS) .caller .scratch
        (queue_ptrs_init ([0, 1, 2] ++ List.replicate 253 0))
        ⟨[⟨2, 50⟩, ⟨1, 10⟩, ⟨2, 30⟩, ⟨0, 7⟩], some [⟨9, 9⟩, ⟨9, 9⟩, ⟨9, 9⟩, ⟨8, 8⟩]⟩
          = some m1 ∧
      m1.buf .caller = some [⟨2, 50⟩, ⟨1, 10⟩, ⟨2, 30⟩, ⟨0, 7⟩] ∧
      m1.buf .scratch = some D1 ∧
      D1.length = [(⟨9, 9⟩ : render_item_t), ⟨9, 9⟩, ⟨9, 9⟩, ⟨8, 8⟩].length ∧
      D1.drop 3 = [(⟨9, 9⟩ : render_item_t), ⟨9, 9⟩, ⟨9, 9⟩, ⟨8, 8⟩].drop 3 ∧
      D1.take 3 = (List.range RADIX_SIZE).flatMap
        (fun d => ([(⟨2, 50⟩ : render_item_t), ⟨1, 10⟩, ⟨2, 30⟩, ⟨0, 7⟩].take 3).filter
          (fun x => digit 0 x = d)) ∧
      (∀ d, d < RADIX_SIZE →
        (queue_ptrs_init ([0, 1, 2] ++ List.replicate 253 0)).getD d 0
          = ((List.range d).map
              (fun e => ([0, 1, 2] ++ List.replicate 253 0).getD e 0)).sum) ∧
      ∀ d j, d < RADIX_SIZE → j < ([0, 1, 2] ++ List.replicate 253 0).getD d 0 →
        D1[((List.range d).map
            (fun e => ([0, 1, 2] ++ List.replicate 253 0).getD e 0)).sum + j]?
          = (([(⟨2, 50⟩ : render_item_t), ⟨1, 10⟩, ⟨2, 30⟩, ⟨0, 7⟩].take 3).filter
              (fun x => digit 0 x = d))[j]? :=
  ⟨⟨by decide, by decide, by decide, by decide⟩, by decide,
    partition_pass_stable_distribution 0 3 .caller .scratch
      ⟨[⟨2, 50⟩, ⟨1, 10⟩, ⟨2, 30⟩, ⟨0, 7⟩], some [⟨9, 9⟩, ⟨9, 9⟩, ⟨9, 9⟩, ⟨8, 8⟩]⟩
      [⟨2, 50⟩, ⟨1, 10⟩, ⟨2, 30⟩, ⟨0, 7⟩] [⟨9, 9⟩, ⟨9, 9⟩, ⟨9, 9⟩, ⟨8, 8⟩]
      ([0, 1, 2] ++ List.replicate 253 0) (by decide) rfl rfl (by decide) (by decide)
      (by decide)⟩

/-- Claim C16. Invariant of the level loop: for every `k ≤ 8`, the state after the first
`k` levels of a call (from which the remaining levels of the loop continue) has in the first
`count` cells of its `from` block a rearrangement of the input's first `count` records that
is sorted by the low `8k` bits of the key, records of equal low bits keeping their input
order; for `k = 8` these `count` records are what the call hands back, sorted by the whole
key. -/
theorem radix_pass_loop_invariant (junk : Nat → render_item_t) (a : List render_item_t)
    (count : Nat) (s : Scratch) (k : Nat)
    (h : count ≤ a.length) (hs : s.Valid) (hk : Keys64 a) (hk8 : k ≤ RADIX_LEVELS) :
    ∃ F, count_frequency a count freqs_zero = some F ∧
      ∃ mk srck Sk,
        radix_pass_loop k 0 F count .caller .scratch
          ⟨a, (radix_resize junk count s).radix_queue_area⟩ = some (mk, srck) ∧
        radix_pass_loop RADIX_LEVELS 0 F count .caller .scratch
            ⟨a, (radix_resize junk count s).radix_queue_area⟩
          = radix_pass_loop (RADIX_LEVELS - k) k F count srck srck.other mk ∧
        mk.buf srck = some Sk ∧
        (Sk.take count).Perm (a.take count) ∧
        (Sk.take count).Pairwise
          (fun x y => x.sort_id % 2 ^ (8 * k) ≤ y.sort_id % 2 ^ (8 * k)) ∧
        (∀ v, (Sk.take count).filter (fun r => r.sort_id % 2 ^ (8 * k) = v)
          = (a.take count).filter (fun r => r.sort_id % 2 ^ (8 * k) = v)) ∧
        ∃ a1 s1, radix_sort7 junk a count s = some (a1, s1) ∧
          (k = RADIX_LEVELS → a1.take count = Sk.take count ∧
            (a1.take count).Pairwise (fun x y => x.sort_id ≤ y.sort_id)) := by
  obtain ⟨F, hF, _, hget⟩ := count_frequency_spec a count h
  obtain ⟨mk, srck, Sk, e, hSk, _, ht, _, _, _⟩ :=
    radix_pass_loop_from_start junk a count s F k h hs hk8 hget
  obtain ⟨s1, e1, _, _⟩ := radix_sort7_spec junk a count s h hs
  have hpow : 2 ^ (8 * k) = 256 ^ k := by rw [pow_mul]; norm_num
  refine ⟨F, hF, mk, srck, Sk, e, ?_, hSk, ?_, ?_, ?_, _, s1, e1, ?_⟩
  · have := radix_pass_loop_split F count k (RADIX_LEVELS - k) 0 .caller
      ⟨a, (radix_resize junk count s).radix_queue_area⟩
    rw [show k + (RADIX_LEVELS - k) = RADIX_LEVELS by omega] at this
    have this2 : radix_pass_loop RADIX_LEVELS 0 F count .caller .scratch
        ⟨a, (radix_resize junk count s).radix_queue_area⟩
        = (radix_pass_loop k 0 F count .caller .scratch
            ⟨a, (radix_resize junk count s).radix_queue_area⟩).bind
          (fun r => radix_pass_loop (RADIX_LEVELS - k) (0 + k) F count r.2 r.2.other r.1) :=
      this
    rw [this2, e]
    simp
  · rw [ht]; exact lsd_passes_perm _ _ _
  · rw [ht, hpow]; exact lsd_passes_sorted_low k _
  · intro v
    rw [ht, hpow]
    exact lsd_passes_filter_low k v k 0 _ (by omega)
  · intro hk
    subst hk
    rw [result_take a count h, ht]
    exact ⟨rfl, lsd_sorted _ (fun r hr => hk r (List.mem_of_mem_take hr))⟩

theorem radix_pass_loop_invariant_witness :
    (3 ≤ [(⟨0x0205, 50⟩ : render_item_t), ⟨0x0101, 10⟩, ⟨0x0103, 30⟩, ⟨0, 7⟩].length ∧
      Scratch.initial.Valid ∧
      Keys64 [⟨0x0205, 50⟩, ⟨0x0101, 10⟩, ⟨0x0103, 30⟩, ⟨0, 7⟩] ∧ 1 ≤ RADIX_LEVELS) ∧
    ∃ F, count_frequency [⟨0x0205, 50⟩, ⟨0x0101, 10⟩, ⟨0x0103, 30⟩, ⟨0, 7⟩] 3 freqs_zero
        = some F ∧
      ∃ mk srck Sk,
        radix_pass_loop 1 0 F 3 .caller .scratch
          ⟨[⟨0x0205, 50⟩, ⟨0x0101, 10⟩, ⟨0x0103, 30⟩, ⟨0, 7⟩],
            (radix_resize (fun _ => ⟨9, 9⟩) 3 Scratch.initial).radix_queue_area⟩
          = some (mk, srck) ∧
        radix_pass_loop RADIX_LEVELS 0 F 3 .caller .scratch
            ⟨[⟨0x0205, 50⟩, ⟨0x0101, 10⟩, ⟨0x0103, 30⟩, ⟨0, 7⟩],
              (radix_resize (fun _ => ⟨9, 9⟩) 3 Scratch.initial).radix_queue_area⟩
          = radix_pass_loop (RADIX_LEVELS - 1) 1 F 3 srck srck.other mk ∧
        mk.buf srck = some Sk ∧
        (Sk.take 3).Perm
          ([(⟨0x0205, 50⟩ : render_item_t), ⟨0x0101, 10⟩, ⟨0x0103, 30⟩, ⟨0, 7⟩].take 3) ∧
        (Sk.take 3).Pairwise
          (fun x y => x.sort_id % 2 ^ (8 * 1) ≤ y.sort_id % 2 ^ (8 * 1)) ∧
        (∀ v, (Sk.take 3).filter (fun r => r.sort_id % 2 ^ (8 * 1) = v)
          = ([(⟨0x0205, 50⟩ : render_item_t), ⟨0x0101, 10⟩, ⟨0x0103, 30⟩,
              ⟨0, 7⟩].take 3).filter (fun r => r.sort_id % 2 ^ (8 * 1) = v)) ∧
        ∃ a1 s1, radix_sort7 (fun _ => ⟨9, 9⟩)
            [⟨0x0205, 50⟩, ⟨0x0101, 10⟩, ⟨0x0103, 30⟩, ⟨0, 7⟩] 3 Scratch.initial
              = some (a1, s1) ∧
          (1 = RADIX_LEVELS → a1.take 3 = Sk.take 3 ∧
            (a1.take 3).Pairwise (fun x y => x.sort_id ≤ y.sort_id)) :=
  ⟨⟨by decide, by decide, by decide, by decide⟩,
    radix_pass_loop_invariant (fun _ => ⟨9, 9⟩)
      [⟨0x0205, 50⟩, ⟨0x0101, 10⟩, ⟨0x0103, 30⟩, ⟨0, 7⟩] 3 Scratch.initial 1
      (by decide) (by decide) (by decide) (by decide)⟩

/-- Claim C17. Bounds safety of partitioning: in a call with `count` within the block, the
scratch capacity is at least `count` before the level loop (and a block of that capacity is
held when `count > 0`); the call returns; and on every level `k`, the partition pass from
the state the loop has reached after `k` levels returns, its `count` writes go to the
destination offsets `0 .. count-1`, each exactly once, and the slot of a digit `d` ends at
`offset[d] + freqs[k][d]`, which is at most `count`. -/
theorem radix_sort7_bounds_safe (junk : Nat → render_item_t) (a : List render_item_t)
    (count : Nat) (s : Scratch) (h : count ≤ a.length) (hs : s.Valid) :
    (count ≤ (radix_resize junk count s).radix_queue_size ∧
      (0 < count → ∃ buf, (radix_resize junk count s).radix_queue_area = some buf ∧
        count ≤ buf.length)) ∧
    (∃ a1 s1, radix_sort7 junk a count s = some (a1, s1)) ∧
    ∃ F, count_frequency a count freqs_zero = some F ∧
      ∀ k, k < RADIX_LEVELS →
        ∃ mk srck, radix_pass_loop k 0 F count .caller .scratch
            ⟨a, (radix_resize junk count s).radix_queue_area⟩ = some (mk, srck) ∧
          ∃ m1 writes ptrs1,
            partition_loop_writes count 0 (k * RADIX_BITS) srck srck.other
              (queue_ptrs_init (F.getD k [])) mk = some (m1, writes, ptrs1) ∧
            partition_loop count 0 (k * RADIX_BITS) srck srck.other
              (queue_ptrs_init (F.getD k [])) mk = some m1 ∧
            writes.length = count ∧ (∀ w ∈ writes, w < count) ∧
            writes.Perm (List.range count) ∧
            ∀ d, d < RADIX_SIZE →
              (queue_ptrs_init (F.getD k [])).getD d 0
                = ((List.range d).map (fun e => (F.getD k []).getD e 0)).sum ∧
              ptrs1.getD d 0
                = ((List.range d).map (fun e => (F.getD k []).getD e 0)).sum
                  + (F.getD k []).getD d 0 ∧
              ptrs1.getD d 0 ≤ count := by
  obtain ⟨_, hsz, hbuf⟩ := radix_resize_spec junk count s hs
  obtain ⟨s1, e1, _, _⟩ := radix_sort7_spec junk a count s h hs
  obtain ⟨F, hF, _, hget⟩ := count_frequency_spec a count h
  refine ⟨⟨by rw [hsz]; omega, fun hc => ?_⟩, ⟨_, s1, e1⟩, F, hF, ?_⟩
  · obtain ⟨buf, hb1, _, hb3⟩ := hbuf hc
    exact ⟨buf, hb1, hb3⟩
  · intro k hk
    obtain ⟨mk, srck, Sk, e, hSk, hlen, ht, _, _, hD⟩ :=
      radix_pass_loop_from_start junk a count s F k h hs (by omega) hget
    obtain ⟨m1, writes, ptrs1, hw, hp, hperm, hptrs⟩ := partition_writes_safe a count k F
      srck mk Sk hk hget hSk hlen (by rw [ht]; exact lsd_passes_perm _ _ _) hD
    refine ⟨mk, srck, e, m1, writes, ptrs1, hw, hp, ?_, ?_, hperm, ?_⟩
    · rw [hperm.length_eq, List.length_range]
    · intro w hw'
      exact List.mem_range.mp (hperm.mem_iff.mp hw')
    · intro d hd
      obtain ⟨h1, h2, h3⟩ := hptrs d hd
      rw [← offset_eq_sum]
      exact ⟨h1, h2, h3⟩

theorem radix_sort7_bounds_safe_witness :
    (3 ≤ [(⟨0x0205, 50⟩ : render_item_t), ⟨0x0101, 10⟩, ⟨0x0103, 30⟩, ⟨0, 7⟩].length ∧
      Scratch.initial.Valid) ∧
    (3 ≤ (radix_resize (fun _ => ⟨9, 9⟩) 3 Scratch.initial).radix_queue_size ∧
      (0 < 3 → ∃ buf, (radix_resize (fun _ => ⟨9, 9⟩) 3 Scratch.initial).radix_queue_area
          = some buf ∧ 3 ≤ buf.length)) ∧
    (∃ a1 s1, radix_sort7 (fun _ => ⟨9, 9⟩)
      [⟨0x0205, 50⟩, ⟨0x0101, 10⟩, ⟨0x0103, 30⟩, ⟨0, 7⟩] 3 Scratch.initial = some (a1, s1)) ∧
    ∃ F, count_frequency [⟨0x0205, 50⟩, ⟨0x0101, 10⟩, ⟨0x0103, 30⟩, ⟨0, 7⟩] 3 freqs_zero
        = some F ∧
      ∀ k, k < RADIX_LEVELS →
        ∃ mk srck, radix_pass_loop k 0 F 3 .caller .scratch
            ⟨[⟨0x0205, 50⟩, ⟨0x0101, 10⟩, ⟨0x0103, 30⟩, ⟨0, 7⟩],
              (radix_resize (fun _ => ⟨9, 9⟩) 3 Scratch.initial).radix_queue_area⟩
            = some (mk, srck) ∧
          ∃ m1 writes ptrs1,
            partition_loop_writes 3 0 (k * RADIX_BITS) srck srck.other
              (queue_ptrs_init (F.getD k [])) mk = some (m1, writes, ptrs1) ∧
            partition_loop 3 0 (k * RADIX_BITS) srck srck.other
              (queue_ptrs_init (F.getD k [])) mk = some m1 ∧
            writes.length = 3 ∧ (∀ w ∈ writes, w < 3) ∧
            writes.Perm (List.range 3) ∧
            ∀ d, d < RADIX_SIZE →
              (queue_ptrs_init (F.getD k [])).getD d 0
                = ((List.range d).map (fun e => (F.getD k []).getD e 0)).sum ∧
              ptrs1.getD d 0
                = ((List.range d).map (fun e => (F.getD k []).getD e 0)).sum
                  + (F.getD k []).getD d 0 ∧
              ptrs1.getD d 0 ≤ 3 :=
  ⟨⟨by decide, by decide⟩,
    radix_sort7_bounds_safe (fun _ => ⟨9, 9⟩)
      [⟨0x0205, 50⟩, ⟨0x0101, 10⟩, ⟨0x0103, 30⟩, ⟨0, 7⟩] 3 Scratch.initial
      (by decide) (by decide)⟩

/-- Claim C18. The `assert(count == 0)` of `is_trivial` does not fail inside `radix_sort7`:
every row of the histogram built by `count_frequency` sums to `count`, `is_trivial` returns
on every level, a row without a non-zero counter occurs only when `count = 0`, and the
call itself returns. -/
theorem is_trivial_assert_holds (junk : Nat → render_item_t) (a : List render_item_t)
    (count : Nat) (s : Scratch) (h : count ≤ a.length) (hs : s.Valid) :
    (∃ F, count_frequency a count freqs_zero = some F ∧
      ∀ l, l < RADIX_LEVELS →
        (F.getD l []).sum = count ∧
        (∃ b, is_trivial (F.getD l []) count = some b) ∧
        ((∀ d, d < RADIX_SIZE → (F.getD l []).getD d 0 = 0) → count = 0)) ∧
    ∃ a1 s1, radix_sort7 junk a count s = some (a1, s1) := by
  obtain ⟨F, hF, hshape, hget⟩ := count_frequency_spec a count h
  have hlen : (a.take count).length = count := by rw [List.length_take]; omega
  refine ⟨⟨F, hF, ?_⟩, ?_⟩
  · intro l hl
    have hsum := row_sum_eq_length (digit l) (a.take count) (F.getD l [])
      (fun x _ => digit_lt l x) (hshape.2 l hl) (fun v _ => hget l hl v)
    rw [hlen] at hsum
    refine ⟨hsum, ?_, ?_⟩
    · obtain ⟨b, hb, _⟩ := is_trivial_of_counts (digit l) (a.take count) (F.getD l [])
        (fun x _ => digit_lt l x) (fun v _ => hget l hl v)
      rw [hlen] at hb
      exact ⟨b, hb⟩
    · intro hz
      rw [← hsum]
      apply sum_eq_zero_of_getD
      intro v
      by_cases hv : v < RADIX_SIZE
      · exact hz v hv
      · rw [List.getD_eq_getElem?_getD, List.getElem?_eq_none (by rw [hshape.2 l hl]; omega)]
        rfl
  · obtain ⟨s1, e, _, _⟩ := radix_sort7_spec junk a count s h hs
    exact ⟨_, s1, e⟩

theorem is_trivial_assert_holds_witness :
    (3 ≤ [(⟨5, 50⟩ : render_item_t), ⟨1, 10⟩, ⟨3, 30⟩].length ∧ Scratch.initial.Valid) ∧
    (∃ F, count_frequency [⟨5, 50⟩, ⟨1, 10⟩, ⟨3, 30⟩] 3 freqs_zero = some F ∧
      ∀ l, l < RADIX_LEVELS →
        (F.getD l []).sum = 3 ∧
        (∃ b, is_trivial (F.getD l []) 3 = some b) ∧
        ((∀ d, d < RADIX_SIZE → (F.getD l []).getD d 0 = 0) → 3 = 0)) ∧
    ∃ a1 s1, radix_sort7 (fun _ => ⟨9, 9⟩) [⟨5, 50⟩, ⟨1, 10⟩, ⟨3, 30⟩] 3 Scratch.initial
      = some (a1, s1) :=
  ⟨⟨by decide, by decide⟩,
    is_trivial_assert_holds (fun _ => ⟨9, 9⟩) [⟨5, 50⟩, ⟨1, 10⟩, ⟨3, 30⟩] 3
      Scratch.initial (by decide) (by decide)⟩

/-- Claim C19. With `RADIX_BITS = 8` the constants are `RADIX_SIZE = 256`,
`RADIX_MASK = 255`, `RADIX_LEVELS = 8`; for a 64-bit key `k` and a level `l < 8`, the low 8
bits after `l` right shifts by 8 (the counter bumped by `count_frequency` on level `l`), the
partitioner's `(k >> 8l) & 255` and `k / 256 ^ l % 256` are the same digit; and `k` is the
sum of its 8 digits weighted by `256 ^ l`. -/
theorem digit_decomposition (k l payload : Nat) (hk : k < 2 ^ 64) (hl : l < RADIX_LEVELS) :
    (RADIX_SIZE = 256 ∧ RADIX_MASK = 255 ∧ RADIX_LEVELS = 8) ∧
    (∀ d, ((count_frequency_passes RADIX_LEVELS 0 k freqs_zero).getD l []).getD d 0
      = if d = (Nat.iterate (fun v => v >>> RADIX_BITS) l k) &&& RADIX_MASK then 1 else 0) ∧
    (Nat.iterate (fun v => v >>> RADIX_BITS) l k) &&& RADIX_MASK
      = (k >>> (l * RADIX_BITS)) &&& RADIX_MASK ∧
    digit l ⟨k, payload⟩ = (k >>> (l * RADIX_BITS)) &&& RADIX_MASK ∧
    (k >>> (l * RADIX_BITS)) &&& RADIX_MASK = k / 256 ^ l % 256 ∧
    k = ((List.range RADIX_LEVELS).map (fun j => (k / 256 ^ j % 256) * 256 ^ j)).sum := by
  refine ⟨⟨by decide, by decide, by decide⟩, ?_, ?_, rfl, ?_, key_digits_sum k hk⟩
  · intro d
    have h := (count_frequency_passes_spec k RADIX_LEVELS 0 freqs_zero freqs_zero_shape
      (by omega)).2 l d
    simp only [Nat.zero_mul, Nat.shiftRight_zero] at h
    rw [h, freqs_zero_get, iterate_shift]
    simp only [Nat.zero_le, Nat.zero_add, hl, true_and]
  · rw [iterate_shift]
  · exact digit_eq l ⟨k, payload⟩

theorem digit_decomposition_witness :
    ((0xFF00000000000001 : Nat) < 2 ^ 64 ∧ 7 < RADIX_LEVELS) ∧
    (Nat.iterate (fun v => v >>> RADIX_BITS) 7 0xFF00000000000001) &&& RADIX_MASK = 255 ∧
    ((RADIX_SIZE = 256 ∧ RADIX_MASK = 255 ∧ RADIX_LEVELS = 8) ∧
    (∀ d, ((count_frequency_passes RADIX_LEVELS 0 0xFF00000000000001 freqs_zero).getD 7
        []).getD d 0
      = if d = (Nat.iterate (fun v => v >>> RADIX_BITS) 7 0xFF00000000000001) &&& RADIX_MASK
        then 1 else 0) ∧
    (Nat.iterate (fun v => v >>> RADIX_BITS) 7 0xFF00000000000001) &&& RADIX_MASK
      = (0xFF00000000000001 >>> (7 * RADIX_BITS)) &&& RADIX_MASK ∧
    digit 7 ⟨0xFF00000000000001, 0⟩ = (0xFF00000000000001 >>> (7 * RADIX_BITS)) &&& RADIX_MASK ∧
    (0xFF00000000000001 >>> (7 * RADIX_BITS)) &&& RADIX_MASK
      = 0xFF00000000000001 / 256 ^ 7 % 256 ∧
    0xFF00000000000001 = ((List.range RADIX_LEVELS).map
      (fun j => (0xFF00000000000001 / 256 ^ j % 256) * 256 ^ j)).sum) :=
  ⟨⟨by decide, by decide⟩, by decide,
    digit_decomposition 0xFF00000000000001 7 0 (by decide) (by decide)⟩

/-- Claim C20. Frame on the caller's block: for `count` within the block (in particular
`count < length`), `radix_sort7` returns a block of the same length in which every record
at an index `≥ count` is the one it was; after any number of levels of the loop the
caller's block has its length and its records from `count` on unchanged, and the final copy
replaces exactly the first `count` records. -/
theorem radix_sort7_frame (junk : Nat → render_item_t) (a : List render_item_t)
    (count : Nat) (s : Scratch) (h : count ≤ a.length) (hs : s.Valid) :
    (∃ a1 s1, radix_sort7 junk a count s = some (a1, s1) ∧ a1.length = a.length ∧
      a1.drop count = a.drop count ∧ ∀ i, count ≤ i → a1[i]? = a[i]?) ∧
    (∃ F, count_frequency a count freqs_zero = some F ∧
      ∀ k, k ≤ RADIX_LEVELS →
        ∃ mk srck, radix_pass_loop k 0 F count .caller .scratch
            ⟨a, (radix_resize junk count s).radix_queue_area⟩ = some (mk, srck) ∧
          mk.a.length = a.length ∧ mk.a.drop count = a.drop count) ∧
    ∀ (m : Memory) (buf : List render_item_t), m.area = some buf → count ≤ buf.length →
      count ≤ m.a.length →
      ∃ m1, final_copy m count = some m1 ∧ m1.a.length = m.a.length ∧
        m1.a.drop count = m.a.drop count ∧ m1.a.take count = buf.take count ∧
        m1.area = m.area := by
  obtain ⟨s1, e1, _, _⟩ := radix_sort7_spec junk a count s h hs
  obtain ⟨F, hF, _, hget⟩ := count_frequency_spec a count h
  have hdrop : (lsd_passes RADIX_LEVELS 0 (a.take count) ++ a.drop count).drop count
      = a.drop count := List.drop_left' (lsd_take_length a count h)
  refine ⟨⟨_, s1, e1, result_length a count h, hdrop, ?_⟩, ⟨F, hF, ?_⟩, ?_⟩
  · intro i hi
    rw [List.getElem?_append_right (by rw [lsd_take_length a count h]; exact hi),
      lsd_take_length a count h, List.getElem?_drop,
      show count + (i - count) = i by omega]
  · intro k hk
    obtain ⟨mk, srck, _, e, _, _, _, h1, h2, _⟩ :=
      radix_pass_loop_from_start junk a count s F k h hs hk hget
    exact ⟨mk, srck, e, h1, h2⟩
  · intro m buf hbuf hcb hca
    have hlen : (buf.take count).length = count := by rw [List.length_take]; omega
    refine ⟨{ m with a := buf.take count ++ m.a.drop count }, ?_, ?_, ?_, ?_, rfl⟩
    · simp only [final_copy, hbuf]
      rw [if_pos ⟨hcb, hca⟩]
    · show (buf.take count ++ m.a.drop count).length = m.a.length
      rw [List.length_append, hlen, List.length_drop]; omega
    · exact List.drop_left' hlen
    · exact List.take_left' hlen

theorem radix_sort7_frame_witness :
    (3 ≤ [(⟨0x0205, 50⟩ : render_item_t), ⟨0x0101, 10⟩, ⟨0x0103, 30⟩, ⟨0, 7⟩].length ∧
      Scratch.initial.Valid) ∧
    (∃ a1 s1, radix_sort7 (fun _ => ⟨9, 9⟩)
        [⟨0x0205, 50⟩, ⟨0x0101, 10⟩, ⟨0x0103, 30⟩, ⟨0, 7⟩] 3 Scratch.initial
          = some (a1, s1) ∧
      a1.length = [(⟨0x0205, 50⟩ : render_item_t), ⟨0x0101, 10⟩, ⟨0x0103, 30⟩,
        ⟨0, 7⟩].length ∧
      a1.drop 3
        = [(⟨0x0205, 50⟩ : render_item_t), ⟨0x0101, 10⟩, ⟨0x0103, 30⟩, ⟨0, 7⟩].drop 3 ∧
      ∀ i, 3 ≤ i → a1[i]?
        = [(⟨0x0205, 50⟩ : render_item_t), ⟨0x0101, 10⟩, ⟨0x0103, 30⟩, ⟨0, 7⟩][i]?) ∧
    (∃ F, count_frequency [⟨0x0205, 50⟩, ⟨0x0101, 10⟩, ⟨0x0103, 30⟩, ⟨0, 7⟩] 3 freqs_zero
        = some F ∧
      ∀ k, k ≤ RADIX_LEVELS →
        ∃ mk srck, radix_pass_loop k 0 F 3 .caller .scratch
            ⟨[⟨0x0205, 50⟩, ⟨0x0101, 10⟩, ⟨0x0103, 30⟩, ⟨0, 7⟩],
              (radix_resize (fun _ => ⟨9, 9⟩) 3 Scratch.initial).radix_queue_area⟩
            = some (mk, srck) ∧
          mk.a.length = [(⟨0x0205, 50⟩ : render_item_t), ⟨0x0101, 10⟩, ⟨0x0103, 30⟩,
            ⟨0, 7⟩].length ∧
          mk.a.drop 3 = [(⟨0x0205, 50⟩ : render_item_t), ⟨0x0101, 10⟩, ⟨0x0103, 30⟩,
            ⟨0, 7⟩].drop 3) ∧
    ∀ (m : Memory) (buf : List render_item_t), m.area = some buf → 3 ≤ buf.length →
      3 ≤ m.a.length →
      ∃ m1, final_copy m 3 = some m1 ∧ m1.a.length = m.a.length ∧
        m1.a.drop 3 = m.a.drop 3 ∧ m1.a.take 3 = buf.take 3 ∧ m1.area = m.area :=
  ⟨⟨by decide, by decide⟩,
    radix_sort7_frame (fun _ => ⟨9, 9⟩)
      [⟨0x0205, 50⟩, ⟨0x0101, 10⟩, ⟨0x0103, 30⟩, ⟨0, 7⟩] 3 Scratch.initial
      (by decide) (by decide)⟩

end RenderSort
